import Mathlib

/-!
# Verification of the cube-alchemy schema-graph engine and analytics compiler

This file gives a shallow embedding, in Lean 4, of the core algorithms of the
`cube_alchemy` package:

* the relationship graph and its breadth-first path finder
  (`Engine._find_path` in `core/hypercube_mixins/engine.py`),
* the depth-first cycle detector (`Engine._has_cyclic_relationships`),
* the trajectory planner (`Engine._find_complete_trajectory`),
* link-table synthesis (`Engine._create_and_update_link_table`) over a small
  column-oriented data-frame model,
* the multi-table key-space join (`Engine._join_trajectory_keys_multi_table`),
* the `load_data` construction pipeline (`core/hypercube.py`),
* the analytics definition compiler (`define_metric`, `define_computed_metric`,
  `define_query`, `_refresh_queries_dependent_on` in
  `core/hypercube_building_classes/analytics_components.py`).

Python dictionaries are modelled as association lists with insertion-order
semantics (assignment to an existing key keeps its position, a new key is
appended), matching CPython's ordered dicts.  Python sets that the code only
tests membership on are modelled as lists.  Loops whose termination depends on
a visited set are given an explicit fuel argument together with lemmas showing
the chosen fuel is always sufficient, so that all definitions compute by
`decide`/`rfl`.
-/

namespace CubeAlchemy

/-- Python `dict.get`: first binding of the key in an association list. -/
def alookup {α β : Type} [DecidableEq α] : List (α × β) → α → Option β
  | [], _ => none
  | (k, v) :: rest, a => if k = a then some v else alookup rest a

/-- Python `d[k] = v`: overwrite in place if the key is present (keeping its
position), otherwise append the new binding, as CPython ordered dicts do. -/
def aset {α β : Type} [DecidableEq α] : List (α × β) → α → β → List (α × β)
  | [], a, b => [(a, b)]
  | (k, v) :: rest, a, b => if k = a then (a, b) :: rest else (k, v) :: aset rest a b

/-- Helper for `dedupFirst`: drop elements already seen. -/
def dedupFirstAux {α : Type} [DecidableEq α] : List α → List α → List α
  | [], _ => []
  | a :: as, seen =>
      if a ∈ seen then dedupFirstAux as seen else a :: dedupFirstAux as (a :: seen)

/-- Keep the first occurrence of each element (used to model iteration over a
Python set or dict built by repeated insertion, in deterministic order). -/
def dedupFirst {α : Type} [DecidableEq α] (l : List α) : List α :=
  dedupFirstAux l []

/-- The `self.relationships` dict: `(table1, table2) -> (key1, key2)`. -/
abbrev Rel := List ((String × String) × (String × String))

/-- One step of a path as returned by `_find_path`:
a `(tableA, tableB, keyA, keyB)` tuple. -/
structure Edge where
  tableA : String
  tableB : String
  keyA : String
  keyB : String
deriving DecidableEq, Repr

/-- All table names mentioned by the relationship map, first occurrence first
(the node set of the relationship graph). -/
def relNodes (rel : Rel) : List String :=
  dedupFirst (rel.flatMap (fun r => [r.1.1, r.1.2]))

/-- `path_ok rel s p e`: `p` is a list of `(tableA, tableB, keyA, keyB)` steps,
each an item of the relationship map, chaining from `s` to `e`. -/
def path_ok (rel : Rel) : String → List Edge → String → Prop
  | s, [], e => s = e
  | s, ed :: rest, e =>
      ed.tableA = s ∧ ((ed.tableA, ed.tableB), (ed.keyA, ed.keyB)) ∈ rel ∧
        path_ok rel ed.tableB rest e

instance path_ok_dec (rel : Rel) :
    (s : String) → (p : List Edge) → (e : String) → Decidable (path_ok rel s p e)
  | s, [], e => inferInstanceAs (Decidable (s = e))
  | s, ed :: rest, e =>
      have : Decidable (path_ok rel ed.tableB rest e) := path_ok_dec rel ed.tableB rest e
      inferInstanceAs (Decidable (_ ∧ _ ∧ _))

/-- The neighbour scan of one BFS dequeue in `_find_path`: iterate over all
relationship items; a successor of `t` not yet visited is marked visited and
enqueued (in item order) with the extended path, exactly as the Python
`for (neighbor_table, (key1, key2)) in self.relationships.items()` loop does. -/
def bfs_expand (t : String) (p : List Edge) :
    Rel → List String → List String × List (String × List Edge)
  | [], visited => (visited, [])
  | ((a, b), (k1, k2)) :: rest, visited =>
      if a = t ∧ b ∉ visited then
        let r := bfs_expand t p rest (b :: visited)
        (r.1, (b, p ++ [⟨a, b, k1, k2⟩]) :: r.2)
      else
        bfs_expand t p rest visited

/-- The BFS `while queue:` loop of `_find_path`, with explicit fuel.
`bfs_loop_fuel` below shows the fuel used by `find_path` never runs out. -/
def bfs_loop (rel : Rel) (end_table : String) :
    Nat → List (String × List Edge) → List String → Option (List Edge)
  | 0, _, _ => none
  | _ + 1, [], _ => none
  | fuel + 1, (t, p) :: rest, visited =>
      if t = end_table then some p
      else
        let r := bfs_expand t p rel visited
        bfs_loop rel end_table fuel (rest ++ r.2) r.1

/-- `Engine._find_path`: breadth-first search over the relationship graph from
`start_table` to `end_table`, returning the ordered edge list of the shortest
path, or `none` when unreachable.  The initial queue holds `(start, [])` and
`start` is pre-visited, as in the source.  The fuel `2 * rel.length + 1` bounds
the number of loop iterations: every iteration dequeues one entry, and at most
one entry is ever enqueued per graph node (each enqueue marks a fresh node
visited), of which there are at most `2 * rel.length`. -/
def find_path (rel : Rel) (start_table end_table : String) : Option (List Edge) :=
  bfs_loop rel end_table (2 * rel.length + 1) [(start_table, [])] [start_table]

/-! ## Cycle detection (`Engine._has_cyclic_relationships`)

The Python code runs a recursive DFS with a shared mutable `visited` set and a
`path` stack, excluding the immediate parent; its `connected_tables` is a set
comprehension over the relationship keys.  We model the set in deterministic
first-occurrence order, thread `visited` explicitly, and hoist the
`visited.add(node)` from the callee's entry to the call site (equivalent, and
it makes the fuel argument evident).  `path.append`/`path.pop` become passing
`path ++ [node]` to the children and simply not propagating it on return. -/

/-- `set(table2 for (table1, table2) in relationships if table1 == node and
table2 != parent)`, in deterministic first-occurrence order.  A `parent` of
`none` models Python's `None` (every string differs from it). -/
def connected_tables (rel : Rel) (node : String) (parent : Option String) : List String :=
  dedupFirst (rel.filterMap (fun r =>
    if r.1.1 = node ∧ some r.1.2 ≠ parent then some r.1.2 else none))

/-- The `for next_node in connected_tables:` loop inside the Python `dfs`,
with the recursive `dfs(next_node, …)` call inlined (entering a child `n`
pushes `n` on `visited` and `path` and switches to `n`'s neighbour list).
The first argument is fuel, consumed on every recursive call so that the
definition is structurally recursive and computes inside the kernel;
`dfs_go_fuel` below shows the fuel chosen by `has_cyclic_relationships`
never runs out.  On the cycle branch Python returns
`path[path.index(next_node):]`. -/
def dfs_go (rel : Rel) : Nat → List String → String → Option String → List String →
    List String → List String × List String
  | 0, _, _, _, visited, _ => (visited, [])
  | _ + 1, [], _, _, visited, _ => (visited, [])
  | fuel + 1, n :: ns, node, parent, visited, path =>
      if n ∉ visited then
        let r := dfs_go rel fuel (connected_tables rel n (some node)) n (some node)
            (n :: visited) (path ++ [n])
        if r.2 ≠ [] then r else dfs_go rel fuel ns node parent r.1 path
      else if n ∈ path ∧ some n ≠ parent then
        (visited, path.drop (path.indexOf n))
      else
        dfs_go rel fuel ns node parent visited path

/-- The body of the Python `dfs(node, visited, path, parent)`: `visited`
already contains `node` (the `visited.add(node)` is hoisted to the call
sites); returns the updated visited set and the detected cycle (`[]` means
no cycle, matching Python's falsy empty list). -/
def dfs_visit (rel : Rel) (fuel : Nat) (node : String) (parent : Option String)
    (visited path : List String) : List String × List String :=
  dfs_go rel fuel (connected_tables rel node parent) node parent visited (path ++ [node])

/-- Fuel for one top-level `dfs` call: enough for every node to be expanded
once, each expansion stepping through at most `rel.length` neighbours. -/
def dfsFuel (rel : Rel) : Nat :=
  (2 * rel.length + 1) * (rel.length + 1) + 1

/-- The `for table in tables: if table not in visited: ...` loop of
`_has_cyclic_relationships`. -/
def cyc_loop (rel : Rel) : List String → List String → Bool × List String
  | [], _ => (false, [])
  | t :: ts, visited =>
      if t ∈ visited then cyc_loop rel ts visited
      else
        let r := dfs_visit rel (dfsFuel rel) t none (t :: visited) []
        if r.2 ≠ [] then (true, r.2) else cyc_loop rel ts r.1

/-- `Engine._has_cyclic_relationships`: DFS over every unvisited table node;
returns `(is_cyclic, cycle_path)`. -/
def has_cyclic_relationships (rel : Rel) : Bool × List String :=
  cyc_loop rel (relNodes rel) []

/-! ## Trajectory planning (`Engine._find_complete_trajectory`) -/

/-- Python truthiness of a `_find_path` result: `None` and `[]` are falsy. -/
def truthy : Option (List Edge) → Bool
  | none => false
  | some p => decide (p ≠ [])

/-- `for step in path: trajectory.append(step[0]); trajectory.append(step[1])`. -/
def traj_steps (p : List Edge) : List String :=
  p.flatMap (fun e => [e.tableA, e.tableB])

/-- The fallback scan `for table in self.tables:` looking for an intermediate
table with truthy paths from the current start and to the next target; returns
the concatenated step list of the first hit. -/
def find_intermediate (rel : Rel) (start next : String) : List String → Option (List Edge)
  | [] => none
  | t :: ts =>
      let p1 := find_path rel start t
      let p2 := find_path rel t next
      if truthy p1 ∧ truthy p2 then some (p1.getD [] ++ p2.getD [])
      else find_intermediate rel start next ts

/-- The `for i in range(1, len(target_table_list)):` loop: one leg per
remaining target, appending the found steps (or nothing when both the direct
path and the intermediate fallback fail), then moving `start` to the target. -/
def traj_legs (rel : Rel) (tables : List String) : String → List String → List String
  | _, [] => []
  | start, next :: rest =>
      let path := find_path rel start next
      let leg :=
        if truthy path then traj_steps (path.getD [])
        else
          match find_intermediate rel start next tables with
          | some steps => traj_steps steps
          | none => []
      leg ++ traj_legs rel tables next rest

/-- The final de-duplication loop: keep `trajectory[i]` iff `i == 0` or
`trajectory[i] != trajectory[i-1]` (comparison with the previous raw element). -/
def collapse_aux (prev : String) : List String → List String
  | [] => []
  | a :: as => if a = prev then collapse_aux a as else a :: collapse_aux a as

/-- Remove adjacent duplicates, as the final loop of
`_find_complete_trajectory` does. -/
def collapse_adjacent : List String → List String
  | [] => []
  | a :: as => a :: collapse_aux a as

/-- `Engine._find_complete_trajectory`: walk the ordered target tables
(`target_tables` dict keys), extending leg by leg, then collapse adjacent
duplicates.  `tables` is the key list of `self.tables` used by the
intermediate-table fallback. -/
def find_complete_trajectory (rel : Rel) (tables : List String)
    (target_tables : List String) : List String :=
  match target_tables with
  | [] => []
  | t0 :: rest => collapse_adjacent (t0 :: traj_legs rel tables t0 rest)

/-! ## A small data-frame model

The engine manipulates pandas `DataFrame`s through a small set of operations:
column selection, `drop_duplicates` (keep-first), left/outer merges on key
columns, renaming and dropping columns, and appending computed columns.  We
model a frame as a column-name list plus aligned rows of cells.  pandas merges
match `NaN` join keys with each other, so the `null` cell value needs no
special casing in the join model. -/

/-- A cell value: a (string or integer) payload, or a missing value. -/
inductive Val
  | str (s : String)
  | int (n : Int)
  | null
deriving DecidableEq, Repr

/-- A column-oriented data frame: column names and aligned rows. -/
structure DF where
  cols : List String
  rows : List (List Val)
deriving DecidableEq, Repr

/-- Position of a column name in a column list. -/
def colIndex : List String → String → Option Nat
  | [], _ => none
  | c :: cs, t => if c = t then some 0 else (colIndex cs t).map (· + 1)

/-- The cell of row `r` in column `c` of `df`. -/
def DF.colVal (df : DF) (c : String) (r : List Val) : Val :=
  match colIndex df.cols c with
  | none => .null
  | some i => r.getD i .null

/-- Column projection `df[cs]`. -/
def DF.select (df : DF) (cs : List String) : DF :=
  ⟨cs, df.rows.map (fun r => cs.map (fun c => df.colVal c r))⟩

/-- `df.drop_duplicates()` (pandas keeps the first occurrence). -/
def DF.dropDuplicates (df : DF) : DF :=
  ⟨df.cols, dedupFirst df.rows⟩

/-- `df.rename(columns={o: n})`. -/
def DF.renameCol (df : DF) (o n : String) : DF :=
  ⟨df.cols.map (fun c => if c = o then n else c), df.rows⟩

/-- `df.drop(columns=[c])`. -/
def DF.dropCol (df : DF) (c : String) : DF :=
  df.select (df.cols.filter (fun c2 => decide (c2 ≠ c)))

/-- The values of column `c` of `df`, in row order. -/
def col_values (df : DF) (c : String) : List Val :=
  df.rows.map (df.colVal c)

/-- `self.tables[t]` with a total fallback (the Python code only indexes
tables that exist; well-formedness hypotheses in the theorems below ensure
the fallback is never taken where it matters). -/
def dfOf (tables : List (String × DF)) (t : String) : DF :=
  (alookup tables t).getD ⟨[], []⟩

/-- pandas `pd.merge(left, right, on=on, how='left')` on a single shared
column: result columns are left's followed by right's minus the join column;
each left row pairs with every matching right row, or with one all-null right
side when nothing matches. -/
def merge_on (left right : DF) (onCol : String) : DF :=
  let rightRest := right.cols.filter (fun c => decide (c ≠ onCol))
  ⟨left.cols ++ rightRest,
   left.rows.flatMap (fun lr =>
     let lv := left.colVal onCol lr
     let ms := right.rows.filter (fun rr => right.colVal onCol rr = lv)
     if ms.isEmpty then [lr ++ rightRest.map (fun _ => Val.null)]
     else ms.map (fun rr => lr ++ rightRest.map (fun c => right.colVal c rr)))⟩

/-- pandas `pd.merge(left, right, left_on=k1, right_on=k2, how='outer')`:
matched pairs in left-row order, then the unmatched right rows with nulls on
the left side.  Both key columns are kept. -/
def merge_outer (left right : DF) (k1 k2 : String) : DF :=
  ⟨left.cols ++ right.cols,
   (left.rows.flatMap (fun lr =>
      let lv := left.colVal k1 lr
      let ms := right.rows.filter (fun rr => right.colVal k2 rr = lv)
      if ms.isEmpty then [lr ++ right.cols.map (fun _ => Val.null)]
      else ms.map (fun rr => lr ++ rr)))
   ++ ((right.rows.filter (fun rr =>
        left.rows.all (fun lr => decide (left.colVal k1 lr ≠ right.colVal k2 rr)))).map
       (fun rr => left.cols.map (fun _ => Val.null) ++ rr))⟩

/-! ## Engine state and link-table synthesis -/

/-- The engine-side fields of the `Hypercube` instance. -/
structure EngineSt where
  tables : List (String × DF)
  link_tables : List (String × DF)
  link_table_keys : List String
  relationships : Rel
  composite_tables : List (String × DF)
  composite_keys : List (String × List String)
  column_to_table : List (String × String)
  rename_original_shared_columns : Bool
  single_table_mode : Bool
  single_table_base : Option String
deriving DecidableEq, Repr

/-- The accumulation loop of `_create_and_update_link_table`:
`link_table = concat([link_table, tables[t][[column]].drop_duplicates()]).drop_duplicates()`
over the contributing tables, flattened to the list of distinct shared-column
values in first-occurrence order. -/
def link_values (tables : List (String × DF)) (column : String)
    (table_names : List String) : List Val :=
  table_names.foldl
    (fun acc t => dedupFirst (acc ++ dedupFirst (col_values (dfOf tables t) column))) []

/-- The link-table frame: the distinct values plus the surrogate key column
`_key_<column>` assigned `1..n` by `range(1, len(link_table) + 1)`. -/
def link_df (column : String) (vals : List Val) : DF :=
  ⟨[column, "_key_" ++ column], vals.enum.map (fun iv => [iv.2, .int (iv.1 + 1)])⟩

/-- `Engine._create_and_update_link_table`: build the link table for `column`
over `table_names`, register it, and left-merge the surrogate key back into
each contributing table, renaming the original column to `"<column> <table>"`
or dropping it. -/
def create_and_update_link_table (st : EngineSt) (column link_table_name : String)
    (table_names : List String) : EngineSt :=
  let vals := link_values st.tables column table_names
  let link := link_df column vals
  let key := "_key_" ++ column
  let st1 := { st with
    link_table_keys := st.link_table_keys ++ [key]
    tables := aset st.tables link_table_name link
    link_tables := aset st.link_tables link_table_name link }
  table_names.foldl (fun s t =>
    let merged := merge_on (dfOf s.tables t) link column
    let final :=
      if s.rename_original_shared_columns then
        merged.renameCol column (column ++ " <" ++ t ++ ">")
      else merged.dropCol column
    { s with tables := aset s.tables t final }) st1

/-- The `all_columns` map of `_create_link_tables`: column name to the list of
tables containing it, in insertion order. -/
def all_columns_map (tables : List (String × DF)) : List (String × List String) :=
  tables.foldl (fun acc td =>
    td.2.cols.foldl (fun acc2 c =>
      match alookup acc2 c with
      | none => acc2 ++ [(c, [td.1])]
      | some ts => aset acc2 c (ts ++ [td.1])) acc) []

/-- `Engine._create_link_tables`: one link table per column shared by at least
two tables. -/
def create_link_tables (st : EngineSt) : EngineSt :=
  (all_columns_map st.tables).foldl (fun s cts =>
    if cts.2.length > 1 then
      create_and_update_link_table s cts.1 ("_link_table_" ++ cts.1) cts.2
    else s) st

/-- `Engine._add_relationship` (both directions; deferred when the key is part
of a composite bridging key and neither side is a composite/bridge table; only
link-table edges once link tables exist). -/
def add_relationship (st : EngineSt) (t1 t2 k1 k2 : String) : EngineSt :=
  if st.link_tables.isEmpty then
    if k1 ∈ st.composite_keys.flatMap (fun kv => kv.2) ∧
        ¬(t2 ∈ st.composite_tables.map (fun td => td.1) ∨
          t1 ∈ st.composite_tables.map (fun td => td.1)) then
      st
    else
      { st with relationships := aset (aset st.relationships (t1, t2) (k1, k2)) (t2, t1) (k2, k1) }
  else if t1 ∈ st.link_tables.map (fun td => td.1) ∨ t2 ∈ st.link_tables.map (fun td => td.1) then
    { st with relationships := aset (aset st.relationships (t1, t2) (k1, k2)) (t2, t1) (k2, k1) }
  else st

/-- Ordered pairs `i < j` of a list, as the nested loops of
`_add_auto_relationships` produce them. -/
def pairsOf {α : Type} : List α → List (α × α)
  | [] => []
  | a :: as => as.map (fun b => (a, b)) ++ pairsOf as

/-- `Engine._add_auto_relationships`: for every table pair, every shared
column name becomes a (candidate) bidirectional relationship.  The Python
`set(...).intersection(...)` is modelled in deterministic first-occurrence
order. -/
def add_auto_relationships (st : EngineSt) : EngineSt :=
  (pairsOf (st.tables.map (fun td => td.1))).foldl (fun s tt =>
    let common := dedupFirst
      ((dfOf s.tables tt.1).cols.filter (fun c => c ∈ (dfOf s.tables tt.2).cols))
    common.foldl (fun s2 c => add_relationship s2 tt.1 tt.2 c c) s) st

/-- `Engine._build_column_to_table_mapping`. -/
def build_column_to_table (st : EngineSt) : EngineSt :=
  { st with column_to_table :=
      st.tables.foldl (fun acc td =>
        td.2.cols.foldl (fun acc2 c => aset acc2 c td.1) acc) st.column_to_table }

/-- The `for table in self.tables:` loop of `load_data` that assigns each
table a fresh `_index_<table>` surrogate key column `0..n-1` when absent. -/
def add_index_columns (st : EngineSt) : EngineSt :=
  { st with tables := st.tables.map (fun td =>
      let idx := "_index_" ++ td.1
      if idx ∈ td.2.cols then td
      else (td.1, ⟨td.2.cols ++ [idx], td.2.rows.enum.map (fun ir => ir.2 ++ [.int ir.1])⟩)) }

/-- `Engine._init_join_strategy`: single-table mode iff there are no link keys
and exactly one non-link table. -/
def init_join_strategy (st : EngineSt) : EngineSt :=
  let base_tables := (st.tables.map (fun td => td.1)).filter
    (fun t => t ∉ st.link_tables.map (fun td => td.1))
  if st.link_table_keys.length = 0 ∧ base_tables.length = 1 then
    let base := base_tables.headD ""
    let idx := "_index_" ++ base
    { st with
      link_table_keys := if idx ∈ st.link_table_keys then st.link_table_keys else [idx]
      single_table_mode := true
      single_table_base := some base }
  else
    { st with single_table_mode := false, single_table_base := none }

/-! ## The multi-table key-space join -/

/-- The fatal error of `_join_trajectory_keys_multi_table`:
`ValueError(f"No relationship found between {table1} and {table2}")`. -/
inductive JoinErr
  | noRelationship (t1 t2 : String)
deriving DecidableEq, Repr

/-- The column restriction applied to each side of a step merge:
columns that are link-table keys or start with `_index_`. -/
def keysIndexCols (lkeys : List String) (df : DF) : List String :=
  df.cols.filter (fun c => c ∈ lkeys ∨ c.startsWith "_index_")

/-- The `for i in range(len(trajectory) - 1):` loop of
`_join_trajectory_keys_multi_table`: skip a step whose destination was already
visited; otherwise look up the relationship (raising when absent) and
outer-merge the key/index columns of both sides on the relationship keys.
`t1` is always the raw previous trajectory element, as in the source. -/
def join_steps (st : EngineSt) : String → List String → List String → DF → Except JoinErr DF
  | _, [], _, current => .ok current
  | t1, t2 :: rest, visited, current =>
      if t2 ∈ visited then join_steps st t2 rest visited current
      else
        match alookup st.relationships (t1, t2) with
        | none => .error (.noRelationship t1 t2)
        | some kk =>
            let next_df := dfOf st.tables t2
            let cc := keysIndexCols st.link_table_keys current
            let cn := keysIndexCols st.link_table_keys next_df
            let merged := merge_outer (current.select cc) (next_df.select cn) kk.1 kk.2
            join_steps st t2 rest (visited ++ [t2]) merged

/-- `Engine._join_trajectory_keys_multi_table`. -/
def join_trajectory_keys_multi_table (st : EngineSt) (trajectory : List String) :
    Except JoinErr DF :=
  match trajectory with
  | [] => .ok ⟨[], []⟩
  | t0 :: rest =>
      match join_steps st t0 rest [t0] (dfOf st.tables t0) with
      | .error e => .error e
      | .ok r => .ok r.dropDuplicates

/-- `Engine._join_trajectory_keys_single_table`: the base table's index column
as the key space. -/
def join_trajectory_keys_single_table (st : EngineSt) : DF :=
  match st.single_table_base with
  | none => ⟨[], []⟩
  | some base =>
      let idx := "_index_" ++ base
      let df := dfOf st.tables base
      if idx ∈ df.cols then df.select [idx] else ⟨[], []⟩

/-- The strategy dispatch installed by `_init_join_strategy`. -/
def join_trajectory_keys (st : EngineSt) (trajectory : List String) : Except JoinErr DF :=
  if st.single_table_mode then .ok (join_trajectory_keys_single_table st)
  else join_trajectory_keys_multi_table st trajectory

/-! ## The `load_data` pipeline (`core/hypercube.py`)

Modelling choices, documented here once: the schema validator and the
composite bridge generator are external black-box collaborators (spec §6), so
we model the `validate=False`, `apply_composite=False` path in which `tables`
is taken as given and the composite maps stay empty; `_create_sample_tables`
is modelled from the spec as recording each input table's column names.  The
`set_context_state('Default')` call lives in the Filter mixin, whose source is
not part of the repository snapshot; modelled from the spec: with no filters
applied, the "Default" context state starts as the unfiltered key space. -/

/-- The result of `load_data`: the engine state plus the construction
artefacts.  `context_states = none` models the attribute never being created
(the silent short-circuit on a cyclic graph). -/
structure LoadedModel where
  engine : EngineSt
  relationships_raw : Rel
  input_tables_columns : List (String × List String)
  is_cyclic : Bool × List String
  context_states : Option (List (String × DF))
  core : Option DF
deriving DecidableEq, Repr

/-- The model-construction prefix of `Hypercube.load_data` (validate/composite
branches as documented above): auto-relationships on the raw tables (kept as
`relationships_raw`, the second component), surrogate index columns,
link-table synthesis, the column map, auto-relationships again, and strategy
selection. -/
def construct_model (tables : List (String × DF)) (rename_shared : Bool) :
    EngineSt × Rel :=
  let st0 : EngineSt :=
    { tables := tables, link_tables := [], link_table_keys := [], relationships := []
      composite_tables := [], composite_keys := [], column_to_table := []
      rename_original_shared_columns := rename_shared
      single_table_mode := false, single_table_base := none }
  let st1 := add_auto_relationships st0
  let raw := st1.relationships
  let st2 := { st1 with relationships := [] }
  let st3 := add_index_columns st2
  let st4 := create_link_tables st3
  let st5 := build_column_to_table st4
  let st6 := add_auto_relationships st5
  (init_join_strategy st6, raw)

/-- `Hypercube.load_data`: build the model, then run cycle detection —
returning with no context states when a cycle is found, and otherwise
materializing the `Unfiltered` key space over the link-table trajectory. -/
def load_data (tables : List (String × DF)) (rename_shared : Bool) :
    Except JoinErr LoadedModel :=
  let sr := construct_model tables rename_shared
  let st7 := sr.1
  let raw := sr.2
  let inputCols := tables.map (fun td => (td.1, td.2.cols))
  let cyc := has_cyclic_relationships st7.relationships
  if cyc.1 then
    .ok { engine := st7, relationships_raw := raw, input_tables_columns := inputCols
          is_cyclic := cyc, context_states := none, core := none }
  else
    let ltt := find_complete_trajectory st7.relationships
      (st7.tables.map (fun td => td.1)) (st7.link_tables.map (fun td => td.1))
    match join_trajectory_keys st7 ltt with
    | .error e => .error e
    | .ok unf =>
        .ok { engine := st7, relationships_raw := raw, input_tables_columns := inputCols
              is_cyclic := cyc
              context_states := some (aset (aset [] "Unfiltered" unf) "Default" unf)
              core := some unf }

/-! ## Analytics components
(`core/hypercube_building_classes/analytics_components.py`)

`core/metric.py` (the `Metric`/`ComputedMetric` classes and
`extract_columns`) and `core/dependency_index.py` (the `DependencyIndex`
collaborator) are absent from the repository snapshot; they are modelled from
the spec where noted.  Python sets whose iteration order the code exposes
(`metric_columns_indexes`, `all_used_columns`, `dep_sources`) are modelled as
insertion-ordered deduplicated lists, a deterministic refinement. -/

/-- Modelled from the spec: `extract_columns` of the absent `core/metric.py`
extracts the column tokens referenced in bracket syntax (`[Column]`), in
order of appearance; an unterminated bracket yields no further token. -/
def extract_columns_aux : List Char → Bool → List Char → List String
  | [], _, _ => []
  | c :: rest, false, _ =>
      if c = '[' then extract_columns_aux rest true []
      else extract_columns_aux rest false []
  | c :: rest, true, acc =>
      if c = ']' then
        if acc.isEmpty then extract_columns_aux rest false []
        else String.mk acc :: extract_columns_aux rest false []
      else extract_columns_aux rest true (acc ++ [c])

/-- Modelled from the spec: bracket-syntax reference extraction. -/
def extract_columns (s : String) : List String :=
  extract_columns_aux s.data false []

/-- Modelled from the spec (§3 Metric): the `Metric` class of the absent
`core/metric.py`.  It stores the constructor arguments of `define_metric`;
`columns` holds the bracket-syntax references parsed from the expression,
`nested` is reduced to the nested dimensions the code reads from it, and
`columns_indexes` / `query_relevant_columns` are filled in by
`define_metric`. -/
structure Metric where
  name : String
  expression : Option String
  aggregation : Option String
  row_condition_expression : Option String
  context_state_name : String
  ignore_dimensions : Bool
  ignore_context_filters : Bool
  fillna : Option Val
  nested_dimensions : List String
  columns : List String
  columns_indexes : List String
  query_relevant_columns : List String
deriving DecidableEq, Repr

/-- Modelled from the spec (§3 ComputedMetric): name, post-aggregation
expression, fill value, and the parsed bracket references. -/
structure ComputedMetric where
  name : String
  expression : String
  fillna : Option Val
  columns : List String
deriving DecidableEq, Repr

/-- The compiled query descriptor stored in `self.queries[name]`. -/
structure QueryDescriptor where
  dimensions : List String
  metrics : List String
  computed_metrics : List String
  having : Option String
  having_columns : List String
  sort : List (String × String)
  hidden_metrics : List String
  hidden_computed_metrics : List String
  computed_metrics_ordered : List String
  drop_null_dimensions : Bool
  drop_null_metric_results : Bool
  missing_column_names : List String
deriving DecidableEq, Repr

/-- Modelled from the spec (§6): the `DependencyIndex` collaborator, a
multimap from a source name to the set of `(kind, dependent)` pairs. -/
abbrev DepIndex := List (String × String × String)

/-- `DependencyIndex.add(source, kind, dependent)`: set-wise insertion. -/
def dep_add (idx : DepIndex) (src kind dep : String) : DepIndex :=
  if (src, kind, dep) ∈ idx then idx else idx ++ [(src, kind, dep)]

/-- `DependencyIndex.remove_query(name)`: drop every edge whose dependent is
the query `name`. -/
def dep_remove_query (idx : DepIndex) (q : String) : DepIndex :=
  idx.filter (fun e => decide (¬(e.2.1 = "query" ∧ e.2.2 = q)))

/-- `DependencyIndex.get(source)`: the `(kind, dependent)` pairs of a source. -/
def dep_get (idx : DepIndex) (src : String) : List (String × String) :=
  (idx.filter (fun e => e.1 = src)).map (fun e => e.2)

/-- The whole-model state the analytics components act on. -/
structure CubeSt where
  engine : EngineSt
  metrics : List (String × Metric)
  computed_metrics : List (String × ComputedMetric)
  queries : List (String × QueryDescriptor)
  dep_index : DepIndex
deriving DecidableEq, Repr

/-- `re.search(r'<.*>', col)`: a `<` with a `>` somewhere after it. -/
def has_angle : List Char → Bool
  | [] => false
  | c :: rest => if c = '<' then rest.contains '>' else has_angle rest

/-- Lexicographic code-point comparison of character lists (the order Python
`sorted` uses on strings). -/
def charLeList : List Char → List Char → Bool
  | [], _ => true
  | _ :: _, [] => false
  | a :: as, b :: bs => if a = b then charLeList as bs else decide (a.toNat ≤ b.toNat)

/-- Insert into an ascending list, for `sortStrings`. -/
def insertSorted (a : String) : List String → List String
  | [] => [a]
  | b :: rest => if charLeList a.data b.data then a :: b :: rest else b :: insertSorted a rest

/-- Python `sorted` on strings (lexicographic, ascending). -/
def sortStrings (l : List String) : List String :=
  l.foldr insertSorted []

/-- `AnalyticsComponents.get_dimensions`: every table column not matching the
internal `_index_`/`_key_`/`_composite_key_`/`<...>` conventions, sorted. -/
def get_dimensions (st : CubeSt) : List String :=
  sortStrings (dedupFirst (st.engine.tables.flatMap (fun td =>
    td.2.cols.filter (fun c =>
      decide (¬(c.startsWith "_index_" ∨ c.startsWith "_key_" ∨
        c.startsWith "_composite_key_" ∨ has_angle c.data = true))))))

/-- Append if absent: one step of building an insertion-ordered set. -/
def set_add (acc : List String) (c : String) : List String :=
  if c ∈ acc then acc else acc ++ [c]

/-- The three `hidden_metrics` accumulation loops of `define_query`: metric
names referenced by a requested computed metric's expression, by HAVING, or by
SORT, that are defined and not explicitly requested. -/
def hidden_metrics_of (metricsReg : List (String × Metric))
    (cmReg : List (String × ComputedMetric)) (mets cms having_columns : List String)
    (sortPairs : List (String × String)) : List String :=
  let step := fun (acc : List String) (col : String) =>
    if (alookup metricsReg col).isSome ∧ col ∉ mets ∧ col ∉ acc then acc ++ [col] else acc
  let acc1 := cms.foldl (fun acc cm =>
    match alookup cmReg cm with
    | none => acc
    | some cmo => cmo.columns.foldl step acc) []
  let acc2 := having_columns.foldl step acc1
  sortPairs.foldl (fun acc sc => step acc sc.1) acc2

/-- The `hidden_computed_metrics` accumulation loops of `define_query`. -/
def hidden_cms_of (cmReg : List (String × ComputedMetric)) (cms having_columns : List String)
    (sortPairs : List (String × String)) : List String :=
  let step := fun (acc : List String) (col : String) =>
    if (alookup cmReg col).isSome ∧ col ∉ cms ∧ col ∉ acc then acc ++ [col]
    else acc
  let acc1 := cms.foldl (fun acc cm =>
    match alookup cmReg cm with
    | none => acc
    | some cmo => cmo.columns.foldl step acc) []
  let acc2 := having_columns.foldl step acc1
  sortPairs.foldl (fun acc sc => step acc sc.1) acc2

/-- `build_cm_dependencies`: for each involved computed metric that exists,
the other registry computed metrics its expression references. -/
def cm_deps_of (cmReg : List (String × ComputedMetric)) (names : List String) :
    List (String × List String) :=
  names.foldl (fun acc n =>
    match alookup cmReg n with
    | none => acc
    | some cmo =>
        acc ++ [(n, cmo.columns.filter (fun c => (alookup cmReg c).isSome))]) []

/-- The fatal errors of `define_query`: the dependency-cycle `ValueError`
(naming the offending metric), and a fuel marker that
`visit_go_fuel_sufficient` below proves unreachable. -/
inductive QErr
  | cycleDetected (node : String)
  | outOfFuel
deriving DecidableEq, Repr

/-- The temporary/permanent marks and output list of the topological sort. -/
structure TopoSt where
  temp : List String
  perm : List String
  ordered : List String
deriving DecidableEq, Repr

/-- The recursive `visit` of `define_query`'s topological sort, processing a
work list (the outer `for node in all_cm_names:` loop and each node's
dependency list), with the recursive call inlined: a node not yet marked is
temp-marked, its dependencies are visited, then it is perm-marked and
appended to the evaluation order; a temp-marked node is a dependency cycle.
Fuel is consumed on every call so the definition is structurally recursive. -/
def visit_go (deps : List (String × List String)) : Nat → List String → TopoSt →
    Except QErr TopoSt
  | 0, _, _ => .error .outOfFuel
  | _ + 1, [], ts => .ok ts
  | fuel + 1, node :: rest, ts =>
      if node ∈ ts.perm then visit_go deps fuel rest ts
      else if node ∈ ts.temp then .error (.cycleDetected node)
      else
        match visit_go deps fuel ((alookup deps node).getD [])
            { ts with temp := ts.temp ++ [node] } with
        | .error e => .error e
        | .ok ts2 =>
            visit_go deps fuel rest
              { temp := ts2.temp.erase node
                perm := ts2.perm ++ [node]
                ordered := if node ∈ ts2.ordered then ts2.ordered else ts2.ordered ++ [node] }

/-- Fuel that `visit_go_fuel_sufficient` shows is enough for the topological
sort: every node is expanded at most once. -/
def topoFuel (deps : List (String × List String)) (init : List String) : Nat :=
  init.length + (deps.map (fun d => d.2.length + 1)).sum + 1

/-- `having_columns`: the bracket tokens of the HAVING expression, `[]` when
absent. -/
def having_columns_of (having : Option String) : List String :=
  match having with
  | none => []
  | some h => extract_columns h

/-- The `all_cm_names` work list of `define_query`: requested plus hidden
computed metrics, first occurrence first. -/
def all_cm_names_of (cmReg : List (String × ComputedMetric)) (cms : List String)
    (having : Option String) (sortPairs : List (String × String)) : List String :=
  dedupFirst (cms ++ hidden_cms_of cmReg cms (having_columns_of having) sortPairs)

/-- The dependency graph `cm_deps` a query compilation builds over its
requested-plus-hidden computed metrics. -/
def query_cm_deps (cmReg : List (String × ComputedMetric)) (cms : List String)
    (having : Option String) (sortPairs : List (String × String)) :
    List (String × List String) :=
  cm_deps_of cmReg (all_cm_names_of cmReg cms having sortPairs)

/-- The compiled descriptor of `define_query` (everything up to and including
the `self.queries[name] = {...}` payload), or the dependency-cycle error. -/
def compile_query (metricsReg : List (String × Metric))
    (cmReg : List (String × ComputedMetric)) (dims_known : List String)
    (dims mets cms : List String) (having : Option String)
    (sortPairs : List (String × String)) (dnd dnm : Bool) :
    Except QErr QueryDescriptor :=
  let having_columns := having_columns_of having
  let hidden_metrics := hidden_metrics_of metricsReg cmReg mets cms having_columns sortPairs
  let hidden_cms := hidden_cms_of cmReg cms having_columns sortPairs
  let all_cm_names := dedupFirst (cms ++ hidden_cms)
  let deps := cm_deps_of cmReg all_cm_names
  match visit_go deps (topoFuel deps all_cm_names) all_cm_names ⟨[], [], []⟩ with
  | .error e => .error e
  | .ok ts =>
      let aus0 := dedupFirst (mets ++ cms)
      let aus1 := cms.foldl (fun acc cm =>
        match alookup cmReg cm with
        | none => acc
        | some cmo => cmo.columns.foldl set_add acc) aus0
      let aus2 := having_columns.foldl set_add aus1
      let aus := sortPairs.foldl (fun acc sc => set_add acc sc.1) aus2
      let missing := sortStrings (aus.filter (fun n =>
        decide ((alookup metricsReg n).isNone ∧ (alookup cmReg n).isNone ∧
          n ∉ dims_known)))
      .ok { dimensions := dims, metrics := mets, computed_metrics := cms
            having := having, having_columns := having_columns, sort := sortPairs
            hidden_metrics := hidden_metrics, hidden_computed_metrics := hidden_cms
            computed_metrics_ordered := ts.ordered
            drop_null_dimensions := dnd, drop_null_metric_results := dnm
            missing_column_names := missing }

/-- The dependency sources registered for a query: explicit and hidden base
and computed metrics, HAVING/SORT tokens that resolve to a metric or computed
metric, and the unresolved tokens, in deterministic order. -/
def dep_sources_of (metricsReg : List (String × Metric))
    (cmReg : List (String × ComputedMetric)) (mets cms hidden_metrics hidden_cms
    having_columns missing : List String) (sortPairs : List (String × String)) :
    List String :=
  let base := dedupFirst (mets ++ hidden_metrics ++ cms ++ hidden_cms)
  let s1 := having_columns.foldl (fun acc col =>
    if (alookup metricsReg col).isSome ∨ (alookup cmReg col).isSome then
      set_add acc col
    else acc) base
  let s2 := sortPairs.foldl (fun acc sc =>
    if (alookup metricsReg sc.1).isSome ∨ (alookup cmReg sc.1).isSome then
      set_add acc sc.1
    else acc) s1
  missing.foldl set_add s2

/-- The dependency-index update of `define_query`: remove the query's previous
memberships, then register an edge from every dependency source. -/
def dq_new_index (idx : DepIndex) (metricsReg : List (String × Metric))
    (cmReg : List (String × ComputedMetric)) (name : String) (mets cms : List String)
    (desc : QueryDescriptor) (sortPairs : List (String × String)) : DepIndex :=
  (dep_sources_of metricsReg cmReg mets cms desc.hidden_metrics
      desc.hidden_computed_metrics desc.having_columns desc.missing_column_names
      sortPairs).foldl
    (fun acc src => dep_add acc src "query" name) (dep_remove_query idx name)

/-- `AnalyticsComponents.define_query`: compile the descriptor (raising on a
computed-metric dependency cycle before mutating anything), re-register the
query's dependency edges (removing its previous memberships first), and store
the descriptor.  The trailing plot-refresh branch of the source reads
`getattr(self, 'plotting_components', {})`, and no code in the repository ever
assigns that attribute, so the branch is unreachable and omitted here. -/
def define_query (st : CubeSt) (name : String) (dims mets cms : List String)
    (having : Option String) (sortPairs : List (String × String)) (dnd dnm : Bool) :
    Except QErr CubeSt :=
  match compile_query st.metrics st.computed_metrics (get_dimensions st)
      dims mets cms having sortPairs dnd dnm with
  | .error e => .error e
  | .ok desc =>
      .ok { st with
            dep_index := dq_new_index st.dep_index st.metrics st.computed_metrics
              name mets cms desc sortPairs
            queries := aset st.queries name desc }

/-- The dependent-refresh loop of `_refresh_queries_dependent_on`: recompile
each dependent query with its stored parameters; a raised error is caught by
the enclosing `try` (so the remaining dependents are skipped and the state so
far is kept). -/
def refresh_loop : CubeSt → List (String × String) → CubeSt
  | st, [] => st
  | st, kd :: rest =>
      if kd.1 ≠ "query" then refresh_loop st rest
      else
        match alookup st.queries kd.2 with
        | none => refresh_loop st rest
        | some q =>
            match define_query st kd.2 q.dimensions q.metrics q.computed_metrics q.having
                q.sort q.drop_null_dimensions q.drop_null_metric_results with
            | .error _ => st
            | .ok st' => refresh_loop st' rest

/-- `AnalyticsComponents._refresh_queries_dependent_on`. -/
def refresh_queries_dependent_on (st : CubeSt) (metric_name : String) : CubeSt :=
  refresh_loop st (dep_get st.dep_index metric_name)

/-- `AnalyticsComponents.define_metric`: build the metric, resolve each
referenced column to its owning table, compute the trajectory spanning those
tables and record the index columns of its non-link tables, register the
metric, then refresh dependents. -/
def define_metric (st : CubeSt) (name : String) (expression : Option String)
    (aggregation : Option String) (row_condition_expression : Option String)
    (context_state_name : String) (ignore_dimensions ignore_context_filters : Bool)
    (fillna : Option Val) (nested_dimensions : List String) : CubeSt :=
  let columns := extract_columns (expression.getD "")
  let metric_tables := dedupFirst (columns.filterMap
    (fun c => alookup st.engine.column_to_table c))
  let trajectory := find_complete_trajectory st.engine.relationships
    (st.engine.tables.map (fun td => td.1)) metric_tables
  let columns_indexes := dedupFirst ((trajectory.filter
    (fun t => t ∉ st.engine.link_tables.map (fun td => td.1))).map
      (fun t => "_index_" ++ t))
  let m : Metric :=
    { name := name, expression := expression, aggregation := aggregation
      row_condition_expression := row_condition_expression
      context_state_name := context_state_name
      ignore_dimensions := ignore_dimensions
      ignore_context_filters := ignore_context_filters
      fillna := fillna, nested_dimensions := nested_dimensions
      columns := columns, columns_indexes := columns_indexes
      query_relevant_columns := dedupFirst (nested_dimensions ++ columns ++ columns_indexes) }
  let st1 := { st with metrics := aset st.metrics name m }
  refresh_queries_dependent_on st1 name

/-- `AnalyticsComponents.define_computed_metric`: requires a non-empty name
and expression, stores the computed metric, then refreshes dependents. -/
def define_computed_metric (st : CubeSt) (name expression : String) (fillna : Option Val) :
    Except String CubeSt :=
  if name = "" then .error "Computed metric requires a non-empty string name."
  else if expression = "" then .error "Computed metric requires a non-empty string expression."
  else
    let cm : ComputedMetric := ⟨name, expression, fillna, extract_columns expression⟩
    let st1 := { st with computed_metrics := aset st.computed_metrics name cm }
    .ok (refresh_queries_dependent_on st1 name)

/-! ## Specification notions for the topological sort (claim C6) -/

/-- `a` occurs strictly before `b` in `l`. -/
def before_in (l : List String) (a b : String) : Prop :=
  ∃ i j, i < j ∧ l.get? i = some a ∧ l.get? j = some b

/-- An edge of the computed-metric dependency graph built by `define_query`:
`a`'s expression references the registry computed metric `b`. -/
def dep_edge (deps : List (String × List String)) (a b : String) : Prop :=
  b ∈ (alookup deps a).getD []

instance (deps : List (String × List String)) (a b : String) :
    Decidable (dep_edge deps a b) := by
  unfold dep_edge
  infer_instance

/-- A (nonempty) directed cycle in the dependency graph: consecutive edges
along the list and a closing edge from the last node back to the first. -/
def IsDepCycle (deps : List (String × List String)) : List String → Prop
  | [] => False
  | n :: rest => List.Chain (dep_edge deps) n rest ∧
      dep_edge deps (List.getLast (n :: rest) (by simp)) n

/-- Every permanently marked node is in the output list after all its
dependencies. -/
def topo_closed (deps : List (String × List String)) (ts : TopoSt) : Prop :=
  ∀ n, n ∈ ts.perm → n ∈ ts.ordered ∧
    ∀ d, d ∈ (alookup deps n).getD [] → d ∈ ts.ordered ∧ before_in ts.ordered d n

/-- The output list only contains permanently marked nodes. -/
def ord_sub_perm (ts : TopoSt) : Prop :=
  ∀ n, n ∈ ts.ordered → n ∈ ts.perm

/-- The pending work of the topological sort: the unmarked keys and their
dependency lists. -/
def topo_pending (deps : List (String × List String)) (ts : TopoSt) : Nat :=
  ((deps.filter (fun d => decide (d.1 ∉ ts.perm ∧ d.1 ∉ ts.temp))).map
    (fun d => d.2.length + 1)).sum

/-! ## Example states (for witnesses and counterexamples) -/

/-- A two-table engine state with one link key and the `(A, B)` relationship
stored in both directions, used to exercise the multi-table join. -/
def exJoinSt : EngineSt :=
  { tables :=
      [("A", ⟨["_index_A", "_key_c"], [[.int 0, .int 1]]⟩),
       ("B", ⟨["_index_B", "_key_c"], [[.int 0, .int 1]]⟩)]
    link_tables := [], link_table_keys := ["_key_c"]
    relationships := [(("A", "B"), ("_key_c", "_key_c")), (("B", "A"), ("_key_c", "_key_c"))]
    composite_tables := [], composite_keys := [], column_to_table := []
    rename_original_shared_columns := true
    single_table_mode := false, single_table_base := none }

/-- The position of a value in the distinct-value list of a link table (the
row index its surrogate key `index + 1` is read from). -/
def valIdx : List Val → Val → Nat
  | [], _ => 0
  | w :: ws, v => if w = v then 0 else valIdx ws v + 1

/-- The README `Product` table. -/
def productDF : DF :=
  ⟨["product_id", "category"],
   [[.int 1, .str "Electronics"], [.int 2, .str "Home"], [.int 3, .str "Other"]]⟩

/-- The README `Sales` table (truncated). -/
def salesDF : DF :=
  ⟨["product_id", "qty"], [[.int 1, .int 2], [.int 1, .int 1], [.int 2, .int 4]]⟩

/-- A fresh engine state holding the README tables, before link-table
synthesis. -/
def exC2St : EngineSt :=
  { tables := [("Product", productDF), ("Sales", salesDF)]
    link_tables := [], link_table_keys := [], relationships := []
    composite_tables := [], composite_keys := [], column_to_table := []
    rename_original_shared_columns := true
    single_table_mode := false, single_table_base := none }

/-- Three tables whose pairwise shared columns produce a cyclic relationship
graph after link-table synthesis (`T1(a,b)`, `T2(b,c)`, `T3(c,a)`). -/
def t1DF : DF := ⟨["a", "b"], [[.int 1, .int 1]]⟩

/-- See `t1DF`. -/
def t2DF : DF := ⟨["b", "c"], [[.int 1, .int 1]]⟩

/-- See `t1DF`. -/
def t3DF : DF := ⟨["c", "a"], [[.int 1, .int 1]]⟩

/-- A line graph `A — B — C`, stored bidirectionally. -/
def relLine : Rel :=
  [(("A", "B"), ("k1", "k1")), (("B", "A"), ("k1", "k1")),
   (("B", "C"), ("k2", "k2")), (("C", "B"), ("k2", "k2"))]

/-- The triangle `T1 — T2 — T3 — T1`, stored bidirectionally. -/
def relTri : Rel :=
  [(("T1", "T2"), ("a", "a")), (("T2", "T1"), ("a", "a")),
   (("T2", "T3"), ("b", "b")), (("T3", "T2"), ("b", "b")),
   (("T3", "T1"), ("c", "c")), (("T1", "T3"), ("c", "c"))]

/-- A square `A — B — C — D — A` together with the disjoint triangle
`T1 — T2 — T3 — T1`, the square listed first. -/
def relSqTri : Rel :=
  [(("A", "B"), ("k", "k")), (("B", "A"), ("k", "k")),
   (("B", "C"), ("k", "k")), (("C", "B"), ("k", "k")),
   (("C", "D"), ("k", "k")), (("D", "C"), ("k", "k")),
   (("D", "A"), ("k", "k")), (("A", "D"), ("k", "k")),
   (("T1", "T2"), ("a", "a")), (("T2", "T1"), ("a", "a")),
   (("T2", "T3"), ("b", "b")), (("T3", "T2"), ("b", "b")),
   (("T3", "T1"), ("c", "c")), (("T1", "T3"), ("c", "c"))]

/-- The analytics state over the loaded README model, with empty registries. -/
def cube0 : CubeSt :=
  match load_data [("Product", productDF), ("Sales", salesDF)] true with
  | .ok m => ⟨m.engine, [], [], [], []⟩
  | .error _ => ⟨⟨[], [], [], [], [], [], [], true, false, none⟩, [], [], [], []⟩

/-- A cube state whose computed-metric registry holds the acyclic reference
chain `C -> B -> A` and the two-cycle `P <-> R`, exercising the topological
sort of `define_query`. -/
def cubeC6 : CubeSt :=
  { engine :=
      { tables := [], link_tables := [], link_table_keys := []
        relationships := [], composite_tables := [], composite_keys := []
        column_to_table := [], rename_original_shared_columns := true
        single_table_mode := false, single_table_base := none }
    metrics := []
    computed_metrics :=
      [("A", ⟨"A", "[x]", none, ["x"]⟩),
       ("B", ⟨"B", "[A]", none, ["A"]⟩),
       ("C", ⟨"C", "[B]", none, ["B"]⟩),
       ("P", ⟨"P", "[R]", none, ["R"]⟩),
       ("R", ⟨"R", "[P]", none, ["P"]⟩)]
    queries := []
    dep_index := [] }

/-- The descriptor `define_query cubeC6 _ [] [] ["C"] none [] false false`
compiles: the hidden computed metric `B` is pulled in and the evaluation
order is `A`, `B`, `C`. -/
def descC6 : QueryDescriptor :=
  { dimensions := [], metrics := [], computed_metrics := ["C"]
    having := none, having_columns := [], sort := []
    hidden_metrics := [], hidden_computed_metrics := ["B"]
    computed_metrics_ordered := ["A", "B", "C"]
    drop_null_dimensions := false, drop_null_metric_results := false
    missing_column_names := [] }

/-- The `all_used_columns` accumulation of `define_query`: explicit metrics
and computed metrics, the referenced columns of each requested computed
metric, the HAVING tokens, and the SORT columns. -/
def all_used_columns_of (cmReg : List (String × ComputedMetric)) (mets cms : List String)
    (having : Option String) (sortPairs : List (String × String)) : List String :=
  sortPairs.foldl (fun acc sc => set_add acc sc.1)
    ((having_columns_of having).foldl set_add
      (cms.foldl (fun acc cm =>
        match alookup cmReg cm with
        | none => acc
        | some cmo => cmo.columns.foldl set_add acc) (dedupFirst (mets ++ cms))))

/-- The state of `define_metric` just after registering the metric and before
refreshing dependents. -/
def define_metric_st1 (st : CubeSt) (name : String) (expression : Option String)
    (aggregation : Option String) (row_condition_expression : Option String)
    (context_state_name : String) (ignore_dimensions ignore_context_filters : Bool)
    (fillna : Option Val) (nested_dimensions : List String) : CubeSt :=
  let columns := extract_columns (expression.getD "")
  let metric_tables := dedupFirst (columns.filterMap
    (fun c => alookup st.engine.column_to_table c))
  let trajectory := find_complete_trajectory st.engine.relationships
    (st.engine.tables.map (fun td => td.1)) metric_tables
  let columns_indexes := dedupFirst ((trajectory.filter
    (fun t => t ∉ st.engine.link_tables.map (fun td => td.1))).map
      (fun t => "_index_" ++ t))
  let m : Metric :=
    { name := name, expression := expression, aggregation := aggregation
      row_condition_expression := row_condition_expression
      context_state_name := context_state_name
      ignore_dimensions := ignore_dimensions
      ignore_context_filters := ignore_context_filters
      fillna := fillna, nested_dimensions := nested_dimensions
      columns := columns, columns_indexes := columns_indexes
      query_relevant_columns := dedupFirst (nested_dimensions ++ columns ++ columns_indexes) }
  { st with metrics := aset st.metrics name m }

/-- Whether the dependent-refresh loop would complete without any recompile
raising (the loop itself catches a raise and aborts). -/
def refresh_all_ok : CubeSt → List (String × String) → Bool
  | _, [] => true
  | st, kd :: rest =>
      if kd.1 ≠ "query" then refresh_all_ok st rest
      else
        match alookup st.queries kd.2 with
        | none => refresh_all_ok st rest
        | some q =>
            match define_query st kd.2 q.dimensions q.metrics q.computed_metrics q.having
                q.sort q.drop_null_dimensions q.drop_null_metric_results with
            | .error _ => false
            | .ok st' => refresh_all_ok st' rest

/-- An empty analytics state (no tables, no registries). -/
def cubeC1base : CubeSt :=
  { engine :=
      { tables := [], link_tables := [], link_table_keys := []
        relationships := [], composite_tables := [], composite_keys := []
        column_to_table := [], rename_original_shared_columns := true
        single_table_mode := false, single_table_base := none }
    metrics := [], computed_metrics := [], queries := [], dep_index := [] }

/-- Unwrap a `define_computed_metric` result, keeping the old state on
error. -/
def orKeep (st : CubeSt) : Except String CubeSt → CubeSt
  | .ok s => s
  | .error _ => st

/-- Counterexample scenario, step 1: computed metric `A` references `B`. -/
def c1s1 : CubeSt := orKeep cubeC1base (define_computed_metric cubeC1base "A" "[B]" none)

/-- Step 2: query `Q` requests metric `M` (undefined) and computed metric
`A`; its `missing_column_names` is `["B", "M"]`. -/
def c1s2 : CubeSt := match define_query c1s1 "Q" [] ["M"] ["A"] none [] false false with
  | .ok s => s
  | .error _ => c1s1

/-- Step 3: computed metric `B` references `A`, closing a computed-metric
cycle; `Q`'s automatic recompile raises and the raise is swallowed. -/
def c1s3 : CubeSt := orKeep c1s2 (define_computed_metric c1s2 "B" "[A]" none)

/-- Step 4: `define_metric "M"`; the refresh of `Q` raises the cycle error
again, so `Q` keeps its stale descriptor with `"M"` still missing. -/
def c1s4 : CubeSt := define_metric c1s3 "M" (some "[qty]") (some "sum") none "Unfiltered"
  false false none []

/-- Witness scenario: query `Q` requests only the undefined metric `M`. -/
def c1w1 : CubeSt := match define_query cubeC1base "Q" [] ["M"] [] none [] false false with
  | .ok s => s
  | .error _ => cubeC1base

/-- The second components of the relationship items: the only nodes BFS can
ever enqueue. -/
def seconds (rel : Rel) : List String := dedupFirst (rel.map (fun r => r.1.2))

/-- The number of potential future BFS enqueues: unvisited second
components. -/
def pot (rel : Rel) (V : List String) : Nat :=
  ((seconds rel).filter (fun b => decide (b ∉ V))).length

/-- The BFS loop invariant of `_find_path`, with the ghost list `W` recording
each visited node together with the length at which it was discovered. -/
structure BfsInv (rel : Rel) (s e : String) (Q : List (String × List Edge))
    (V : List String) (W : List (String × Nat)) : Prop where
  qvalid : ∀ tp ∈ Q, path_ok rel s tp.2 tp.1
  qsorted : Q.Pairwise (fun x y => x.2.length ≤ y.2.length)
  qwindow : ∀ tp ∈ Q, ∀ tp' ∈ Q, tp.2.length ≤ tp'.2.length + 1
  qrec : ∀ tp ∈ Q, (tp.1, tp.2.length) ∈ W
  vw : ∀ x, x ∈ V ↔ x ∈ W.map Prod.fst
  wnodup : (W.map Prod.fst).Nodup
  wstart : (s, 0) ∈ W
  wlev : ∀ vm ∈ W, ∀ tp ∈ Q, vm.2 ≤ tp.2.length + 1
  wexp : ∀ vm ∈ W, (∃ pp, (vm.1, pp) ∈ Q ∧ pp.length = vm.2) ∨
    (∀ rr ∈ rel, rr.1.1 = vm.1 → ∃ m2, (rr.1.2, m2) ∈ W ∧ m2 ≤ vm.2 + 1)
  wopt : ∀ vm ∈ W, ∀ q, path_ok rel s q vm.1 → vm.2 ≤ q.length
  etarget : e ∈ W.map Prod.fst → ∃ pp, (e, pp) ∈ Q

/-- An edge of the relationship graph as the cycle detector sees it: some
relationship item is keyed `(x, y)`. -/
def adjR (rel : Rel) (x y : String) : Prop :=
  ∃ r, r ∈ rel ∧ r.1 = (x, y)

instance (rel : Rel) (x y : String) : Decidable (adjR rel x y) := by
  unfold adjR
  exact List.decidableBEx _ rel

/-- The ghost DFS parent certificate: the edge `{x, y}` is a tree edge. -/
def certP (P : List (String × String)) (x y : String) : Prop :=
  alookup P x = some y ∨ alookup P y = some x

/-- The DFS completeness invariant: every visited node that is not on the
active path has all its neighbours visited with the joining edge certified as
a tree edge, the parent certificate only points from later-discovered to
earlier-discovered nodes (the visited list is newest first), and the visited
list is duplicate-free. -/
def goodV (rel : Rel) (V act : List String) (P : List (String × String)) : Prop :=
  (∀ x ∈ V, x ∉ act → ∀ y, adjR rel x y → y ∈ V ∧ certP P x y) ∧
  (∀ kv ∈ P, kv.1 ∈ V ∧ kv.2 ∈ V ∧ before_in V kv.1 kv.2) ∧ V.Nodup

/-- A genuine simple cycle of the relationship graph: at least three distinct
nodes, consecutive edges, and a closing edge from the last node to the
first. -/
def IsSimpleCycle (rel : Rel) (c : List String) : Prop :=
  3 ≤ c.length ∧ c.Nodup ∧ List.Chain' (adjR rel) c ∧
  ∃ h t, c.head? = some h ∧ c.getLast? = some t ∧ adjR rel t h

/-! # Theorems -/

/-! ### The multi-table join walk: error characterization (claims C7, C10) -/

theorem join_steps_ok_of (st : EngineSt) :
    ∀ (ts : List String) (t1 : String) (seen : List String) (df : DF),
      t1 ∈ seen →
      (∀ pre a b suf, t1 :: ts = pre ++ a :: b :: suf →
        alookup st.relationships (a, b) = none → b ∈ seen ∨ b ∈ pre ∨ b = a) →
      ∃ r, join_steps st t1 ts seen df = .ok r := by
  intro ts
  induction ts with
  | nil => intro t1 seen df _ _; exact ⟨df, rfl⟩
  | cons t2 rest ih =>
      intro t1 seen df h1 h
      by_cases h2 : t2 ∈ seen
      · simp only [join_steps, if_pos h2]
        refine ih t2 seen df h2 ?_
        intro pre a b suf heq hnone
        rcases h (t1 :: pre) a b suf (by simpa using heq) hnone with hb | hb | hb
        · exact Or.inl hb
        · rcases List.mem_cons.mp hb with hb | hb
          · exact Or.inl (hb ▸ h1)
          · exact Or.inr (Or.inl hb)
        · exact Or.inr (Or.inr hb)
      · have hlk : alookup st.relationships (t1, t2) ≠ none := by
          intro hnone
          rcases h [] t1 t2 rest rfl hnone with hb | hb | hb
          · exact h2 hb
          · simp at hb
          · exact h2 (hb ▸ h1)
        simp only [join_steps, if_neg h2]
        rcases hsome : alookup st.relationships (t1, t2) with _ | kk
        · exact absurd hsome hlk
        · refine ih t2 (seen ++ [t2]) _ (by simp) ?_
          intro pre a b suf heq hnone
          rcases h (t1 :: pre) a b suf (by simpa using heq) hnone with hb | hb | hb
          · exact Or.inl (by simp [hb])
          · rcases List.mem_cons.mp hb with hb | hb
            · exact Or.inl (by simp [hb ▸ h1])
            · exact Or.inr (Or.inl hb)
          · exact Or.inr (Or.inr hb)

theorem join_steps_error_of (st : EngineSt) :
    ∀ (ts : List String) (t1 : String) (seen : List String) (df : DF),
      t1 ∈ seen →
      (∃ pre a b suf, t1 :: ts = pre ++ a :: b :: suf ∧
        alookup st.relationships (a, b) = none ∧ b ∉ seen ∧ b ∉ pre ∧ b ≠ a) →
      ∃ a' b', join_steps st t1 ts seen df = .error (.noRelationship a' b') ∧
        alookup st.relationships (a', b') = none ∧
        ∃ pre' suf', t1 :: ts = pre' ++ a' :: b' :: suf' ∧ b' ∉ seen ∧ b' ∉ pre' ∧
          b' ≠ a' := by
  intro ts
  induction ts with
  | nil =>
      intro t1 seen df _ hbad
      exfalso
      rcases hbad with ⟨pre, a, b, suf, heq, -, -, -, -⟩
      have := congrArg List.length heq
      simp [List.length_append] at this
      omega
  | cons t2 rest ih =>
      intro t1 seen df h1 hbad
      rcases hbad with ⟨pre, a, b, suf, heq, hnone, hbseen, hbpre, hba⟩
      by_cases h2 : t2 ∈ seen
      · -- the step is skipped; the bad split cannot be at the head
        simp only [join_steps, if_pos h2]
        obtain ⟨pre₂, rfl, heq2⟩ :
            ∃ pre₂, pre = t1 :: pre₂ ∧ t2 :: rest = pre₂ ++ a :: b :: suf := by
          cases pre with
          | nil =>
              rw [List.nil_append] at heq
              injection heq with e1 e2
              injection e2 with e3 e4
              exact absurd (e3 ▸ h2) hbseen
          | cons p ps =>
              rw [List.cons_append] at heq
              injection heq with e1 e2
              exact ⟨ps, by rw [e1], e2⟩
        rcases ih t2 seen df h2
            ⟨pre₂, a, b, suf, heq2, hnone, hbseen,
              fun hb => hbpre (List.mem_cons_of_mem _ hb), hba⟩ with
          ⟨a', b', hres, hnone', pre', suf', heq', hb1, hb2, hb3⟩
        refine ⟨a', b', hres, hnone', t1 :: pre', suf', by simp [heq'], hb1, ?_, hb3⟩
        intro hmem
        rcases List.mem_cons.mp hmem with hb | hb
        · exact hb1 (hb ▸ h1)
        · exact hb2 hb
      · simp only [join_steps, if_neg h2]
        rcases hsome : alookup st.relationships (t1, t2) with _ | kk
        · -- the walk raises here, naming (t1, t2); this pair is itself bad
          exact ⟨t1, t2, rfl, hsome, [], rest, rfl, h2, by simp,
            fun he => h2 (he ▸ h1)⟩
        · -- the head pair has a relationship, so the bad split is deeper
          obtain ⟨pre₂, rfl, heq2⟩ :
              ∃ pre₂, pre = t1 :: pre₂ ∧ t2 :: rest = pre₂ ++ a :: b :: suf := by
            cases pre with
            | nil =>
                rw [List.nil_append] at heq
                injection heq with e1 e2
                injection e2 with e3 e4
                rw [← e1, ← e3] at hnone
                rw [hnone] at hsome
                exact absurd hsome (by simp)
            | cons p ps =>
                rw [List.cons_append] at heq
                injection heq with e1 e2
                exact ⟨ps, by rw [e1], e2⟩
          have hbt2 : b ≠ t2 := by
            intro hbe
            subst hbe
            cases pre₂ with
            | nil =>
                rw [List.nil_append] at heq2
                injection heq2 with e1 e2
                exact hba e1
            | cons q qs =>
                rw [List.cons_append] at heq2
                injection heq2 with e1 e2
                refine hbpre (List.mem_cons_of_mem _ ?_)
                rw [← e1]
                exact List.mem_cons_self _ _
          rcases ih t2 (seen ++ [t2]) _ (by simp)
              ⟨pre₂, a, b, suf, heq2, hnone, by simp [hbseen, hbt2],
                fun hb => hbpre (List.mem_cons_of_mem _ hb), hba⟩ with
            ⟨a', b', hres, hnone', pre', suf', heq', hb1, hb2, hb3⟩
          have hb1' : b' ∉ seen := fun hb => hb1 (by simp [hb])
          refine ⟨a', b', hres, hnone', t1 :: pre', suf', by simp [heq'], hb1', ?_, hb3⟩
          intro hmem
          rcases List.mem_cons.mp hmem with hb | hb
          · exact hb1' (hb ▸ h1)
          · exact hb2 hb

/-- C7, counterexample to the claim as stated: in `exJoinSt`, the trajectory
`["A", "B", "B"]` contains the consecutive table pair `("B", "B")` which has
no entry in the relationship map, yet `_join_trajectory_keys_multi_table`
returns a key space instead of raising — the step is skipped because its
destination `"B"` was already visited. -/
theorem claim_C7_counterexample :
    alookup exJoinSt.relationships ("B", "B") = none ∧
    (["A", "B", "B"] = ["A"] ++ "B" :: "B" :: ([] : List String)) ∧
    ∃ r, join_trajectory_keys_multi_table exJoinSt ["A", "B", "B"] = .ok r := by
  refine ⟨by decide, rfl, ?_⟩
  have hh : (join_trajectory_keys_multi_table exJoinSt ["A", "B", "B"]).toOption.isSome
      = true := by decide
  cases h : join_trajectory_keys_multi_table exJoinSt ["A", "B", "B"] with
  | error e => rw [h] at hh; simp [Except.toOption] at hh
  | ok r => exact ⟨r, rfl⟩

/-- C7 (amended): for every trajectory passed to
`_join_trajectory_keys_multi_table`, if some trajectory step references a
consecutive table pair that has no entry in the relationship map **and whose
destination table has not already appeared earlier in the trajectory**, the
join raises the fatal `noRelationship` error identifying the two tables of
such a missing relationship, instead of producing a key space. -/
theorem claim_C7 (st : EngineSt) (traj : List String)
    (pre : List String) (a b : String) (suf : List String)
    (hsplit : traj = pre ++ a :: b :: suf)
    (hnone : alookup st.relationships (a, b) = none)
    (hfresh : b ∉ pre ++ [a]) :
    ∃ a' b', join_trajectory_keys_multi_table st traj = .error (.noRelationship a' b') ∧
      alookup st.relationships (a', b') = none ∧
      ∃ pre' suf', traj = pre' ++ a' :: b' :: suf' ∧ b' ∉ pre' ++ [a'] := by
  have hbpre : b ∉ pre := fun hb => hfresh (List.mem_append_left _ hb)
  have hba : b ≠ a := fun hb => hfresh (List.mem_append_right _ (by simp [hb]))
  cases htr : traj with
  | nil =>
      exfalso
      rw [htr] at hsplit
      have := congrArg List.length hsplit
      simp [List.length_append] at this
      omega
  | cons t0 rest =>
      rw [htr] at hsplit
      have hb0 : b ∉ [t0] := by
        intro hb
        simp only [List.mem_singleton] at hb
        cases pre with
        | nil =>
            rw [List.nil_append] at hsplit
            injection hsplit with e1 e2
            exact hba (hb.trans e1)
        | cons p ps =>
            rw [List.cons_append] at hsplit
            injection hsplit with e1 e2
            exact hbpre (by rw [hb, e1]; exact List.mem_cons_self _ _)
      rcases join_steps_error_of st rest t0 [t0] (dfOf st.tables t0)
          (List.mem_singleton.mpr rfl)
          ⟨pre, a, b, suf, hsplit, hnone, hb0, hbpre, hba⟩ with
        ⟨a', b', hres, hnone', pre', suf', heq', hb1, hb2, hb3⟩
      refine ⟨a', b', ?_, hnone', pre', suf', heq', ?_⟩
      · simp only [join_trajectory_keys_multi_table, hres]
      · intro hmem
        rcases List.mem_append.mp hmem with hb | hb
        · exact hb2 hb
        · exact hb3 (List.mem_singleton.mp hb)

/-- C7 witness: `claim_C7` applied to the concrete state `exJoinSt` and the
trajectory `["A", "X"]`, whose single step has no recorded relationship. -/
theorem claim_C7_witness :
    ∃ a' b',
      join_trajectory_keys_multi_table exJoinSt ["A", "X"] = .error (.noRelationship a' b') ∧
      alookup exJoinSt.relationships (a', b') = none ∧
      ∃ pre' suf', ["A", "X"] = pre' ++ a' :: b' :: suf' ∧ b' ∉ pre' ++ [a'] :=
  claim_C7 exJoinSt ["A", "X"] [] "A" "X" [] rfl (by decide) (by decide)

/-- C10: in the multi-table `join_trajectory_keys` walk, a step whose
destination table already appeared earlier in the walk is skipped before the
relationship lookup, so the missing-relationship error branch is unreachable
for such a step: whenever every consecutive pair lacking a relationship entry
has a destination that already occurred among the preceding trajectory
elements, the join completes without raising. -/
theorem claim_C10 (st : EngineSt) (traj : List String)
    (h : ∀ pre a b suf, traj = pre ++ a :: b :: suf →
      alookup st.relationships (a, b) = none → b ∈ pre ++ [a]) :
    ∃ r, join_trajectory_keys_multi_table st traj = .ok r := by
  cases htr : traj with
  | nil => exact ⟨⟨[], []⟩, rfl⟩
  | cons t0 rest =>
      rcases join_steps_ok_of st rest t0 [t0] (dfOf st.tables t0)
          (List.mem_singleton.mpr rfl)
          (fun pre a b suf heq hnone => by
            rcases List.mem_append.mp (h pre a b suf (htr.trans heq) hnone) with hb | hb
            · exact Or.inr (Or.inl hb)
            · exact Or.inr (Or.inr (List.mem_singleton.mp hb))) with ⟨r, hr⟩
      refine ⟨r.dropDuplicates, ?_⟩
      simp only [join_trajectory_keys_multi_table, hr]

/-- C10 witness: `claim_C10` applied to `exJoinSt` and the trajectory
`["A", "B", "B"]`, where the only relationship-less step `("B", "B")` has a
previously-visited destination. -/
theorem claim_C10_witness :
    ∃ r, join_trajectory_keys_multi_table exJoinSt ["A", "B", "B"] = .ok r := by
  refine claim_C10 exJoinSt ["A", "B", "B"] ?_
  intro pre a b suf heq hnone
  cases pre with
  | nil =>
      injection heq with e1 e2
      injection e2 with e3 e4
      rw [← e1, ← e3] at hnone
      exact absurd hnone (by decide)
  | cons p ps =>
      injection heq with e1 e2
      cases ps with
      | nil =>
          injection e2 with e3 e4
          injection e4 with e5 e6
          simp [← e3, ← e5]
      | cons q qs =>
          exfalso
          have := congrArg List.length e2
          simp [List.length_append] at this
          omega

/-! ### Claim C5: silent cycle abort in `load_data` -/

/-- C5: for every set of input tables whose constructed relationship graph is
cyclic, `load_data` returns without raising any exception (an `.ok` result),
and no context states are built — the `context_states` store (hence the
`"Unfiltered"` key space) and `core` are never created, leaving the instance
partially initialized. -/
theorem claim_C5 (tables : List (String × DF)) (rename_shared : Bool)
    (hcyc : (has_cyclic_relationships
      (construct_model tables rename_shared).1.relationships).1 = true) :
    ∃ m, load_data tables rename_shared = .ok m ∧ m.context_states = none ∧
      m.core = none ∧ m.engine = (construct_model tables rename_shared).1 := by
  refine ⟨{ engine := (construct_model tables rename_shared).1
            relationships_raw := (construct_model tables rename_shared).2
            input_tables_columns := tables.map (fun td => (td.1, td.2.cols))
            is_cyclic := has_cyclic_relationships
              (construct_model tables rename_shared).1.relationships
            context_states := none, core := none }, ?_, rfl, rfl, rfl⟩
  unfold load_data
  simp only [hcyc, if_true]

/-- C5 witness: the three tables `T1(a,b)`, `T2(b,c)`, `T3(c,a)` give a
cyclic constructed relationship graph, and loading them succeeds with no
context states. -/
theorem claim_C5_witness :
    ∃ m, load_data [("T1", t1DF), ("T2", t2DF), ("T3", t3DF)] true = .ok m ∧
      m.context_states = none ∧ m.core = none ∧
      m.engine = (construct_model [("T1", t1DF), ("T2", t2DF), ("T3", t3DF)] true).1 :=
  claim_C5 [("T1", t1DF), ("T2", t2DF), ("T3", t3DF)] true (by decide)

/-! ### Claim C8: trajectory planning -/

theorem chain_collapse_aux :
    ∀ (l : List String) (prev : String),
      List.Chain (· ≠ ·) prev (collapse_aux prev l) := by
  intro l
  induction l with
  | nil => intro prev; exact List.Chain.nil
  | cons a as ih =>
      intro prev
      by_cases h : a = prev
      · simp only [collapse_aux, if_pos h]
        rw [h]
        exact ih prev
      · simp only [collapse_aux, if_neg h]
        exact List.Chain.cons (Ne.symm h) (ih a)

theorem chain_collapse_adjacent (l : List String) :
    List.Chain' (· ≠ ·) (collapse_adjacent l) := by
  cases l with
  | nil => exact List.chain'_nil
  | cons a as => exact chain_collapse_aux as a

theorem find_path_nil_rel (s e : String) :
    find_path [] s e = if s = e then some [] else none := by
  by_cases h : s = e
  · simp [find_path, bfs_loop, h]
  · simp [find_path, bfs_loop, bfs_expand, h]

theorem find_intermediate_nil_rel (s n : String) :
    ∀ ts, find_intermediate [] s n ts = none := by
  intro ts
  induction ts with
  | nil => rfl
  | cons t rest ih =>
      simp only [find_intermediate, find_path_nil_rel]
      by_cases h : s = t
      · simp only [if_pos h, truthy]
        simp [ih]
      · simp only [if_neg h, truthy]
        simp [ih]

theorem traj_legs_nil_rel (tables : List String) :
    ∀ (rest : List String) (start : String), traj_legs [] tables start rest = [] := by
  intro rest
  induction rest with
  | nil => intro start; rfl
  | cons next r ih =>
      intro start
      simp only [traj_legs, find_path_nil_rel, find_intermediate_nil_rel]
      by_cases h : start = next
      · simp only [if_pos h, truthy]
        simp [ih]
      · simp only [if_neg h, truthy]
        simp [ih]

/-- C8: `_find_complete_trajectory` extends the walk leg by leg using
`_find_path` and the intermediate-table fallback (that is its definition
above); this theorem records the claim's checkable consequences, for every
relationship graph, table list and ordered target list:
(1) the empty target set yields the empty trajectory;
(2) the returned sequence never contains two equal adjacent table names;
(3) a leg for which the direct path is falsy and no intermediate table is
    found is silently skipped, contributing nothing to the walk (and, in
    particular, no exception: the function is total);
(4) with no relationships at all, every leg is skipped and a nonempty target
    list yields just its first element. -/
theorem claim_C8 (rel : Rel) (tables : List String) (targets : List String) :
    (targets = [] → find_complete_trajectory rel tables targets = []) ∧
    List.Chain' (· ≠ ·) (find_complete_trajectory rel tables targets) ∧
    (∀ start next rest, truthy (find_path rel start next) = false →
      find_intermediate rel start next tables = none →
      traj_legs rel tables start (next :: rest) = traj_legs rel tables next rest) ∧
    (rel = [] → targets ≠ [] →
      find_complete_trajectory rel tables targets = [targets.headD ""]) := by
  refine ⟨fun h => by rw [h]; rfl, ?_, ?_, ?_⟩
  · cases targets with
    | nil => exact List.chain'_nil
    | cons t0 rest =>
        show List.Chain' (· ≠ ·) (collapse_adjacent (t0 :: traj_legs rel tables t0 rest))
        exact chain_collapse_adjacent _
  · intro start next rest hpath hint
    simp only [traj_legs, hpath, hint]
    simp
  · intro hrel hne
    subst hrel
    cases targets with
    | nil => exact absurd rfl hne
    | cons t0 rest =>
        simp only [find_complete_trajectory, traj_legs_nil_rel]
        rfl

/-- C8 witness: the theorem applied to the line graph `A — B — C` with
targets `["A", "C"]` (and its skip conjunct discharged on the empty graph):
the computed trajectory `["A", "B", "C"]` has no equal adjacent entries. -/
theorem claim_C8_witness :
    find_complete_trajectory relLine ["A", "B", "C"] ["A", "C"] = ["A", "B", "C"] ∧
    List.Chain' (· ≠ ·) (find_complete_trajectory relLine ["A", "B", "C"] ["A", "C"]) ∧
    find_complete_trajectory ([] : Rel) ["A", "B", "C"] ["A", "C"] = ["A"] :=
  ⟨by decide,
   (claim_C8 relLine ["A", "B", "C"] ["A", "C"]).2.1,
   (claim_C8 ([] : Rel) ["A", "B", "C"] ["A", "C"]).2.2.2 rfl (by decide)⟩

/-! ### Claim C9: idempotent query redefinition -/

theorem aset_aset_same {α β : Type} [DecidableEq α] (l : List (α × β)) (k : α) (v w : β) :
    aset (aset l k v) k w = aset l k w := by
  induction l with
  | nil => simp [aset]
  | cons p rest ih =>
      by_cases h : p.1 = k
      · cases p
        simp_all [aset]
      · cases p
        simp_all [aset]

theorem dep_remove_query_idem (idx : DepIndex) (n : String) :
    dep_remove_query (dep_remove_query idx n) n = dep_remove_query idx n := by
  simp [dep_remove_query, List.filter_filter]

theorem dep_remove_query_add_same (base : DepIndex) (src n : String) :
    dep_remove_query (dep_add base src "query" n) n = dep_remove_query base n := by
  unfold dep_add
  by_cases h : (src, "query", n) ∈ base
  · simp [h]
  · simp only [h, if_false]
    unfold dep_remove_query
    rw [List.filter_append]
    simp

theorem dep_remove_query_fold (srcs : List String) :
    ∀ base n, dep_remove_query
      (srcs.foldl (fun acc src => dep_add acc src "query" n) base) n =
      dep_remove_query base n := by
  induction srcs with
  | nil => intro base n; rfl
  | cons s rest ih =>
      intro base n
      simp only [List.foldl_cons]
      rw [ih, dep_remove_query_add_same]

theorem dep_add_nodup (base : DepIndex) (src kind n : String) (h : base.Nodup) :
    (dep_add base src kind n).Nodup := by
  unfold dep_add
  by_cases hm : (src, kind, n) ∈ base
  · simpa [hm]
  · simp only [hm, if_false]
    simpa [List.nodup_append] using ⟨h, hm⟩

theorem dep_add_fold_nodup (srcs : List String) :
    ∀ (base : DepIndex) (n : String), base.Nodup →
      (srcs.foldl (fun acc src => dep_add acc src "query" n) base).Nodup := by
  induction srcs with
  | nil => intro base n h; exact h
  | cons s rest ih =>
      intro base n h
      exact ih _ n (dep_add_nodup base s "query" n h)

/-- `define_query` on a successful compile: the stored state in closed form. -/
theorem define_query_ok (st : CubeSt) (name : String) (dims mets cms : List String)
    (having : Option String) (sortPairs : List (String × String)) (dnd dnm : Bool)
    (desc : QueryDescriptor)
    (h : compile_query st.metrics st.computed_metrics (get_dimensions st)
      dims mets cms having sortPairs dnd dnm = .ok desc) :
    define_query st name dims mets cms having sortPairs dnd dnm = .ok { st with
      dep_index := dq_new_index st.dep_index st.metrics st.computed_metrics
        name mets cms desc sortPairs
      queries := aset st.queries name desc } := by
  unfold define_query
  rw [h]

/-- C9: redefining a query twice in a row with identical parameters and an
unchanged metric/computed-metric registry yields identical compiled
descriptors — indeed the entire state after the second `define_query` equals
the state after the first, so the stored `queries[name]` entries are equal and
the dependency bookkeeping is unchanged — and no duplicate dependency edges
accumulate (the edge list stays duplicate-free whenever it was). -/
theorem claim_C9 (s : CubeSt) (name : String) (dims mets cms : List String)
    (having : Option String) (sortPairs : List (String × String)) (dnd dnm : Bool)
    (s₁ : CubeSt)
    (h1 : define_query s name dims mets cms having sortPairs dnd dnm = .ok s₁) :
    define_query s₁ name dims mets cms having sortPairs dnd dnm = .ok s₁ ∧
      (s.dep_index.Nodup → s₁.dep_index.Nodup) := by
  unfold define_query at h1
  rcases hcq : compile_query s.metrics s.computed_metrics (get_dimensions s)
      dims mets cms having sortPairs dnd dnm with e | desc
  · rw [hcq] at h1; exact absurd h1 (by simp)
  rw [hcq] at h1
  simp only [Except.ok.injEq] at h1
  subst h1
  constructor
  · refine Eq.trans (define_query_ok
      ⟨s.engine, s.metrics, s.computed_metrics, aset s.queries name desc,
        dq_new_index s.dep_index s.metrics s.computed_metrics name mets cms desc sortPairs⟩
      name dims mets cms having sortPairs dnd dnm desc hcq) ?_
    congr 1
    dsimp only
    rw [aset_aset_same]
    unfold dq_new_index
    rw [dep_remove_query_fold, dep_remove_query_idem]
  · intro h
    exact dep_add_fold_nodup _ _ name (List.Nodup.filter _ h)

/-- C9 witness: defining the query `ByCategory` twice over the loaded README
model yields the same state, starting from a duplicate-free index. -/
theorem claim_C9_witness :
    ∃ s₁, define_query cube0 "ByCategory" ["category"] ["TotalQty"] [] none [] false false
        = .ok s₁ ∧
      define_query s₁ "ByCategory" ["category"] ["TotalQty"] [] none [] false false
        = .ok s₁ ∧ s₁.dep_index.Nodup := by
  have hh : (define_query cube0 "ByCategory" ["category"] ["TotalQty"] [] none [] false
      false).toOption.isSome = true := by decide
  cases h : define_query cube0 "ByCategory" ["category"] ["TotalQty"] [] none [] false false with
  | error e => rw [h] at hh; simp [Except.toOption] at hh
  | ok s₁ =>
      have := claim_C9 cube0 "ByCategory" ["category"] ["TotalQty"] [] none [] false false s₁ h
      exact ⟨s₁, rfl, this.1, this.2 (by decide)⟩

/-! ### Claim C6: topological evaluation order, support lemmas -/

theorem before_in_append {l t : List String} {a b : String} (h : before_in l a b) :
    before_in (l ++ t) a b := by
  rcases h with ⟨i, j, hij, ha, hb⟩
  have hj : j < l.length := (List.get?_eq_some.mp hb).1
  have hi : i < l.length := lt_trans hij hj
  exact ⟨i, j, hij, by rw [List.get?_append hi]; exact ha,
    by rw [List.get?_append hj]; exact hb⟩

theorem before_in_last {l : List String} {a b : String} (h : a ∈ l) :
    before_in (l ++ [b]) a b := by
  rcases List.mem_iff_get.mp h with ⟨⟨i, hi⟩, rfl⟩
  refine ⟨i, l.length, hi, ?_, ?_⟩
  · rw [List.get?_append hi]
    exact List.get?_eq_get hi
  · rw [List.get?_append_right (le_refl _)]
    simp

theorem erase_append_last {l : List String} {x : String} (h : x ∉ l) :
    (l ++ [x]).erase x = l := by
  rw [List.erase_append_right _ h]
  simp

theorem visit_go_ok (deps : List (String × List String)) :
    ∀ (fuel : Nat) (ls : List String) (ts ts' : TopoSt),
      visit_go deps fuel ls ts = .ok ts' →
      (∃ delta, ts'.ordered = ts.ordered ++ delta) ∧
      (∀ n, n ∈ ts.perm → n ∈ ts'.perm) ∧
      ts'.temp = ts.temp ∧
      (∀ n, n ∈ ts'.perm → n ∈ ts.perm ∨ n ∉ ts.temp) ∧
      (∀ n, n ∈ ls → n ∈ ts'.perm) ∧
      (ts.ordered.Nodup → topo_closed deps ts → ord_sub_perm ts →
        ts'.ordered.Nodup ∧ topo_closed deps ts' ∧ ord_sub_perm ts') := by
  intro fuel
  induction fuel with
  | zero => intro ls ts ts' h; exact absurd h (by simp [visit_go])
  | succ fuel ih =>
      intro ls ts ts' h
      cases ls with
      | nil =>
          simp only [visit_go, Except.ok.injEq] at h
          subst h
          exact ⟨⟨[], by simp⟩, fun n hn => hn, rfl, fun n hn => Or.inl hn,
            fun n hn => absurd hn (List.not_mem_nil n), fun h1 h2 h3 => ⟨h1, h2, h3⟩⟩
      | cons node rest =>
          simp only [visit_go] at h
          by_cases hp : node ∈ ts.perm
          · rw [if_pos hp] at h
            rcases ih rest ts ts' h with ⟨hd, hperm, htemp, hback, hls, hinv⟩
            refine ⟨hd, hperm, htemp, hback, fun n hn => ?_, hinv⟩
            rcases List.mem_cons.mp hn with rfl | hn
            · exact hperm _ hp
            · exact hls _ hn
          · rw [if_neg hp] at h
            by_cases ht : node ∈ ts.temp
            · rw [if_pos ht] at h; exact absurd h (by simp)
            · rw [if_neg ht] at h
              rcases hn : visit_go deps fuel ((alookup deps node).getD [])
                  { ts with temp := ts.temp ++ [node] } with e | ts2
              · rw [hn] at h; exact absurd h (by simp)
              · rw [hn] at h
                rcases ih _ _ _ hn with ⟨⟨d2, hd2⟩, hperm2, htemp2, hback2, hls2, hinv2⟩
                have hnp2 : node ∉ ts2.perm := by
                  intro hmem
                  rcases hback2 _ hmem with hmem' | hmem'
                  · exact hp hmem'
                  · exact hmem' (by simp)
                have herase : ts2.temp.erase node = ts.temp := by
                  rw [htemp2]
                  exact erase_append_last ht
                rcases ih _ _ _ h with ⟨⟨d3, hd3⟩, hperm3, htemp3, hback3, hls3, hinv3⟩
                refine ⟨?_, ?_, ?_, ?_, ?_, ?_⟩
                · -- ordered is only extended
                  by_cases ho : node ∈ ts2.ordered
                  · refine ⟨d2 ++ d3, ?_⟩
                    rw [hd3]
                    simp only [ho, if_pos]
                    rw [hd2, List.append_assoc]
                  · refine ⟨d2 ++ [node] ++ d3, ?_⟩
                    rw [hd3]
                    simp only [ho, if_neg, not_false_iff]
                    rw [hd2]
                    simp [List.append_assoc]
                · intro n hmem
                  exact hperm3 _ (List.mem_append_left _ (hperm2 _ hmem))
                · rw [htemp3]
                  exact herase
                · intro n hmem
                  rcases hback3 _ hmem with hmem' | hmem'
                  · rcases List.mem_append.mp hmem' with hmem'' | hmem''
                    · rcases hback2 _ hmem'' with h3 | h3
                      · exact Or.inl h3
                      · exact Or.inr (fun hc => h3 (List.mem_append_left _ hc))
                    · simp only [List.mem_singleton] at hmem''
                      subst hmem''
                      exact Or.inr ht
                  · rw [herase] at hmem'
                    exact Or.inr hmem'
                · intro n hmem
                  rcases List.mem_cons.mp hmem with rfl | hmem'
                  · exact hperm3 _ (List.mem_append_right _ (by simp))
                  · exact hls3 _ hmem'
                · intro hNodup hCL hOSP
                  have hCL1 : topo_closed deps { ts with temp := ts.temp ++ [node] } := hCL
                  have hOSP1 : ord_sub_perm { ts with temp := ts.temp ++ [node] } := hOSP
                  rcases hinv2 hNodup hCL1 hOSP1 with ⟨hN2, hCL2, hOSP2⟩
                  have hno2 : node ∉ ts2.ordered := fun hmem => hnp2 (hOSP2 _ hmem)
                  have hord3 : (if node ∈ ts2.ordered then ts2.ordered
                      else ts2.ordered ++ [node]) = ts2.ordered ++ [node] := by
                    simp only [hno2, if_neg, not_false_iff]
                  have hN3 : (ts2.ordered ++ [node]).Nodup := by
                    simp [List.nodup_append, hN2, hno2]
                  have hCL3 : topo_closed deps
                      { temp := ts2.temp.erase node, perm := ts2.perm ++ [node]
                        ordered := if node ∈ ts2.ordered then ts2.ordered
                          else ts2.ordered ++ [node] } := by
                    intro n hmem
                    simp only [hord3]
                    rcases List.mem_append.mp hmem with hmem' | hmem'
                    · rcases hCL2 _ hmem' with ⟨hmo, hdeps⟩
                      refine ⟨List.mem_append_left _ hmo, fun d hd => ?_⟩
                      rcases hdeps d hd with ⟨hdo, hdb⟩
                      exact ⟨List.mem_append_left _ hdo, before_in_append hdb⟩
                    · simp only [List.mem_singleton] at hmem'
                      subst hmem'
                      refine ⟨List.mem_append_right _ (by simp), fun d hd => ?_⟩
                      have hdp : d ∈ ts2.perm := hls2 _ hd
                      have hdo : d ∈ ts2.ordered := (hCL2 _ hdp).1
                      exact ⟨List.mem_append_left _ hdo, before_in_last hdo⟩
                  have hOSP3 : ord_sub_perm
                      { temp := ts2.temp.erase node, perm := ts2.perm ++ [node]
                        ordered := if node ∈ ts2.ordered then ts2.ordered
                          else ts2.ordered ++ [node] } := by
                    intro n hmem
                    simp only [hord3] at hmem
                    rcases List.mem_append.mp hmem with hmem' | hmem'
                    · exact List.mem_append_left _ (hOSP2 _ hmem')
                    · exact List.mem_append_right _ hmem'
                  have hN3' : (if node ∈ ts2.ordered then ts2.ordered
                      else ts2.ordered ++ [node]).Nodup := by
                    rw [hord3]; exact hN3
                  exact hinv3 hN3' hCL3 hOSP3

theorem sum_filter_le (f : (String × List String) → Nat)
    (p q : (String × List String) → Bool) (h : ∀ x, q x = true → p x = true) :
    ∀ deps : List (String × List String),
      ((deps.filter q).map f).sum ≤ ((deps.filter p).map f).sum := by
  intro deps
  induction deps with
  | nil => simp
  | cons d rest ih =>
      rw [List.filter_cons, List.filter_cons]
      by_cases hq : q d
      · rw [if_pos hq, if_pos (h d hq)]
        simp only [List.map_cons, List.sum_cons]
        omega
      · rw [if_neg hq]
        by_cases hp : p d
        · rw [if_pos hp]
          simp only [List.map_cons, List.sum_cons]
          omega
        · rw [if_neg hp]
          exact ih

theorem topo_pending_mono (deps : List (String × List String)) (ts ts' : TopoSt)
    (hperm : ∀ n, n ∈ ts.perm → n ∈ ts'.perm)
    (htemp : ∀ n, n ∈ ts.temp → n ∈ ts'.temp) :
    topo_pending deps ts' ≤ topo_pending deps ts := by
  refine sum_filter_le _ _ _ ?_ deps
  intro x hx
  simp only [decide_eq_true_eq] at hx ⊢
  exact ⟨fun hm => hx.1 (hperm _ hm), fun hm => hx.2 (htemp _ hm)⟩

theorem topo_pending_expand (deps : List (String × List String)) (ts : TopoSt)
    (node : String) (ds : List String) (hp : node ∉ ts.perm) (ht : node ∉ ts.temp)
    (hk : alookup deps node = some ds) :
    topo_pending deps { ts with temp := ts.temp ++ [node] } + ds.length + 1 ≤
      topo_pending deps ts := by
  induction deps with
  | nil => simp [alookup] at hk
  | cons d rest ih =>
      unfold topo_pending
      rw [List.filter_cons, List.filter_cons]
      by_cases hd : d.1 = node
      · have hds : ds = d.2 := by
          unfold alookup at hk
          rw [if_pos hd] at hk
          exact (Option.some.injEq _ _ ▸ hk.symm)
        have hcOld : decide (d.1 ∉ ts.perm ∧ d.1 ∉ ts.temp) = true := by
          simp only [decide_eq_true_eq]
          exact ⟨hd ▸ hp, hd ▸ ht⟩
        have hcNew : decide (d.1 ∉ ts.perm ∧ d.1 ∉ ts.temp ++ [node]) = false := by
          simp only [decide_eq_false_iff_not, not_and, not_not]
          intro _
          rw [hd]
          exact List.mem_append_right _ (by simp)
        rw [hcOld, hcNew]
        simp only [if_pos, if_neg, Bool.false_eq_true, not_false_iff, List.map_cons,
          List.sum_cons]
        have hmono : topo_pending rest { ts with temp := ts.temp ++ [node] } ≤
            topo_pending rest ts := by
          refine topo_pending_mono rest ts _ (fun n hn => hn) (fun n hn => ?_)
          exact List.mem_append_left _ hn
        unfold topo_pending at hmono
        dsimp only at hmono ⊢
        rw [hds]
        omega
      · have hk' : alookup rest node = some ds := by
          unfold alookup at hk
          rw [if_neg hd] at hk
          exact hk
        have hsame : decide (d.1 ∉ ts.perm ∧ d.1 ∉ ts.temp ++ [node])
            = decide (d.1 ∉ ts.perm ∧ d.1 ∉ ts.temp) := by
          simp only [decide_eq_decide, List.mem_append, List.mem_singleton]
          constructor
          · intro hx
            exact ⟨hx.1, fun hm => hx.2 (Or.inl hm)⟩
          · intro hx
            refine ⟨hx.1, fun hm => ?_⟩
            rcases hm with hm | hm
            · exact hx.2 hm
            · exact hd hm
        rw [hsame]
        have := ih hk'
        unfold topo_pending at this
        dsimp only at this ⊢
        by_cases hc : decide (d.1 ∉ ts.perm ∧ d.1 ∉ ts.temp) = true
        · rw [hc]
          simp only [if_pos, List.map_cons, List.sum_cons]
          omega
        · rw [Bool.not_eq_true] at hc
          rw [hc]
          simp only [Bool.false_eq_true, if_neg, not_false_iff]
          exact this

theorem visit_go_no_fuel (deps : List (String × List String)) :
    ∀ (fuel : Nat) (ls : List String) (ts : TopoSt),
      ls.length + topo_pending deps ts + 1 ≤ fuel →
      visit_go deps fuel ls ts ≠ .error .outOfFuel := by
  intro fuel
  induction fuel with
  | zero => intro ls ts h; omega
  | succ fuel ih =>
      intro ls ts h
      cases ls with
      | nil => simp [visit_go]
      | cons node rest =>
          simp only [visit_go]
          by_cases hp : node ∈ ts.perm
          · rw [if_pos hp]
            refine ih rest ts ?_
            simp only [List.length_cons] at h
            omega
          · rw [if_neg hp]
            by_cases ht : node ∈ ts.temp
            · rw [if_pos ht]; simp
            · rw [if_neg ht]
              have hnested : visit_go deps fuel ((alookup deps node).getD [])
                  { ts with temp := ts.temp ++ [node] } ≠ .error .outOfFuel := by
                refine ih _ _ ?_
                rcases hk : alookup deps node with _ | ds
                · simp only [hk, Option.getD_none, List.length_nil]
                  have := topo_pending_mono deps ts
                    { ts with temp := ts.temp ++ [node] } (fun n hn => hn)
                    (fun n hn => List.mem_append_left _ hn)
                  simp only [List.length_cons] at h
                  omega
                · simp only [hk, Option.getD_some]
                  have := topo_pending_expand deps ts node ds hp ht hk
                  simp only [List.length_cons] at h
                  omega
              rcases hn : visit_go deps fuel ((alookup deps node).getD [])
                  { ts with temp := ts.temp ++ [node] } with e | ts2
              · cases e with
                | cycleDetected m => simp
                | outOfFuel => exact absurd hn hnested
              · rcases visit_go_ok deps fuel _ _ _ hn with ⟨-, hperm2, htemp2, -, -, -⟩
                refine ih rest _ ?_
                have hmono : topo_pending deps
                    { temp := ts2.temp.erase node, perm := ts2.perm ++ [node]
                      ordered := if node ∈ ts2.ordered then ts2.ordered
                        else ts2.ordered ++ [node] } ≤ topo_pending deps ts := by
                  refine topo_pending_mono deps ts _ ?_ ?_
                  · intro n hn2
                    exact List.mem_append_left _ (hperm2 _ hn2)
                  · intro n hn2
                    rw [htemp2, erase_append_last ht]
                    exact hn2
                simp only [List.length_cons] at h
                omega

theorem visit_go_error (deps : List (String × List String)) :
    ∀ (fuel : Nat) (ls : List String) (ts : TopoSt) (e : QErr),
      visit_go deps fuel ls ts = .error e →
      List.Chain' (dep_edge deps) ts.temp →
      (∀ m n, ts.temp.getLast? = some m → n ∈ ls → dep_edge deps m n) →
      e = .outOfFuel ∨ ∃ n c, e = .cycleDetected n ∧ IsDepCycle deps (n :: c) := by
  intro fuel
  induction fuel with
  | zero =>
      intro ls ts e h _ _
      simp only [visit_go, Except.error.injEq] at h
      exact Or.inl h.symm
  | succ fuel ih =>
      intro ls ts e h hchain hlast
      cases ls with
      | nil => exact absurd h (by simp [visit_go])
      | cons node rest =>
          simp only [visit_go] at h
          by_cases hp : node ∈ ts.perm
          · rw [if_pos hp] at h
            exact ih rest ts e h hchain (fun m n hm hn => hlast m n hm (List.mem_cons_of_mem _ hn))
          · rw [if_neg hp] at h
            by_cases ht : node ∈ ts.temp
            · rw [if_pos ht] at h
              simp only [Except.error.injEq] at h
              subst h
              rcases List.append_of_mem ht with ⟨pre, suf, htemp⟩
              refine Or.inr ⟨node, suf, rfl, ?_⟩
              have hsuffix : List.Chain' (dep_edge deps) (node :: suf) := by
                refine List.Chain'.suffix hchain ?_
                exact htemp ▸ List.suffix_append pre (node :: suf)
              have hl2 : ts.temp.getLast? = (node :: suf).getLast? := by
                rw [htemp]
                exact List.getLast?_append_of_ne_nil pre (by simp)
              constructor
              · exact hsuffix
              · refine hlast _ node ?_ (List.mem_cons_self _ _)
                rw [hl2]
                exact List.getLast?_eq_getLast _ _
            · rw [if_neg ht] at h
              rcases hn : visit_go deps fuel ((alookup deps node).getD [])
                  { ts with temp := ts.temp ++ [node] } with e2 | ts2
              · rw [hn] at h
                simp only [Except.error.injEq] at h
                subst h
                refine ih _ _ _ hn ?_ ?_
                · dsimp only
                  rw [List.chain'_append]
                  refine ⟨hchain, by simp, ?_⟩
                  intro x hx y hy
                  simp only [List.head?_cons, Option.mem_def, Option.some.injEq] at hy
                  subst hy
                  exact hlast x node hx (List.mem_cons_self _ _)
                · intro m n hm hn2
                  dsimp only at hm
                  rw [List.getLast?_concat] at hm
                  simp only [Option.some.injEq] at hm
                  subst hm
                  exact hn2
              · rw [hn] at h
                rcases visit_go_ok deps fuel _ _ _ hn with ⟨-, -, htemp2, -, -, -⟩
                refine ih rest _ e h ?_ ?_
                · dsimp only
                  rw [htemp2, erase_append_last ht]
                  exact hchain
                · intro m n hm hn2
                  dsimp only at hm
                  rw [htemp2, erase_append_last ht] at hm
                  exact hlast m n hm (List.mem_cons_of_mem _ hn2)

theorem nodup_get?_inj {l : List String} (hN : l.Nodup) {i j : Nat} {a : String}
    (hi : l.get? i = some a) (hj : l.get? j = some a) : i = j := by
  have hil : i < l.length := (List.get?_eq_some.mp hi).1
  exact List.get?_inj hil hN (hi.trans hj.symm)

theorem before_in_trans {l : List String} (hN : l.Nodup) {a b c : String}
    (h1 : before_in l a b) (h2 : before_in l b c) : before_in l a c := by
  rcases h1 with ⟨i, j, hij, ha, hb⟩
  rcases h2 with ⟨i', j', hij', hb', hc⟩
  have : j = i' := nodup_get?_inj hN hb hb'
  exact ⟨i, j', by omega, ha, hc⟩

theorem before_in_irrefl {l : List String} (hN : l.Nodup) {a : String} :
    ¬ before_in l a a := by
  rintro ⟨i, j, hij, ha, ha'⟩
  have := nodup_get?_inj hN ha ha'
  omega

theorem chain_trans_last {R : String → String → Prop}
    (htrans : ∀ a b c, R a b → R b c → R a c) :
    ∀ (l : List String) (x y : String), List.Chain R x l →
      (x :: l).getLast? = some y → x = y ∨ R x y := by
  intro l
  induction l with
  | nil =>
      intro x y _ hy
      simp only [List.getLast?_singleton, Option.some.injEq] at hy
      exact Or.inl hy
  | cons z l' ih =>
      intro x y hchain hy
      rcases List.chain_cons.mp hchain with ⟨hxz, hchain'⟩
      have hy' : (z :: l').getLast? = some y :=
        (List.getLast?_cons_cons).symm.trans hy
      rcases ih z y hchain' hy' with rfl | hr
      · exact Or.inr hxz
      · exact Or.inr (htrans _ _ _ hxz hr)

theorem alookup_append {α β : Type} [DecidableEq α] (l1 l2 : List (α × β)) (a : α) :
    alookup (l1 ++ l2) a =
      match alookup l1 a with
      | some v => some v
      | none => alookup l2 a := by
  induction l1 with
  | nil => simp [alookup]
  | cons p rest ih =>
      by_cases h : p.1 = a
      · cases p
        simp_all [alookup]
      · cases p
        simp_all [alookup]

theorem cm_deps_keys (cmReg : List (String × ComputedMetric)) (names : List String) :
    ∀ n, (alookup (cm_deps_of cmReg names) n).isSome → n ∈ names := by
  suffices h : ∀ (names : List String) (acc : List (String × List String)) (n : String),
      (alookup (names.foldl (fun acc n =>
        match alookup cmReg n with
        | none => acc
        | some cmo =>
            acc ++ [(n, cmo.columns.filter (fun c => (alookup cmReg c).isSome))]) acc) n).isSome →
      (alookup acc n).isSome ∨ n ∈ names by
    intro n hn
    rcases h names [] n hn with h' | h'
    · simp [alookup] at h'
    · exact h'
  intro names
  induction names with
  | nil => intro acc n h; exact Or.inl h
  | cons m rest ih =>
      intro acc n h
      simp only [List.foldl_cons] at h
      rcases hm : alookup cmReg m with _ | cmo
      · rw [hm] at h
        rcases ih _ _ h with h' | h'
        · exact Or.inl h'
        · exact Or.inr (List.mem_cons_of_mem _ h')
      · rw [hm] at h
        rcases ih _ _ h with h' | h'
        · rw [alookup_append] at h'
          rcases ha : alookup acc n with _ | v
          · rw [ha] at h'
            simp only [alookup] at h'
            by_cases he : m = n
            · exact Or.inr (he ▸ List.mem_cons_self _ _)
            · rw [if_neg he] at h'
              simp [alookup] at h'
          · exact Or.inl (by simp [ha])
        · exact Or.inr (List.mem_cons_of_mem _ h')

theorem alookup_aset_same {α β : Type} [DecidableEq α] (l : List (α × β)) (k : α) (v : β) :
    alookup (aset l k v) k = some v := by
  induction l with
  | nil => simp [aset, alookup]
  | cons p rest ih =>
      by_cases h : p.1 = k
      · cases p
        simp_all [aset, alookup]
      · cases p
        simp_all [aset, alookup]

theorem compile_query_error_iff (metricsReg : List (String × Metric))
    (cmReg : List (String × ComputedMetric)) (dims_known : List String)
    (dims mets cms : List String) (having : Option String)
    (sortPairs : List (String × String)) (dnd dnm : Bool) (e : QErr) :
    compile_query metricsReg cmReg dims_known dims mets cms having sortPairs dnd dnm
        = .error e ↔
      visit_go (query_cm_deps cmReg cms having sortPairs)
        (topoFuel (query_cm_deps cmReg cms having sortPairs)
          (all_cm_names_of cmReg cms having sortPairs))
        (all_cm_names_of cmReg cms having sortPairs) ⟨[], [], []⟩ = .error e := by
  simp only [compile_query, query_cm_deps, all_cm_names_of]
  rcases h : visit_go
      (cm_deps_of cmReg
        (dedupFirst (cms ++ hidden_cms_of cmReg cms (having_columns_of having) sortPairs)))
      (topoFuel
        (cm_deps_of cmReg
          (dedupFirst (cms ++ hidden_cms_of cmReg cms (having_columns_of having) sortPairs)))
        (dedupFirst (cms ++ hidden_cms_of cmReg cms (having_columns_of having) sortPairs)))
      (dedupFirst (cms ++ hidden_cms_of cmReg cms (having_columns_of having) sortPairs))
      ⟨[], [], []⟩ with e' | ts
  · simp
  · simp

theorem compile_query_ok_visit (metricsReg : List (String × Metric))
    (cmReg : List (String × ComputedMetric)) (dims_known : List String)
    (dims mets cms : List String) (having : Option String)
    (sortPairs : List (String × String)) (dnd dnm : Bool) (desc : QueryDescriptor) :
    compile_query metricsReg cmReg dims_known dims mets cms having sortPairs dnd dnm
        = .ok desc →
    ∃ ts, visit_go (query_cm_deps cmReg cms having sortPairs)
        (topoFuel (query_cm_deps cmReg cms having sortPairs)
          (all_cm_names_of cmReg cms having sortPairs))
        (all_cm_names_of cmReg cms having sortPairs) ⟨[], [], []⟩ = .ok ts ∧
      desc.computed_metrics_ordered = ts.ordered := by
  simp only [compile_query, query_cm_deps, all_cm_names_of]
  rcases h : visit_go
      (cm_deps_of cmReg
        (dedupFirst (cms ++ hidden_cms_of cmReg cms (having_columns_of having) sortPairs)))
      (topoFuel
        (cm_deps_of cmReg
          (dedupFirst (cms ++ hidden_cms_of cmReg cms (having_columns_of having) sortPairs)))
        (dedupFirst (cms ++ hidden_cms_of cmReg cms (having_columns_of having) sortPairs)))
      (dedupFirst (cms ++ hidden_cms_of cmReg cms (having_columns_of having) sortPairs))
      ⟨[], [], []⟩ with e' | ts
  · simp
  · intro hok
    simp only [Except.ok.injEq] at hok
    refine ⟨ts, rfl, ?_⟩
    rw [← hok]

theorem define_query_error_iff (st : CubeSt) (name : String) (dims mets cms : List String)
    (having : Option String) (sortPairs : List (String × String)) (dnd dnm : Bool)
    (e : QErr) :
    define_query st name dims mets cms having sortPairs dnd dnm = .error e ↔
      compile_query st.metrics st.computed_metrics (get_dimensions st)
        dims mets cms having sortPairs dnd dnm = .error e := by
  simp only [define_query]
  rcases h : compile_query st.metrics st.computed_metrics (get_dimensions st)
      dims mets cms having sortPairs dnd dnm with e' | d
  · simp
  · simp

theorem visit_run_fuel (deps : List (String × List String)) (init : List String) :
    visit_go deps (topoFuel deps init) init ⟨[], [], []⟩ ≠ .error .outOfFuel := by
  refine visit_go_no_fuel deps _ init ⟨[], [], []⟩ ?_
  have hp : topo_pending deps ⟨[], [], []⟩ ≤ (deps.map (fun d => d.2.length + 1)).sum := by
    unfold topo_pending
    refine le_of_eq ?_
    congr 1
    congr 1
    refine List.filter_eq_self.mpr ?_
    intro a _
    simp
  unfold topoFuel
  omega

theorem visit_run_error (deps : List (String × List String)) (init : List String) (e : QErr) :
    visit_go deps (topoFuel deps init) init ⟨[], [], []⟩ = .error e →
    ∃ n c, e = QErr.cycleDetected n ∧ IsDepCycle deps (n :: c) := by
  intro h
  rcases visit_go_error deps _ init ⟨[], [], []⟩ e h (by simp)
      (fun m n hm _ => by simp at hm) with ho | h2
  · rw [ho] at h
    exact absurd h (visit_run_fuel deps init)
  · exact h2

theorem visit_run_sound (cmReg : List (String × ComputedMetric)) (cms : List String)
    (having : Option String) (sortPairs : List (String × String)) (ts : TopoSt) :
    visit_go (query_cm_deps cmReg cms having sortPairs)
        (topoFuel (query_cm_deps cmReg cms having sortPairs)
          (all_cm_names_of cmReg cms having sortPairs))
        (all_cm_names_of cmReg cms having sortPairs) ⟨[], [], []⟩ = .ok ts →
    ts.ordered.Nodup ∧
    (∀ n dl d, alookup (query_cm_deps cmReg cms having sortPairs) n = some dl → d ∈ dl →
      d ∈ ts.ordered ∧ n ∈ ts.ordered ∧ before_in ts.ordered d n) := by
  intro h
  rcases visit_go_ok _ _ _ _ _ h with ⟨-, -, -, -, hls, hinv⟩
  rcases hinv (by simp) (by unfold topo_closed; intro n hn; simp at hn)
      (by unfold ord_sub_perm; intro n hn; simp at hn) with ⟨hnd, hclosed, -⟩
  refine ⟨hnd, ?_⟩
  intro n dl d hdl hd
  have hsome : (alookup (query_cm_deps cmReg cms having sortPairs) n).isSome := by
    rw [hdl]
    rfl
  have hmem : n ∈ all_cm_names_of cmReg cms having sortPairs :=
    cm_deps_keys cmReg (all_cm_names_of cmReg cms having sortPairs) n hsome
  rcases hclosed n (hls n hmem) with ⟨hno, hdeps⟩
  have hds := hdeps d (by rw [hdl]; exact hd)
  exact ⟨hds.1, hno, hds.2⟩

theorem no_cycle_of_run_ok (cmReg : List (String × ComputedMetric)) (cms : List String)
    (having : Option String) (sortPairs : List (String × String)) (ts : TopoSt)
    (h : visit_go (query_cm_deps cmReg cms having sortPairs)
        (topoFuel (query_cm_deps cmReg cms having sortPairs)
          (all_cm_names_of cmReg cms having sortPairs))
        (all_cm_names_of cmReg cms having sortPairs) ⟨[], [], []⟩ = .ok ts) :
    ∀ c, ¬ IsDepCycle (query_cm_deps cmReg cms having sortPairs) c := by
  rcases visit_run_sound cmReg cms having sortPairs ts h with ⟨hnd, hord⟩
  intro c hcyc
  cases c with
  | nil => exact hcyc
  | cons n0 rest =>
      rcases hcyc with ⟨hchain, hclose⟩
      have himp : ∀ a b, dep_edge (query_cm_deps cmReg cms having sortPairs) a b →
          before_in ts.ordered b a := by
        intro a b hab
        rcases hsome : alookup (query_cm_deps cmReg cms having sortPairs) a with _ | dl
        · unfold dep_edge at hab
          rw [hsome] at hab
          simp at hab
        · refine (hord a dl b hsome ?_).2.2
          unfold dep_edge at hab
          rw [hsome] at hab
          exact hab
      have hchainS : List.Chain (fun a b => before_in ts.ordered b a) n0 rest :=
        List.Chain.imp himp hchain
      have htrans : ∀ a b c, (fun a b => before_in ts.ordered b a) a b →
          (fun a b => before_in ts.ordered b a) b c →
          (fun a b => before_in ts.ordered b a) a c := by
        intro a b c h1 h2
        exact before_in_trans hnd h2 h1
      have hlast? : (n0 :: rest).getLast? = some ((n0 :: rest).getLast (by simp)) :=
        List.getLast?_eq_getLast _ _
      have hcb : before_in ts.ordered n0 ((n0 :: rest).getLast (by simp)) :=
        himp _ _ hclose
      rcases chain_trans_last htrans rest n0 ((n0 :: rest).getLast (by simp))
          hchainS hlast? with heq | hS
      · rw [← heq] at hcb
        exact before_in_irrefl hnd hcb
      · exact before_in_irrefl hnd (before_in_trans hnd hS hcb)

/-- **C6**: topological evaluation order.  If the query compiles, the stored
descriptor's `computed_metrics_ordered` places every dependency-graph edge
target before its source (so with `C -> B -> A` references the order lists `A`
before `B` before `C`); if the requested-plus-hidden computed-metric
dependency graph has a (direct or indirect) cycle, `define_query` raises the
cycle `ValueError` naming an offending metric that really lies on a cycle;
and every fatal error of `define_query` is such a cycle error. -/
theorem claim_C6 (st : CubeSt) (name : String) (dims mets cms : List String)
    (having : Option String) (sortPairs : List (String × String)) (dnd dnm : Bool) :
    (∀ desc, compile_query st.metrics st.computed_metrics (get_dimensions st)
        dims mets cms having sortPairs dnd dnm = .ok desc →
      (∃ st', define_query st name dims mets cms having sortPairs dnd dnm = .ok st' ∧
        alookup st'.queries name = some desc) ∧
      (∀ n dl d, alookup (query_cm_deps st.computed_metrics cms having sortPairs) n
          = some dl → d ∈ dl →
        d ∈ desc.computed_metrics_ordered ∧ n ∈ desc.computed_metrics_ordered ∧
        before_in desc.computed_metrics_ordered d n)) ∧
    (∀ c, IsDepCycle (query_cm_deps st.computed_metrics cms having sortPairs) c →
      ∃ n c', define_query st name dims mets cms having sortPairs dnd dnm =
          Except.error (QErr.cycleDetected n) ∧
        IsDepCycle (query_cm_deps st.computed_metrics cms having sortPairs) (n :: c')) ∧
    (∀ e, define_query st name dims mets cms having sortPairs dnd dnm = Except.error e →
      ∃ n c', e = QErr.cycleDetected n ∧
        IsDepCycle (query_cm_deps st.computed_metrics cms having sortPairs) (n :: c')) := by
  refine ⟨?_, ?_, ?_⟩
  · intro desc hc
    constructor
    · refine ⟨_, define_query_ok st name dims mets cms having sortPairs dnd dnm desc hc, ?_⟩
      dsimp only
      exact alookup_aset_same st.queries name desc
    · rcases compile_query_ok_visit st.metrics st.computed_metrics (get_dimensions st)
          dims mets cms having sortPairs dnd dnm desc hc with ⟨ts, hvis, hord⟩
      intro n dl d hdl hd
      rw [hord]
      exact (visit_run_sound st.computed_metrics cms having sortPairs ts hvis).2 n dl d hdl hd
  · intro c hcyc
    rcases hv : visit_go (query_cm_deps st.computed_metrics cms having sortPairs)
        (topoFuel (query_cm_deps st.computed_metrics cms having sortPairs)
          (all_cm_names_of st.computed_metrics cms having sortPairs))
        (all_cm_names_of st.computed_metrics cms having sortPairs) ⟨[], [], []⟩ with e | ts
    · rcases visit_run_error _ _ e hv with ⟨n, c', hen, hcy⟩
      subst hen
      exact ⟨n, c',
        (define_query_error_iff st name dims mets cms having sortPairs dnd dnm _).mpr
          ((compile_query_error_iff st.metrics st.computed_metrics (get_dimensions st)
            dims mets cms having sortPairs dnd dnm _).mpr hv), hcy⟩
    · exact absurd hcyc (no_cycle_of_run_ok st.computed_metrics cms having sortPairs ts hv c)
  · intro e he
    have hv := (compile_query_error_iff st.metrics st.computed_metrics (get_dimensions st)
        dims mets cms having sortPairs dnd dnm e).mp
      ((define_query_error_iff st name dims mets cms having sortPairs dnd dnm e).mp he)
    exact visit_run_error _ _ e hv

/-- C6 witness: over `cubeC6` (`C` references `B`, `B` references `A`), the
query on `["C"]` compiles to `descC6` with evaluation order `A`, `B`, `C`,
and the query on the cyclic `["P"]` raises a cycle error naming a metric on a
cycle. -/
theorem claim_C6_witness :
    (compile_query cubeC6.metrics cubeC6.computed_metrics (get_dimensions cubeC6)
        [] [] ["C"] none [] false false = .ok descC6 ∧
      alookup (query_cm_deps cubeC6.computed_metrics ["C"] none []) "B" = some ["A"] ∧
      ("A" ∈ ["A"]) ∧
      "A" ∈ descC6.computed_metrics_ordered ∧ "B" ∈ descC6.computed_metrics_ordered ∧
      before_in descC6.computed_metrics_ordered "A" "B") ∧
    (IsDepCycle (query_cm_deps cubeC6.computed_metrics ["P"] none []) ["P", "R"] ∧
      ∃ n c', define_query cubeC6 "Q2" [] [] ["P"] none [] false false =
          Except.error (QErr.cycleDetected n) ∧
        IsDepCycle (query_cm_deps cubeC6.computed_metrics ["P"] none []) (n :: c')) := by
  have h1 := claim_C6 cubeC6 "Q1" [] [] ["C"] none [] false false
  have h2 := claim_C6 cubeC6 "Q2" [] [] ["P"] none [] false false
  have hcompo : (compile_query cubeC6.metrics cubeC6.computed_metrics (get_dimensions cubeC6)
      [] [] ["C"] none [] false false).toOption = some descC6 := by decide
  have hcomp : compile_query cubeC6.metrics cubeC6.computed_metrics (get_dimensions cubeC6)
      [] [] ["C"] none [] false false = .ok descC6 := by
    rcases h : compile_query cubeC6.metrics cubeC6.computed_metrics (get_dimensions cubeC6)
        [] [] ["C"] none [] false false with e | d
    · rw [h] at hcompo
      simp [Except.toOption] at hcompo
    · rw [h] at hcompo
      simp only [Except.toOption, Option.some.injEq] at hcompo
      rw [hcompo]
  have hdl : alookup (query_cm_deps cubeC6.computed_metrics ["C"] none []) "B"
      = some ["A"] := by decide
  have hmem : "A" ∈ ["A"] := by decide
  have hcyc : IsDepCycle (query_cm_deps cubeC6.computed_metrics ["P"] none []) ["P", "R"] := by
    refine ⟨List.Chain.cons ?_ List.Chain.nil, ?_⟩
    · decide
    · decide
  have hord := (h1.1 descC6 hcomp).2 "B" ["A"] "A" hdl hmem
  exact ⟨⟨hcomp, hdl, hmem, hord.1, hord.2.1, hord.2.2⟩, hcyc, h2.2.1 ["P", "R"] hcyc⟩

theorem mem_dedupFirstAux {α : Type} [DecidableEq α] (l : List α) :
    ∀ (seen : List α) (a : α), a ∈ dedupFirstAux l seen ↔ a ∈ l ∧ a ∉ seen := by
  induction l with
  | nil => intro seen a; simp [dedupFirstAux]
  | cons b rest ih =>
      intro seen a
      unfold dedupFirstAux
      by_cases hb : b ∈ seen
      · rw [if_pos hb, ih]
        constructor
        · rintro ⟨h1, h2⟩
          exact ⟨List.mem_cons_of_mem _ h1, h2⟩
        · rintro ⟨h1, h2⟩
          rcases List.mem_cons.mp h1 with rfl | h1
          · exact absurd hb h2
          · exact ⟨h1, h2⟩
      · rw [if_neg hb]
        constructor
        · intro h
          rcases List.mem_cons.mp h with rfl | h
          · exact ⟨List.mem_cons_self _ _, hb⟩
          · rw [ih] at h
            rcases h with ⟨h1, h2⟩
            exact ⟨List.mem_cons_of_mem _ h1, fun hs => h2 (List.mem_cons_of_mem _ hs)⟩
        · rintro ⟨h1, h2⟩
          rcases List.mem_cons.mp h1 with rfl | h1
          · exact List.mem_cons_self _ _
          · by_cases hab : a = b
            · subst hab
              exact List.mem_cons_self _ _
            · refine List.mem_cons_of_mem _ ?_
              rw [ih]
              exact ⟨h1, fun hs => (List.mem_cons.mp hs).elim hab h2⟩

theorem mem_dedupFirst {α : Type} [DecidableEq α] (l : List α) (a : α) :
    a ∈ dedupFirst l ↔ a ∈ l := by
  unfold dedupFirst
  rw [mem_dedupFirstAux]
  simp

theorem nodup_dedupFirstAux {α : Type} [DecidableEq α] (l : List α) :
    ∀ seen, (dedupFirstAux l seen).Nodup := by
  induction l with
  | nil => intro seen; simp [dedupFirstAux]
  | cons b rest ih =>
      intro seen
      unfold dedupFirstAux
      by_cases hb : b ∈ seen
      · rw [if_pos hb]
        exact ih seen
      · rw [if_neg hb]
        refine List.nodup_cons.mpr ⟨?_, ih _⟩
        intro hmem
        rw [mem_dedupFirstAux] at hmem
        exact hmem.2 (List.mem_cons_self _ _)

theorem nodup_dedupFirst {α : Type} [DecidableEq α] (l : List α) : (dedupFirst l).Nodup :=
  nodup_dedupFirstAux l []

theorem alookup_aset_ne {α β : Type} [DecidableEq α] (l : List (α × β)) (k k' : α) (v : β)
    (h : k' ≠ k) : alookup (aset l k v) k' = alookup l k' := by
  induction l with
  | nil =>
      simp only [aset, alookup]
      rw [if_neg (fun he => h he.symm)]
  | cons p rest ih =>
      rcases p with ⟨a, b⟩
      by_cases hp : a = k
      · subst hp
        simp only [aset, if_pos rfl, alookup]
        rw [if_neg (fun he => h he.symm), if_neg (fun he => h he.symm)]
      · simp only [aset, if_neg hp, alookup]
        by_cases ha : a = k'
        · rw [if_pos ha, if_pos ha]
        · rw [if_neg ha, if_neg ha]
          exact ih

theorem key_ne_col (c : String) : "_key_" ++ c ≠ c := by
  intro h
  have hlen := congrArg String.length h
  rw [String.length_append] at hlen
  have h5 : ("_key_" : String).length = 5 := rfl
  omega

theorem valIdx_get? (vals : List Val) (v : Val) (h : v ∈ vals) :
    vals.get? (valIdx vals v) = some v := by
  induction vals with
  | nil => simp at h
  | cons w ws ih =>
      unfold valIdx
      by_cases hw : w = v
      · rw [if_pos hw]
        simp [hw]
      · rw [if_neg hw]
        simp only [List.get?_cons_succ]
        refine ih ?_
        rcases List.mem_cons.mp h with he | hm
        · exact absurd he.symm hw
        · exact hm

theorem valIdx_inj (vals : List Val) (v w : Val) (hv : v ∈ vals) (hw : w ∈ vals)
    (h : valIdx vals v = valIdx vals w) : v = w := by
  have h1 := valIdx_get? vals v hv
  have h2 := valIdx_get? vals w hw
  rw [h] at h1
  exact Option.some_injective _ (h1.symm.trans h2)

theorem enumFrom_filter_eq (lv : Val) :
    ∀ (vals : List Val), vals.Nodup → lv ∈ vals → ∀ n,
      (vals.enumFrom n).filter (fun iv => decide (iv.2 = lv))
        = [(valIdx vals lv + n, lv)] := by
  intro vals
  induction vals with
  | nil => intro _ h; simp at h
  | cons w ws ih =>
      intro hnd hmem n
      rw [List.enumFrom_cons, List.filter_cons]
      by_cases hw : w = lv
      · subst hw
        rw [if_pos (by simp : (decide ((n, w).2 = w)) = true)]
        have hnil : (ws.enumFrom (n + 1)).filter (fun iv => decide (iv.2 = w)) = [] := by
          refine List.filter_eq_nil_iff.mpr ?_
          rintro ⟨a, b⟩ hiv
          have h2 : b ∈ ws := by
            rw [(List.mem_enumFrom hiv).2.2]
            exact List.getElem_mem _
          simp only [decide_eq_true_eq]
          intro he
          exact (List.nodup_cons.mp hnd).1 (he ▸ h2)
        rw [hnil]
        have hidx : valIdx (w :: ws) w = 0 := by simp [valIdx]
        rw [hidx]
        norm_num
      · have hpred : (decide ((n, w).2 = lv)) = false := by
          simp only [decide_eq_false_iff_not]
          exact hw
        rw [hpred]
        simp only [Bool.false_eq_true, if_neg, not_false_iff]
        have hmem' : lv ∈ ws := by
          rcases List.mem_cons.mp hmem with he | hm
          · exact absurd he.symm hw
          · exact hm
        rw [ih (List.nodup_cons.mp hnd).2 hmem' (n + 1)]
        have hval : valIdx (w :: ws) lv = valIdx ws lv + 1 := by simp [valIdx, hw]
        rw [hval]
        have hidx : valIdx ws lv + 1 + n = valIdx ws lv + (n + 1) := by omega
        rw [hidx]

theorem flatMap_singleton_map {α β : Type} (l : List α) (g : α → List β) (h : α → β)
    (hpt : ∀ r ∈ l, g r = [h r]) : l.flatMap g = l.map h := by
  induction l with
  | nil => rfl
  | cons a t ih =>
      rw [List.flatMap_cons, List.map_cons, hpt a (List.mem_cons_self _ _),
        ih (fun r hr => hpt r (List.mem_cons_of_mem _ hr))]
      rfl

theorem link_cols (c : String) (vals : List Val) :
    (link_df c vals).cols = [c, "_key_" ++ c] := rfl

theorem link_rightRest (c : String) :
    [c, "_key_" ++ c].filter (fun c2 => decide (c2 ≠ c)) = ["_key_" ++ c] := by
  rw [List.filter_cons, List.filter_cons]
  simp [key_ne_col c]

theorem link_colVal_c (c : String) (vals : List Val) (v k : Val) :
    (link_df c vals).colVal c [v, k] = v := by
  unfold DF.colVal link_df colIndex
  simp

theorem link_colVal_key (c : String) (vals : List Val) (v k : Val) :
    (link_df c vals).colVal ("_key_" ++ c) [v, k] = k := by
  unfold DF.colVal link_df colIndex
  rw [if_neg (fun he => key_ne_col c he.symm)]
  simp [colIndex]

theorem link_filter_eq (c : String) (vals : List Val) (hnd : vals.Nodup) (lv : Val)
    (hlv : lv ∈ vals) :
    (link_df c vals).rows.filter (fun rr => decide ((link_df c vals).colVal c rr = lv))
      = [[lv, Val.int (valIdx vals lv + 1)]] := by
  show ((vals.enum).map (fun iv => [iv.2, Val.int (iv.1 + 1)])).filter _ = _
  rw [List.filter_map]
  have hcomp : ((fun rr => decide ((link_df c vals).colVal c rr = lv)) ∘
      (fun iv : Nat × Val => [iv.2, Val.int (iv.1 + 1)]))
      = fun iv : Nat × Val => decide (iv.2 = lv) := by
    funext iv
    simp [Function.comp, link_colVal_c]
  rw [hcomp]
  show ((vals.enumFrom 0).filter _).map _ = _
  rw [enumFrom_filter_eq lv vals hnd hlv 0]
  simp

theorem merge_link_df (A : DF) (c : String) (vals : List Val) (hnd : vals.Nodup)
    (hcov : ∀ r ∈ A.rows, A.colVal c r ∈ vals) :
    (merge_on A (link_df c vals) c).cols = A.cols ++ ["_key_" ++ c] ∧
    (merge_on A (link_df c vals) c).rows =
      A.rows.map (fun r => r ++ [Val.int (valIdx vals (A.colVal c r) + 1)]) := by
  unfold merge_on
  constructor
  · rw [link_cols, link_rightRest]
  · dsimp only
    rw [link_cols, link_rightRest]
    refine flatMap_singleton_map _ _ _ ?_
    intro r hr
    rw [link_filter_eq c vals hnd (A.colVal c r) (hcov r hr)]
    simp [link_colVal_key]

theorem getD_map_of_lt {α β : Type} (f : α → β) (l : List α) (i : Nat) (d : β) (d' : α) :
    i < l.length → (l.map f).getD i d = f (l.getD i d') := by
  induction l generalizing i with
  | nil => intro h; simp at h
  | cons a t ih =>
      intro h
      cases i with
      | zero => rfl
      | succ n =>
          simp only [List.map_cons, List.getD_cons_succ]
          exact ih n (Nat.lt_of_succ_lt_succ (by simpa using h))

theorem getD_mem_of_lt {α : Type} (l : List α) (i : Nat) (d : α) (h : i < l.length) :
    l.getD i d ∈ l := by
  induction l generalizing i with
  | nil => simp at h
  | cons a t ih =>
      cases i with
      | zero => exact List.mem_cons_self _ _
      | succ n =>
          simp only [List.getD_cons_succ]
          exact List.mem_cons_of_mem _ (ih n (Nat.lt_of_succ_lt_succ (by simpa using h)))

theorem getD_append_length (r : List Val) (kv : Val) (d : Val) :
    (r ++ [kv]).getD r.length d = kv := by
  induction r with
  | nil => rfl
  | cons a t ih => simpa using ih

theorem colIndex_append_last (xs : List String) (k : String) (h : k ∉ xs) :
    colIndex (xs ++ [k]) k = some xs.length := by
  induction xs with
  | nil => simp [colIndex]
  | cons x xs ih =>
      have hx : x ≠ k := fun he => h (he ▸ List.mem_cons_self _ _)
      show colIndex (x :: (xs ++ [k])) k = _
      unfold colIndex
      rw [if_neg hx, ih (fun hm => h (List.mem_cons_of_mem _ hm))]
      rfl

theorem renamed_key_table (A : DF) (c nn : String) (vals : List Val) (hnd : vals.Nodup)
    (hcov : ∀ r ∈ A.rows, A.colVal c r ∈ vals)
    (hk : ("_key_" ++ c) ∉ A.cols) (hnn : nn ≠ "_key_" ++ c)
    (hshape : ∀ r ∈ A.rows, r.length = A.cols.length) :
    ((merge_on A (link_df c vals) c).renameCol c nn).rows.length = A.rows.length ∧
    ∀ i, i < A.rows.length →
      ((merge_on A (link_df c vals) c).renameCol c nn).colVal ("_key_" ++ c)
          (((merge_on A (link_df c vals) c).renameCol c nn).rows.getD i []) =
        Val.int (valIdx vals (A.colVal c (A.rows.getD i [])) + 1) := by
  rcases merge_link_df A c vals hnd hcov with ⟨hcols, hrows⟩
  have hrrows : ((merge_on A (link_df c vals) c).renameCol c nn).rows
      = (merge_on A (link_df c vals) c).rows := rfl
  have hrcols : ((merge_on A (link_df c vals) c).renameCol c nn).cols
      = (A.cols ++ ["_key_" ++ c]).map (fun c0 => if c0 = c then nn else c0) := by
    show (merge_on A (link_df c vals) c).cols.map _ = _
    rw [hcols]
  constructor
  · rw [hrrows, hrows, List.length_map]
  · intro i hi
    have hrow : ((merge_on A (link_df c vals) c).renameCol c nn).rows.getD i []
        = A.rows.getD i [] ++
          [Val.int (valIdx vals (A.colVal c (A.rows.getD i [])) + 1)] := by
      rw [hrrows, hrows]
      exact getD_map_of_lt _ _ _ _ [] hi
    have hcols2 : ((merge_on A (link_df c vals) c).renameCol c nn).cols
        = (A.cols.map (fun c0 => if c0 = c then nn else c0)) ++ ["_key_" ++ c] := by
      rw [hrcols, List.map_append]
      have : ("_key_" ++ c : String) ≠ c := key_ne_col c
      simp [this]
    have hknot : ("_key_" ++ c) ∉ A.cols.map (fun c0 => if c0 = c then nn else c0) := by
      intro hm
      rcases List.mem_map.mp hm with ⟨x, hx, hfx⟩
      by_cases hxc : x = c
      · rw [if_pos hxc] at hfx
        exact hnn hfx
      · rw [if_neg hxc] at hfx
        exact hk (hfx ▸ hx)
    unfold DF.colVal
    rw [hcols2, colIndex_append_last _ _ hknot, hrow]
    have hlen : (A.rows.getD i []).length
        = (A.cols.map (fun c0 => if c0 = c then nn else c0)).length := by
      rw [List.length_map]
      exact hshape _ (getD_mem_of_lt _ _ _ hi)
    rw [← hlen]
    exact getD_append_length _ _ _

theorem link_keys_range (c : String) (vals : List Val) :
    col_values (link_df c vals) ("_key_" ++ c)
      = (List.range vals.length).map (fun i : Nat => Val.int (i + 1)) := by
  unfold col_values
  show ((vals.enum).map (fun iv => [iv.2, Val.int (iv.1 + 1)])).map _ = _
  rw [List.map_map]
  have hpt : ∀ iv ∈ vals.enum,
      ((link_df c vals).colVal ("_key_" ++ c) ∘
        (fun iv : Nat × Val => [iv.2, Val.int (iv.1 + 1)])) iv
      = (fun iv : Nat × Val => Val.int (iv.1 + 1)) iv := by
    intro iv _
    simp [Function.comp, link_colVal_key]
  rw [List.map_congr_left hpt]
  have hsplit : (fun iv : Nat × Val => Val.int (iv.1 + 1))
      = (fun i : Nat => Val.int (i + 1)) ∘ Prod.fst := rfl
  rw [hsplit, ← List.map_map, List.enum_map_fst]

theorem link_rows_length (c : String) (vals : List Val) :
    (link_df c vals).rows.length = vals.length := by
  show ((vals.enum).map _).length = _
  rw [List.length_map, List.enum_length]

/-- **C2**: link-table round trip.  For tables `A` and `B` sharing column `c`
(with the surrogate key name fresh in both), `_create_and_update_link_table`
registers a link table whose surrogate keys are exactly `1..n` over the
distinct shared values, keeps every original row of `A` and `B` (row `i` of
the updated table extends row `i` of the original), and two rows join through
the surrogate key `_key_c` exactly when their original `c` values were equal:
the `(A.c, B.c)` pairing is reproduced, no row pairs gained or lost. -/
theorem claim_C2 (st : EngineSt) (nA nB c ltname : String) (A B : DF)
    (hA : alookup st.tables nA = some A) (hB : alookup st.tables nB = some B)
    (hAB : nA ≠ nB) (hAl : nA ≠ ltname) (hBl : nB ≠ ltname)
    (hkA : ("_key_" ++ c) ∉ A.cols) (hkB : ("_key_" ++ c) ∉ B.cols)
    (hnnA : (c ++ " <" ++ nA ++ ">") ≠ "_key_" ++ c)
    (hnnB : (c ++ " <" ++ nB ++ ">") ≠ "_key_" ++ c)
    (hshA : ∀ r ∈ A.rows, r.length = A.cols.length)
    (hshB : ∀ r ∈ B.rows, r.length = B.cols.length)
    (hren : st.rename_original_shared_columns = true) :
    ∃ A' B' link,
      alookup (create_and_update_link_table st c ltname [nA, nB]).tables nA = some A' ∧
      alookup (create_and_update_link_table st c ltname [nA, nB]).tables nB = some B' ∧
      alookup (create_and_update_link_table st c ltname [nA, nB]).link_tables ltname
        = some link ∧
      col_values link ("_key_" ++ c)
        = (List.range link.rows.length).map (fun i : Nat => Val.int (i + 1)) ∧
      A'.rows.length = A.rows.length ∧ B'.rows.length = B.rows.length ∧
      (∀ i j, i < A.rows.length → j < B.rows.length →
        (A'.colVal ("_key_" ++ c) (A'.rows.getD i [])
            = B'.colVal ("_key_" ++ c) (B'.rows.getD j []) ↔
          A.colVal c (A.rows.getD i []) = B.colVal c (B.rows.getD j []))) := by
  have hdfA : dfOf st.tables nA = A := by
    unfold dfOf
    rw [hA]
    rfl
  have hdfB : dfOf st.tables nB = B := by
    unfold dfOf
    rw [hB]
    rfl
  set vals := link_values st.tables c [nA, nB] with hvals
  have hvnd : vals.Nodup := by
    rw [hvals]
    unfold link_values
    simp only [List.foldl_cons, List.foldl_nil]
    exact nodup_dedupFirst _
  have hcovA : ∀ r ∈ A.rows, A.colVal c r ∈ vals := by
    intro r hr
    rw [hvals]
    unfold link_values
    simp only [List.foldl_cons, List.foldl_nil]
    rw [mem_dedupFirst]
    refine List.mem_append_left _ ?_
    rw [mem_dedupFirst, List.nil_append, mem_dedupFirst, hdfA]
    exact List.mem_map_of_mem _ hr
  have hcovB : ∀ r ∈ B.rows, B.colVal c r ∈ vals := by
    intro r hr
    rw [hvals]
    unfold link_values
    simp only [List.foldl_cons, List.foldl_nil]
    rw [mem_dedupFirst]
    refine List.mem_append_right _ ?_
    rw [mem_dedupFirst, hdfB]
    exact List.mem_map_of_mem _ hr
  have hstep : create_and_update_link_table st c ltname [nA, nB] = { st with
      link_table_keys := st.link_table_keys ++ ["_key_" ++ c]
      tables := aset (aset (aset st.tables ltname (link_df c vals))
          nA ((merge_on A (link_df c vals) c).renameCol c (c ++ " <" ++ nA ++ ">")))
          nB ((merge_on B (link_df c vals) c).renameCol c (c ++ " <" ++ nB ++ ">"))
      link_tables := aset st.link_tables ltname (link_df c vals) } := by
    unfold create_and_update_link_table
    simp only [List.foldl_cons, List.foldl_nil, ← hvals]
    have hd1 : dfOf (aset st.tables ltname (link_df c vals)) nA = A := by
      unfold dfOf
      rw [alookup_aset_ne _ _ _ _ hAl, hA]
      rfl
    rw [hd1]
    rw [hren]
    simp only [if_pos]
    have hd2 : dfOf (aset (aset st.tables ltname (link_df c vals)) nA
        ((merge_on A (link_df c vals) c).renameCol c (c ++ " <" ++ nA ++ ">"))) nB = B := by
      unfold dfOf
      rw [alookup_aset_ne _ _ _ _ (fun he => hAB he.symm),
        alookup_aset_ne _ _ _ _ hBl, hB]
      rfl
    rw [hd2]
  rcases renamed_key_table A c (c ++ " <" ++ nA ++ ">") vals hvnd hcovA hkA hnnA hshA
    with ⟨hlenA, hkeyA⟩
  rcases renamed_key_table B c (c ++ " <" ++ nB ++ ">") vals hvnd hcovB hkB hnnB hshB
    with ⟨hlenB, hkeyB⟩
  refine ⟨(merge_on A (link_df c vals) c).renameCol c (c ++ " <" ++ nA ++ ">"),
    (merge_on B (link_df c vals) c).renameCol c (c ++ " <" ++ nB ++ ">"),
    link_df c vals, ?_, ?_, ?_, ?_, hlenA, hlenB, ?_⟩
  · rw [hstep]
    dsimp only
    rw [alookup_aset_ne _ _ _ _ hAB, alookup_aset_same]
  · rw [hstep]
    dsimp only
    rw [alookup_aset_same]
  · rw [hstep]
    dsimp only
    rw [alookup_aset_same]
  · rw [link_keys_range, link_rows_length]
  · intro i j hi hj
    rw [hkeyA i hi, hkeyB j hj]
    have hmA : A.colVal c (A.rows.getD i []) ∈ vals :=
      hcovA _ (getD_mem_of_lt _ _ _ hi)
    have hmB : B.colVal c (B.rows.getD j []) ∈ vals :=
      hcovB _ (getD_mem_of_lt _ _ _ hj)
    constructor
    · intro h
      simp only [Val.int.injEq] at h
      refine valIdx_inj vals _ _ hmA hmB ?_
      omega
    · intro h
      rw [h]

/-- C2 witness: the README `Product` and `Sales` tables share `product_id`;
after link-table synthesis the surrogate keys are `1..n` and joining through
`_key_product_id` reproduces the original `product_id` pairing. -/
theorem claim_C2_witness :
    alookup exC2St.tables "Product" = some productDF ∧
    alookup exC2St.tables "Sales" = some salesDF ∧
    exC2St.rename_original_shared_columns = true ∧
    ∃ A' B' link,
      alookup (create_and_update_link_table exC2St "product_id" "_link_table_product_id"
        ["Product", "Sales"]).tables "Product" = some A' ∧
      alookup (create_and_update_link_table exC2St "product_id" "_link_table_product_id"
        ["Product", "Sales"]).tables "Sales" = some B' ∧
      alookup (create_and_update_link_table exC2St "product_id" "_link_table_product_id"
        ["Product", "Sales"]).link_tables "_link_table_product_id" = some link ∧
      col_values link "_key_product_id"
        = (List.range link.rows.length).map (fun i : Nat => Val.int (i + 1)) ∧
      A'.rows.length = productDF.rows.length ∧ B'.rows.length = salesDF.rows.length ∧
      (∀ i j, i < productDF.rows.length → j < salesDF.rows.length →
        (A'.colVal "_key_product_id" (A'.rows.getD i [])
            = B'.colVal "_key_product_id" (B'.rows.getD j []) ↔
          productDF.colVal "product_id" (productDF.rows.getD i [])
            = salesDF.colVal "product_id" (salesDF.rows.getD j []))) := by
  refine ⟨by decide, by decide, by decide, ?_⟩
  have h := claim_C2 exC2St "Product" "Sales" "product_id" "_link_table_product_id"
    productDF salesDF (by decide) (by decide) (by decide) (by decide) (by decide)
    (by decide) (by decide) (by decide) (by decide) (by decide) (by decide) (by decide)
  exact h

theorem mem_insertSorted (a b : String) : ∀ l, a ∈ insertSorted b l ↔ a = b ∨ a ∈ l := by
  intro l
  induction l with
  | nil => simp [insertSorted]
  | cons x t ih =>
      unfold insertSorted
      by_cases hle : charLeList b.data x.data = true
      · rw [if_pos hle]
        simp
      · rw [if_neg hle]
        simp only [List.mem_cons, ih]
        tauto

theorem mem_sortStrings (a : String) (l : List String) : a ∈ sortStrings l ↔ a ∈ l := by
  unfold sortStrings
  induction l with
  | nil => simp
  | cons x t ih =>
      simp only [List.foldr_cons, mem_insertSorted, List.mem_cons, ih]

theorem mem_foldl_preserve {α β : Type} (step : List α → β → List α)
    (hstep : ∀ acc b a, a ∈ acc → a ∈ step acc b) :
    ∀ (l : List β) (acc : List α) (a : α), a ∈ acc → a ∈ l.foldl step acc := by
  intro l
  induction l with
  | nil => intro acc a h; exact h
  | cons b rest ih =>
      intro acc a h
      exact ih _ _ (hstep acc b a h)

theorem mem_set_add (acc : List String) (c a : String) (h : a ∈ acc) : a ∈ set_add acc c := by
  unfold set_add
  by_cases hc : c ∈ acc
  · rw [if_pos hc]
    exact h
  · rw [if_neg hc]
    exact List.mem_append_left _ h

theorem mem_all_used_columns (cmReg : List (String × ComputedMetric)) (mets cms : List String)
    (having : Option String) (sortPairs : List (String × String)) (M : String)
    (h : M ∈ mets ∨ M ∈ cms) :
    M ∈ all_used_columns_of cmReg mets cms having sortPairs := by
  unfold all_used_columns_of
  refine mem_foldl_preserve _ (fun acc b a ha => mem_set_add acc b.1 a ha) _ _ _ ?_
  refine mem_foldl_preserve _ (fun acc b a ha => mem_set_add acc b a ha) _ _ _ ?_
  refine mem_foldl_preserve _ ?_ _ _ _ ?_
  · intro acc b a ha
    rcases hb : alookup cmReg b with _ | cmo
    · exact ha
    · exact mem_foldl_preserve _ (fun acc2 b2 a2 ha2 => mem_set_add acc2 b2 a2 ha2)
        _ _ _ ha
  · rw [mem_dedupFirst]
    rcases h with h | h
    · exact List.mem_append_left _ h
    · exact List.mem_append_right _ h

theorem compile_query_missing (metricsReg : List (String × Metric))
    (cmReg : List (String × ComputedMetric)) (dims_known : List String)
    (dims mets cms : List String) (having : Option String)
    (sortPairs : List (String × String)) (dnd dnm : Bool) (desc : QueryDescriptor) :
    compile_query metricsReg cmReg dims_known dims mets cms having sortPairs dnd dnm
        = .ok desc →
    desc.missing_column_names =
      sortStrings ((all_used_columns_of cmReg mets cms having sortPairs).filter
        (fun n => decide ((alookup metricsReg n).isNone ∧ (alookup cmReg n).isNone ∧
          n ∉ dims_known))) := by
  simp only [compile_query]
  rcases h : visit_go
      (cm_deps_of cmReg
        (dedupFirst (cms ++ hidden_cms_of cmReg cms (having_columns_of having) sortPairs)))
      (topoFuel
        (cm_deps_of cmReg
          (dedupFirst (cms ++ hidden_cms_of cmReg cms (having_columns_of having) sortPairs)))
        (dedupFirst (cms ++ hidden_cms_of cmReg cms (having_columns_of having) sortPairs)))
      (dedupFirst (cms ++ hidden_cms_of cmReg cms (having_columns_of having) sortPairs))
      ⟨[], [], []⟩ with e' | ts
  · simp
  · intro hok
    simp only [Except.ok.injEq] at hok
    rw [← hok]
    rfl

theorem not_mem_missing (metricsReg : List (String × Metric))
    (cmReg : List (String × ComputedMetric)) (dims_known : List String)
    (dims mets cms : List String) (having : Option String)
    (sortPairs : List (String × String)) (dnd dnm : Bool) (desc : QueryDescriptor)
    (M : String)
    (h : compile_query metricsReg cmReg dims_known dims mets cms having sortPairs dnd dnm
      = .ok desc)
    (hM : (alookup metricsReg M).isSome = true) :
    M ∉ desc.missing_column_names := by
  rw [compile_query_missing metricsReg cmReg dims_known dims mets cms having sortPairs
    dnd dnm desc h]
  intro hmem
  rw [mem_sortStrings] at hmem
  rcases List.mem_filter.mp hmem with ⟨-, hp⟩
  simp only [decide_eq_true_eq] at hp
  rw [Option.isNone_iff_eq_none] at hp
  rw [hp.1] at hM
  simp at hM

theorem define_query_shape (st : CubeSt) (name : String) (dims mets cms : List String)
    (having : Option String) (sortPairs : List (String × String)) (dnd dnm : Bool)
    (st' : CubeSt)
    (h : define_query st name dims mets cms having sortPairs dnd dnm = .ok st') :
    st'.metrics = st.metrics ∧ st'.computed_metrics = st.computed_metrics ∧
    (∀ k, k ≠ name → alookup st'.queries k = alookup st.queries k) ∧
    ∃ desc, compile_query st.metrics st.computed_metrics (get_dimensions st)
        dims mets cms having sortPairs dnd dnm = .ok desc ∧
      alookup st'.queries name = some desc := by
  unfold define_query at h
  rcases hc : compile_query st.metrics st.computed_metrics (get_dimensions st)
      dims mets cms having sortPairs dnd dnm with e | desc
  · rw [hc] at h
    exact absurd h (by simp)
  · rw [hc] at h
    simp only [Except.ok.injEq] at h
    subst h
    refine ⟨rfl, rfl, ?_, desc, rfl, ?_⟩
    · intro k hk
      dsimp only
      exact alookup_aset_ne _ _ _ _ hk
    · dsimp only
      exact alookup_aset_same _ _ _

theorem refresh_loop_purge (M qname : String) :
    ∀ (entries : List (String × String)) (st : CubeSt),
      refresh_all_ok st entries = true →
      (alookup st.metrics M).isSome = true →
      ((("query", qname) ∈ entries ∧ (alookup st.queries qname).isSome = true) ∨
        (∃ desc, alookup st.queries qname = some desc ∧ M ∉ desc.missing_column_names)) →
      ∃ desc', alookup (refresh_loop st entries).queries qname = some desc' ∧
        M ∉ desc'.missing_column_names := by
  intro entries
  induction entries with
  | nil =>
      intro st _ _ hmem
      rcases hmem with ⟨hin, -⟩ | ⟨desc, hd, hnm⟩
      · exact absurd hin (List.not_mem_nil _)
      · exact ⟨desc, hd, hnm⟩
  | cons kd rest ih =>
      intro st hok hM hmem
      simp only [refresh_all_ok] at hok
      simp only [refresh_loop]
      by_cases hk : kd.1 ≠ "query"
      · rw [if_pos hk] at hok ⊢
        refine ih st hok hM ?_
        rcases hmem with ⟨hin, hs⟩ | hdone
        · rcases List.mem_cons.mp hin with he | hin
          · exact absurd (congrArg Prod.fst he.symm) hk
          · exact Or.inl ⟨hin, hs⟩
        · exact Or.inr hdone
      · rw [if_neg hk] at hok ⊢
        rcases hq : alookup st.queries kd.2 with _ | q
        · rw [hq] at hok
          refine ih st hok hM ?_
          rcases hmem with ⟨hin, hs⟩ | hdone
          · rcases List.mem_cons.mp hin with he | hin
            · have : kd.2 = qname := congrArg Prod.snd he.symm
              rw [this] at hq
              rw [hq] at hs
              simp at hs
            · exact Or.inl ⟨hin, hs⟩
          · exact Or.inr hdone
        · rw [hq] at hok
          dsimp only at hok ⊢
          revert hok
          rcases hd : define_query st kd.2 q.dimensions q.metrics q.computed_metrics
              q.having q.sort q.drop_null_dimensions q.drop_null_metric_results
              with e | st2
          · intro hok
            simp at hok
          · intro hok
            dsimp only at hok ⊢
            rcases define_query_shape st kd.2 q.dimensions q.metrics q.computed_metrics
                q.having q.sort q.drop_null_dimensions q.drop_null_metric_results st2 hd
              with ⟨hmet, -, hother, desc2, hcq, hstore⟩
            refine ih st2 hok (by rw [hmet]; exact hM) ?_
            by_cases hqn : kd.2 = qname
            · refine Or.inr ⟨desc2, hqn ▸ hstore, ?_⟩
              refine not_mem_missing st.metrics st.computed_metrics (get_dimensions st)
                q.dimensions q.metrics q.computed_metrics q.having q.sort
                q.drop_null_dimensions q.drop_null_metric_results desc2 M hcq hM
            · rcases hmem with ⟨hin, hs⟩ | ⟨desc, hd2, hnm⟩
              · rcases List.mem_cons.mp hin with he | hin
                · exact absurd (congrArg Prod.snd he.symm) hqn
                · refine Or.inl ⟨hin, ?_⟩
                  rw [hother qname (fun he2 => hqn he2.symm)]
                  exact hs
              · refine Or.inr ⟨desc, ?_, hnm⟩
                rw [hother qname (fun he2 => hqn he2.symm)]
                exact hd2

/-- C1 counterexample: computed metric `A` references `B`; query `Q` requests
the undefined metric `M` and `A`, so `missing_column_names = ["B", "M"]`;
defining computed metric `B` (referencing `A`) closes a computed-metric cycle,
so `Q`'s automatic recompiles raise and the dependent-refresh loop swallows
the raise; after `define_metric "M"` the metric exists but `Q` keeps its stale
descriptor with `"M"` still in `missing_column_names` — the original claim's
unconditional purge fails. -/
theorem claim_C1_counterexample :
    define_computed_metric cubeC1base "A" "[B]" none = .ok c1s1 ∧
    define_query c1s1 "Q" [] ["M"] ["A"] none [] false false = .ok c1s2 ∧
    (alookup c1s2.queries "Q").map QueryDescriptor.missing_column_names
      = some ["B", "M"] ∧
    (alookup c1s2.metrics "M").isNone = true ∧
    (alookup c1s2.computed_metrics "M").isNone = true ∧
    "M" ∉ get_dimensions c1s2 ∧
    define_computed_metric c1s2 "B" "[A]" none = .ok c1s3 ∧
    c1s4 = define_metric c1s3 "M" (some "[qty]") (some "sum") none "Unfiltered"
      false false none [] ∧
    (alookup c1s4.metrics "M").isSome = true ∧
    (alookup c1s4.queries "Q").map QueryDescriptor.missing_column_names
      = some ["B", "M"] := by
  refine ⟨rfl, rfl, by decide, by decide, by decide, by decide, rfl, rfl, by decide,
    by decide⟩

/-- **C1** (amended): forward-reference resolution.  A query requesting an
undefined name `M` (not a metric, computed metric, or dimension) compiles with
`M` in `missing_column_names`; and when `define_metric M` is later called and
the dependent-refresh loop completes without any recompile raising, the query
is recompiled with its stored parameters and `M` is no longer missing. -/
theorem claim_C1 (st : CubeSt) (qname M : String) (dims mets cms : List String)
    (having : Option String) (sortPairs : List (String × String)) (dnd dnm : Bool)
    (expression aggregation row_condition : Option String) (csn : String)
    (idim icf : Bool) (fillna : Option Val) (nd : List String) :
    (∀ st' desc, define_query st qname dims mets cms having sortPairs dnd dnm = .ok st' →
      alookup st'.queries qname = some desc →
      M ∈ mets → (alookup st.metrics M).isNone = true →
      (alookup st.computed_metrics M).isNone = true → M ∉ get_dimensions st →
      M ∈ desc.missing_column_names) ∧
    (∀ st₂ : CubeSt, ("query", qname) ∈ dep_get st₂.dep_index M →
      (alookup st₂.queries qname).isSome = true →
      refresh_all_ok (define_metric_st1 st₂ M expression aggregation row_condition csn
          idim icf fillna nd) (dep_get st₂.dep_index M) = true →
      ∃ desc', alookup (define_metric st₂ M expression aggregation row_condition csn
          idim icf fillna nd).queries qname = some desc' ∧
        M ∉ desc'.missing_column_names) := by
  constructor
  · intro st' desc hdq hget hmets hnm hnc hnd
    rcases define_query_shape st qname dims mets cms having sortPairs dnd dnm st' hdq
      with ⟨-, -, -, desc2, hcq, hstore⟩
    have hde : desc2 = desc := Option.some_injective _ (hstore.symm.trans hget)
    subst hde
    rw [compile_query_missing st.metrics st.computed_metrics (get_dimensions st)
      dims mets cms having sortPairs dnd dnm desc2 hcq]
    rw [mem_sortStrings]
    refine List.mem_filter.mpr ⟨?_, ?_⟩
    · exact mem_all_used_columns st.computed_metrics mets cms having sortPairs M
        (Or.inl hmets)
    · simp only [decide_eq_true_eq]
      exact ⟨Option.isNone_iff_eq_none.mp hnm ▸ rfl, Option.isNone_iff_eq_none.mp hnc ▸ rfl,
        hnd⟩
  · intro st₂ hdep hsome hok
    have hrw : define_metric st₂ M expression aggregation row_condition csn idim icf
        fillna nd = refresh_loop (define_metric_st1 st₂ M expression aggregation
          row_condition csn idim icf fillna nd)
        (dep_get (define_metric_st1 st₂ M expression aggregation row_condition csn
          idim icf fillna nd).dep_index M) := rfl
    rw [hrw]
    refine refresh_loop_purge M qname _ _ hok ?_ ?_
    · show (alookup (aset st₂.metrics M _) M).isSome = true
      rw [alookup_aset_same]
      rfl
    · exact Or.inl ⟨hdep, hsome⟩

/-- C1 witness: over the empty state, query `Q` requests the undefined metric
`M`, so `missing_column_names = ["M"]`; `define_metric "M"` then recompiles
`Q` (the refresh succeeds) and `M` is purged from the missing names. -/
theorem claim_C1_witness :
    define_query cubeC1base "Q" [] ["M"] [] none [] false false = .ok c1w1 ∧
    ("M" ∈ (["M"] : List String)) ∧
    (alookup cubeC1base.metrics "M").isNone = true ∧
    (∃ d, alookup c1w1.queries "Q" = some d ∧ "M" ∈ d.missing_column_names) ∧
    ("query", "Q") ∈ dep_get c1w1.dep_index "M" ∧
    (∃ desc', alookup (define_metric c1w1 "M" (some "[qty]") (some "sum") none "Unfiltered"
        false false none []).queries "Q" = some desc' ∧
      "M" ∉ desc'.missing_column_names) := by
  have h := claim_C1 cubeC1base "Q" "M" [] ["M"] [] none [] false false
    (some "[qty]") (some "sum") none "Unfiltered" false false none []
  refine ⟨rfl, by decide, by decide, ?_, by decide, ?_⟩
  · exact ⟨_, rfl, h.1 c1w1 _ rfl rfl (by decide) (by decide) (by decide) (by decide)⟩
  · exact h.2 c1w1 (by decide) (by decide) (by decide)

theorem path_ok_append (rel : Rel) :
    ∀ (p : List Edge) (s m : String) (r : List Edge) (e2 : String),
      path_ok rel s p m → path_ok rel m r e2 → path_ok rel s (p ++ r) e2 := by
  intro p
  induction p with
  | nil =>
      intro s m r e2 h1 h2
      have hs : s = m := h1
      rw [List.nil_append, hs]
      exact h2
  | cons ed rest ih =>
      intro s m r e2 h1 h2
      obtain ⟨ha, hmem, hrest⟩ := h1
      exact ⟨ha, hmem, ih _ _ _ _ hrest h2⟩

theorem bfs_cover (rel : Rel) (s e : String) (Q : List (String × List Edge))
    (V : List String) (W : List (String × Nat)) (inv : BfsInv rel s e Q V W) :
    ∀ (q : List Edge) (v : String) (m : Nat), (v, m) ∈ W →
      ∀ w, path_ok rel v q w → w ∉ W.map Prod.fst →
      ∃ tp ∈ Q, ∃ r, r ≠ [] ∧ path_ok rel tp.1 r w ∧
        tp.2.length + r.length ≤ m + q.length := by
  intro q
  induction q with
  | nil =>
      intro v m hvm w hpw hw
      have hvw : v = w := hpw
      subst hvw
      exact absurd (List.mem_map_of_mem Prod.fst hvm) hw
  | cons ed q' ih =>
      intro v m hvm w hpw hw
      obtain ⟨ha, hmem, hrest⟩ := hpw
      rcases inv.wexp (v, m) hvm with ⟨pp, hq, hlen⟩ | hexp
      · refine ⟨(v, pp), hq, ed :: q', by simp, ⟨ha, hmem, hrest⟩, ?_⟩
        simp only [List.length_cons]
        omega
      · rcases hexp ((ed.tableA, ed.tableB), (ed.keyA, ed.keyB)) hmem ha
          with ⟨m2, hbW, hm2⟩
        rcases ih ed.tableB m2 hbW w hrest hw with ⟨tp, htp, r, hrne, hval, hbound⟩
        refine ⟨tp, htp, r, hrne, hval, ?_⟩
        simp only [List.length_cons]
        omega

theorem bfs_expand_spec (t : String) (p : List Edge) :
    ∀ (items : Rel) (visited : List String),
      (bfs_expand t p items visited).1 =
        ((bfs_expand t p items visited).2.map Prod.fst).reverse ++ visited ∧
      ((bfs_expand t p items visited).2.map Prod.fst).Nodup ∧
      (∀ bp ∈ (bfs_expand t p items visited).2, bp.1 ∉ visited ∧
        (∃ k1 k2, ((t, bp.1), (k1, k2)) ∈ items ∧ bp.2 = p ++ [⟨t, bp.1, k1, k2⟩])) ∧
      (∀ rr ∈ items, rr.1.1 = t → rr.1.2 ∈ (bfs_expand t p items visited).1) ∧
      (∀ x ∈ visited, x ∈ (bfs_expand t p items visited).1) := by
  intro items
  induction items with
  | nil =>
      intro visited
      refine ⟨by simp [bfs_expand], by simp [bfs_expand], ?_, ?_, ?_⟩
      · intro bp hbp
        simp [bfs_expand] at hbp
      · intro rr hrr
        simp at hrr
      · intro x hx
        simpa [bfs_expand] using hx
  | cons item rest ih =>
      intro visited
      rcases item with ⟨⟨a, b⟩, ⟨k1, k2⟩⟩
      by_cases hc : a = t ∧ b ∉ visited
      · have hstep : bfs_expand t p (((a, b), (k1, k2)) :: rest) visited =
            ((bfs_expand t p rest (b :: visited)).1,
             (b, p ++ [⟨a, b, k1, k2⟩]) :: (bfs_expand t p rest (b :: visited)).2) := by
          conv_lhs => unfold bfs_expand
          simp only [if_pos hc]
        rcases ih (b :: visited) with ⟨ih1, ih2, ih3, ih4, ih5⟩
        rw [hstep]
        rcases hc with ⟨hat, hbv⟩
        subst hat
        dsimp only
        refine ⟨?_, ?_, ?_, ?_, ?_⟩
        · rw [ih1]
          simp [List.append_assoc]
        · rw [List.map_cons]
          refine List.nodup_cons.mpr ⟨?_, ih2⟩
          intro hbmem
          rcases List.mem_map.mp hbmem with ⟨bp, hbp, hfst⟩
          exact (ih3 bp hbp).1 (hfst ▸ List.mem_cons_self _ _)
        · intro bp hbp
          rcases List.mem_cons.mp hbp with rfl | hbp
          · exact ⟨hbv, k1, k2, List.mem_cons_self _ _, rfl⟩
          · rcases ih3 bp hbp with ⟨hnv, kk1, kk2, hmem, hpe⟩
            exact ⟨fun hx => hnv (List.mem_cons_of_mem _ hx), kk1, kk2,
              List.mem_cons_of_mem _ hmem, hpe⟩
        · intro rr hrr hfst
          rcases List.mem_cons.mp hrr with rfl | hrr
          · exact ih5 b (List.mem_cons_self _ _)
          · exact ih4 rr hrr hfst
        · intro x hx
          exact ih5 x (List.mem_cons_of_mem _ hx)
      · have hstep : bfs_expand t p (((a, b), (k1, k2)) :: rest) visited =
            bfs_expand t p rest visited := by
          conv_lhs => unfold bfs_expand
          rw [if_neg hc]
        rcases ih visited with ⟨ih1, ih2, ih3, ih4, ih5⟩
        rw [hstep]
        refine ⟨ih1, ih2, ?_, ?_, ih5⟩
        · intro bp hbp
          rcases ih3 bp hbp with ⟨hnv, kk1, kk2, hmem, hpe⟩
          exact ⟨hnv, kk1, kk2, List.mem_cons_of_mem _ hmem, hpe⟩
        · intro rr hrr hfst
          rcases List.mem_cons.mp hrr with rfl | hrr
          · have hb : b ∈ visited := by
              by_contra hnb
              exact hc ⟨hfst, hnb⟩
            exact ih5 b hb
          · exact ih4 rr hrr hfst

theorem filter_remove_lt {b : String} : ∀ {m : List String}, b ∈ m →
    (m.filter (fun x => decide (x ≠ b))).length < m.length := by
  intro m
  induction m with
  | nil => intro h; simp at h
  | cons x xs ih =>
      intro h
      rw [List.filter_cons]
      by_cases hx : x = b
      · rw [if_neg (by simp [hx])]
        have hle := List.length_filter_le (fun y => decide (y ≠ b)) xs
        simp only [List.length_cons]
        omega
      · rw [if_pos (by simp [hx])]
        have hb : b ∈ xs := by
          rcases List.mem_cons.mp h with he | hm
          · exact absurd he.symm hx
          · exact hm
        have := ih hb
        simp only [List.length_cons]
        omega

theorem pot_remove (l : List String) :
    ∀ (bs V : List String), bs.Nodup → (∀ b ∈ bs, b ∈ l ∧ b ∉ V) →
      (l.filter (fun x => decide (x ∉ V ∧ x ∉ bs))).length + bs.length ≤
        (l.filter (fun x => decide (x ∉ V))).length := by
  intro bs
  induction bs with
  | nil =>
      intro V _ _
      have heq : l.filter (fun x => decide (x ∉ V ∧ x ∉ ([] : List String)))
          = l.filter (fun x => decide (x ∉ V)) := by
        refine List.filter_congr ?_
        intro x _
        simp
      rw [heq]
      simp
  | cons b bs' ih =>
      intro V hnd hmem
      rcases hmem b (List.mem_cons_self _ _) with ⟨hbl, hbV⟩
      have heq : l.filter (fun x => decide (x ∉ V ∧ x ∉ b :: bs'))
          = l.filter (fun x => decide (x ∉ (b :: V) ∧ x ∉ bs')) := by
        refine List.filter_congr ?_
        intro x _
        simp only [decide_eq_decide, List.mem_cons]
        tauto
      rw [heq]
      have hstep := ih (b :: V) (List.nodup_cons.mp hnd).2 ?hmem2
      case hmem2 =>
        intro b2 hb2
        rcases hmem b2 (List.mem_cons_of_mem _ hb2) with ⟨h1, h2⟩
        refine ⟨h1, ?_⟩
        intro hx
        rcases List.mem_cons.mp hx with he | hm
        · exact (List.nodup_cons.mp hnd).1 (he ▸ hb2)
        · exact h2 hm
      have hsub : l.filter (fun x => decide (x ∉ (b :: V)))
          = (l.filter (fun x => decide (x ∉ V))).filter (fun x => decide (x ≠ b)) := by
        rw [List.filter_filter]
        refine List.filter_congr ?_
        intro x _
        by_cases hxb : x = b <;> by_cases hxV : x ∈ V <;> simp [hxb, hxV]
      have hblt : b ∈ l.filter (fun x => decide (x ∉ V)) :=
        List.mem_filter.mpr ⟨hbl, by simpa using hbV⟩
      have hlt := filter_remove_lt hblt
      rw [hsub] at hstep
      simp only [List.length_cons]
      omega

theorem pot_expand (rel : Rel) (t : String) (p : List Edge) (V : List String) :
    pot rel (bfs_expand t p rel V).1 + (bfs_expand t p rel V).2.length ≤ pot rel V := by
  rcases bfs_expand_spec t p rel V with ⟨h1, h2, h3, -, -⟩
  unfold pot
  have heq : (seconds rel).filter (fun b => decide (b ∉ (bfs_expand t p rel V).1))
      = (seconds rel).filter (fun x =>
          decide (x ∉ V ∧ x ∉ (bfs_expand t p rel V).2.map Prod.fst)) := by
    refine List.filter_congr ?_
    intro x _
    rw [h1]
    simp only [decide_eq_decide, List.mem_append, List.mem_reverse]
    tauto
  rw [heq]
  have hlen : ((bfs_expand t p rel V).2.map Prod.fst).length
      = (bfs_expand t p rel V).2.length := List.length_map _ _
  rw [← hlen]
  refine pot_remove (seconds rel) ((bfs_expand t p rel V).2.map Prod.fst) V h2 ?_
  intro b hb
  rcases List.mem_map.mp hb with ⟨bp, hbp, hfst⟩
  rcases h3 bp hbp with ⟨hnv, k1, k2, hmem, -⟩
  subst hfst
  constructor
  · unfold seconds
    rw [mem_dedupFirst]
    exact List.mem_map.mpr ⟨((t, bp.1), (k1, k2)), hmem, rfl⟩
  · exact hnv

theorem nodup_fst_pairs {α β : Type} : ∀ (W : List (α × β)), (W.map Prod.fst).Nodup →
    ∀ (a : α) (x y : β), (a, x) ∈ W → (a, y) ∈ W → x = y := by
  intro W
  induction W with
  | nil =>
      intro _ a x y hx _
      simp at hx
  | cons w ws ih =>
      intro hnd a x y hx hy
      rw [List.map_cons, List.nodup_cons] at hnd
      rcases List.mem_cons.mp hx with hex | hx
      · rcases List.mem_cons.mp hy with hey | hy
        · have : (a, x) = (a, y) := hex.trans hey.symm
          exact (Prod.mk.injEq _ _ _ _ ▸ this).2
        · exfalso
          refine hnd.1 ?_
          have hwa : w.1 = a := by rw [← hex]
          rw [hwa]
          exact List.mem_map.mpr ⟨(a, y), hy, rfl⟩
      · rcases List.mem_cons.mp hy with hey | hy
        · exfalso
          refine hnd.1 ?_
          have hwa : w.1 = a := by rw [← hey]
          rw [hwa]
          exact List.mem_map.mpr ⟨(a, x), hx, rfl⟩
        · exact ih hnd.2 a x y hx hy

theorem dedupFirstAux_length_le {α : Type} [DecidableEq α] :
    ∀ (l seen : List α), (dedupFirstAux l seen).length ≤ l.length := by
  intro l
  induction l with
  | nil => intro seen; simp [dedupFirstAux]
  | cons a as ih =>
      intro seen
      unfold dedupFirstAux
      by_cases ha : a ∈ seen
      · rw [if_pos ha]
        have := ih seen
        simp only [List.length_cons]
        omega
      · rw [if_neg ha]
        have := ih (a :: seen)
        simp only [List.length_cons]
        omega

theorem dedupFirst_length_le {α : Type} [DecidableEq α] (l : List α) :
    (dedupFirst l).length ≤ l.length :=
  dedupFirstAux_length_le l []

theorem bfs_inv_step (rel : Rel) (s e t : String) (p : List Edge)
    (rest : List (String × List Edge)) (V : List String) (W : List (String × Nat))
    (inv : BfsInv rel s e ((t, p) :: rest) V W) (hne : t ≠ e) :
    BfsInv rel s e (rest ++ (bfs_expand t p rel V).2) (bfs_expand t p rel V).1
      (W ++ (bfs_expand t p rel V).2.map (fun bp => (bp.1, p.length + 1))) := by
  rcases bfs_expand_spec t p rel V with ⟨h1, h2, h3, h4, h5⟩
  have hlen_new : ∀ bp ∈ (bfs_expand t p rel V).2, bp.2.length = p.length + 1 := by
    intro bp hbp
    rcases h3 bp hbp with ⟨-, k1, k2, -, hpe⟩
    rw [hpe]
    simp
  have hheadmem : (t, p) ∈ (t, p) :: rest := List.mem_cons_self _ _
  have hheadrec : (t, p.length) ∈ W := inv.qrec (t, p) hheadmem
  have hheadmin : ∀ tp ∈ rest, p.length ≤ tp.2.length :=
    fun tp htp => (List.pairwise_cons.mp inv.qsorted).1 tp htp
  have hWmap : (W ++ (bfs_expand t p rel V).2.map (fun bp => (bp.1, p.length + 1))).map
      Prod.fst = W.map Prod.fst ++ (bfs_expand t p rel V).2.map Prod.fst := by
    rw [List.map_append, List.map_map]
    rfl
  have hfresh : ∀ b ∈ (bfs_expand t p rel V).2.map Prod.fst, b ∉ W.map Prod.fst := by
    intro b hb hbw
    rcases List.mem_map.mp hb with ⟨bp, hbp, hfst⟩
    exact (h3 bp hbp).1 ((inv.vw bp.1).mpr (hfst ▸ hbw))
  have hmemV' : ∀ x, x ∈ (bfs_expand t p rel V).1 ↔
      (x ∈ V ∨ x ∈ (bfs_expand t p rel V).2.map Prod.fst) := by
    intro x
    rw [h1]
    simp only [List.mem_append, List.mem_reverse]
    tauto
  have hnewmem : ∀ vm ∈ (bfs_expand t p rel V).2.map (fun bp => (bp.1, p.length + 1)),
      ∃ bp ∈ (bfs_expand t p rel V).2, vm = (bp.1, p.length + 1) := by
    intro vm hvm
    rcases List.mem_map.mp hvm with ⟨bp, hbp, hfst⟩
    exact ⟨bp, hbp, hfst.symm⟩
  refine ⟨?_, ?_, ?_, ?_, ?_, ?_, ?_, ?_, ?_, ?_, ?_⟩
  · -- qvalid
    intro tp htp
    rcases List.mem_append.mp htp with htp | htp
    · exact inv.qvalid tp (List.mem_cons_of_mem _ htp)
    · rcases h3 tp htp with ⟨-, k1, k2, hmem, hpe⟩
      rw [hpe]
      refine path_ok_append rel p s t [⟨t, tp.1, k1, k2⟩] tp.1
        (inv.qvalid (t, p) hheadmem) ?_
      exact ⟨rfl, hmem, rfl⟩
  · -- qsorted
    rw [List.pairwise_append]
    refine ⟨(List.pairwise_cons.mp inv.qsorted).2, ?_, ?_⟩
    · refine List.pairwise_of_forall_mem_list ?_
      intro x hx y hy
      rw [hlen_new x hx, hlen_new y hy]
    · intro x hx y hy
      rw [hlen_new y hy]
      have := inv.qwindow x (List.mem_cons_of_mem _ hx) (t, p) hheadmem
      dsimp only at this
      omega
  · -- qwindow
    intro tp htp tp' htp'
    rcases List.mem_append.mp htp with htp | htp <;>
      rcases List.mem_append.mp htp' with htp' | htp'
    · exact inv.qwindow tp (List.mem_cons_of_mem _ htp) tp' (List.mem_cons_of_mem _ htp')
    · rw [hlen_new tp' htp']
      have := inv.qwindow tp (List.mem_cons_of_mem _ htp) (t, p) hheadmem
      dsimp only at this
      omega
    · rw [hlen_new tp htp]
      have := hheadmin tp' htp'
      omega
    · rw [hlen_new tp htp, hlen_new tp' htp']
      omega
  · -- qrec
    intro tp htp
    rcases List.mem_append.mp htp with htp | htp
    · exact List.mem_append_left _ (inv.qrec tp (List.mem_cons_of_mem _ htp))
    · refine List.mem_append_right _ ?_
      rw [hlen_new tp htp]
      exact List.mem_map.mpr ⟨tp, htp, rfl⟩
  · -- vw
    intro x
    rw [hmemV', hWmap]
    simp only [List.mem_append]
    rw [inv.vw x]
  · -- wnodup
    rw [hWmap]
    refine List.Nodup.append inv.wnodup h2 ?_
    intro a ha ha2
    exact hfresh a ha2 ha
  · -- wstart
    exact List.mem_append_left _ inv.wstart
  · -- wlev
    intro vm hvm tp htp
    rcases List.mem_append.mp hvm with hvm | hvm
    · rcases List.mem_append.mp htp with htp | htp
      · exact inv.wlev vm hvm tp (List.mem_cons_of_mem _ htp)
      · rw [hlen_new tp htp]
        have := inv.wlev vm hvm (t, p) hheadmem
        dsimp only at this
        omega
    · rcases hnewmem vm hvm with ⟨bp, hbp, hvme⟩
      rw [hvme]
      rcases List.mem_append.mp htp with htp | htp
      · have := hheadmin tp htp
        dsimp only
        omega
      · rw [hlen_new tp htp]
        dsimp only
        omega
  · -- wexp
    intro vm hvm
    rcases List.mem_append.mp hvm with hvm | hvm
    · rcases inv.wexp vm hvm with ⟨pp, hq, hlen⟩ | hexp
      · rcases List.mem_cons.mp hq with heq | hq
        · -- the queued entry was the popped head: vm.1 = t, pp = p
          have hv1 : vm.1 = t := congrArg Prod.fst heq
          have hpp : pp = p := congrArg Prod.snd heq
          have hvm2 : vm.2 = p.length := by
            rw [← hlen, hpp]
          refine Or.inr ?_
          intro rr hrr hfst
          have hb : rr.1.2 ∈ (bfs_expand t p rel V).1 := h4 rr hrr (hv1 ▸ hfst)
          rcases (hmemV' rr.1.2).mp hb with hbv | hbn
          · rcases List.mem_map.mp ((inv.vw rr.1.2).mp hbv) with ⟨vm2, hvm2m, hfst2⟩
            refine ⟨vm2.2, List.mem_append_left _ (hfst2 ▸ ?_), ?_⟩
            · exact (Prod.mk.eta ▸ hvm2m)
            · have := inv.wlev vm2 hvm2m (t, p) hheadmem
              dsimp only at this
              omega
          · rcases List.mem_map.mp hbn with ⟨bp, hbp, hfst2⟩
            refine ⟨p.length + 1, List.mem_append_right _ ?_, by omega⟩
            exact List.mem_map.mpr ⟨bp, hbp, by rw [hfst2]⟩
        · exact Or.inl ⟨pp, List.mem_append_left _ hq, hlen⟩
      · refine Or.inr ?_
        intro rr hrr hfst
        rcases hexp rr hrr hfst with ⟨m2, hm2W, hm2⟩
        exact ⟨m2, List.mem_append_left _ hm2W, hm2⟩
    · rcases hnewmem vm hvm with ⟨bp, hbp, hvme⟩
      refine Or.inl ⟨bp.2, List.mem_append_right _ ?_, ?_⟩
      · rw [hvme]
        exact hbp
      · rw [hvme, hlen_new bp hbp]
  · -- wopt
    intro vm hvm q hq
    rcases List.mem_append.mp hvm with hvm | hvm
    · exact inv.wopt vm hvm q hq
    · rcases hnewmem vm hvm with ⟨bp, hbp, hvme⟩
      subst hvme
      dsimp only at hq ⊢
      have hbfresh : bp.1 ∉ W.map Prod.fst :=
        hfresh bp.1 (List.mem_map.mpr ⟨bp, hbp, rfl⟩)
      rcases bfs_cover rel s e ((t, p) :: rest) V W inv q s 0 inv.wstart bp.1 hq hbfresh
        with ⟨tp, htp, r, hrne, -, hbound⟩
      have hmin : p.length ≤ tp.2.length := by
        rcases List.mem_cons.mp htp with heq | htp
        · rw [heq]
        · exact hheadmin tp htp
      have hr1 : 1 ≤ r.length := by
        cases r with
        | nil => exact absurd rfl hrne
        | cons a b => simp
      omega
  · -- etarget
    intro he
    rw [hWmap] at he
    rcases List.mem_append.mp he with he | he
    · rcases inv.etarget he with ⟨pp, hpp⟩
      rcases List.mem_cons.mp hpp with heq | hpp
      · exact absurd (congrArg Prod.fst heq).symm hne
      · exact ⟨pp, List.mem_append_left _ hpp⟩
    · rcases List.mem_map.mp he with ⟨bp, hbp, hfst⟩
      refine ⟨bp.2, List.mem_append_right _ ?_⟩
      rw [← hfst]
      exact hbp

theorem bfs_empty_no_path (rel : Rel) (s e : String) (V : List String)
    (W : List (String × Nat)) (inv : BfsInv rel s e [] V W) :
    ∀ q, ¬ path_ok rel s q e := by
  intro q hq
  by_cases he : e ∈ W.map Prod.fst
  · rcases inv.etarget he with ⟨pp, hpp⟩
    exact absurd hpp (List.not_mem_nil _)
  · rcases bfs_cover rel s e [] V W inv q s 0 inv.wstart e hq he
      with ⟨tp, htp, -⟩
    exact absurd htp (List.not_mem_nil _)

theorem bfs_loop_sound (rel : Rel) (s e : String) :
    ∀ (fuel : Nat) (Q : List (String × List Edge)) (V : List String)
      (W : List (String × Nat)), BfsInv rel s e Q V W →
      Q.length + pot rel V ≤ fuel →
      (∀ p, bfs_loop rel e fuel Q V = some p →
        path_ok rel s p e ∧ ∀ q, path_ok rel s q e → p.length ≤ q.length) ∧
      (bfs_loop rel e fuel Q V = none → ∀ q, ¬ path_ok rel s q e) := by
  intro fuel
  induction fuel with
  | zero =>
      intro Q V W inv hm
      have hQ : Q = [] := by
        cases Q with
        | nil => rfl
        | cons a b => simp at hm
      subst hQ
      constructor
      · intro p h
        exact absurd h (by simp [bfs_loop])
      · intro _ q hq
        exact bfs_empty_no_path rel s e V W inv q hq
  | succ fuel ih =>
      intro Q V W inv hm
      cases Q with
      | nil =>
          constructor
          · intro p h
            exact absurd h (by simp [bfs_loop])
          · intro _ q hq
            exact bfs_empty_no_path rel s e V W inv q hq
      | cons tp rest =>
          rcases tp with ⟨t, p⟩
          by_cases hte : t = e
          · subst hte
            have hh : bfs_loop rel t (fuel + 1) ((t, p) :: rest) V = some p := by
              conv_lhs => unfold bfs_loop
              rw [if_pos rfl]
            constructor
            · intro p2 h
              rw [hh] at h
              injection h with h
              subst h
              constructor
              · exact inv.qvalid (t, p) (List.mem_cons_self _ _)
              · intro q hq
                exact inv.wopt ((t, p).1, (t, p).2.length)
                  (inv.qrec (t, p) (List.mem_cons_self _ _)) q hq
            · intro h
              rw [hh] at h
              exact absurd h (by simp)
          · have hstep : bfs_loop rel e (fuel + 1) ((t, p) :: rest) V =
                bfs_loop rel e fuel (rest ++ (bfs_expand t p rel V).2)
                  (bfs_expand t p rel V).1 := by
              conv_lhs => unfold bfs_loop
              rw [if_neg hte]
            rw [hstep]
            refine ih _ _ _ (bfs_inv_step rel s e t p rest V W inv hte) ?_
            have hpot := pot_expand rel t p V
            simp only [List.length_append, List.length_cons] at hm ⊢
            omega

theorem bfs_inv_init (rel : Rel) (s e : String) :
    BfsInv rel s e [(s, [])] [s] [(s, 0)] := by
  refine ⟨?_, ?_, ?_, ?_, ?_, ?_, ?_, ?_, ?_, ?_, ?_⟩
  · intro tp htp
    rcases List.mem_cons.mp htp with rfl | h
    · rfl
    · simp at h
  · simp
  · intro tp htp tp' htp'
    rcases List.mem_cons.mp htp with rfl | h
    · simp
    · simp at h
  · intro tp htp
    rcases List.mem_cons.mp htp with rfl | h
    · simp
    · simp at h
  · intro x
    simp
  · simp
  · simp
  · intro vm hvm tp htp
    rcases List.mem_cons.mp hvm with rfl | h
    · simp
    · simp at h
  · intro vm hvm
    rcases List.mem_cons.mp hvm with rfl | h
    · exact Or.inl ⟨[], List.mem_cons_self _ _, rfl⟩
    · simp at h
  · intro vm hvm q _
    rcases List.mem_cons.mp hvm with rfl | h
    · simp
    · simp at h
  · intro he
    simp only [List.map_cons, List.map_nil, List.mem_singleton] at he
    exact ⟨[], by rw [he]; exact List.mem_cons_self _ _⟩

/-- **C3**: shortest path.  `_find_path` never returns an invalid path: a
`some` result is an ordered edge list chaining `start` to `end` through
relationship items whose edge count is minimal among all such paths, and a
`none` result means no such path exists at all. -/
theorem claim_C3 (rel : Rel) (s e : String) :
    (∀ p, find_path rel s e = some p →
      path_ok rel s p e ∧ ∀ q, path_ok rel s q e → p.length ≤ q.length) ∧
    (find_path rel s e = none → ∀ q, ¬ path_ok rel s q e) := by
  have hm : List.length [(s, ([] : List Edge))] + pot rel [s] ≤ 2 * rel.length + 1 := by
    have h1 : pot rel [s] ≤ (seconds rel).length := List.length_filter_le _ _
    have h2 : (seconds rel).length ≤ rel.length := by
      unfold seconds
      calc (dedupFirst (rel.map (fun r => r.1.2))).length
          ≤ (rel.map (fun r => r.1.2)).length := dedupFirst_length_le _
        _ = rel.length := List.length_map _ _
    simp only [List.length_cons, List.length_nil]
    omega
  exact bfs_loop_sound rel s e (2 * rel.length + 1) [(s, [])] [s] [(s, 0)]
    (bfs_inv_init rel s e) hm

/-- C3 witness: in the square-plus-triangle graph, the path found from `A` to
`C` is the two-edge shortest path (shorter than a four-edge detour), and the
disconnected `T1` yields `none` with no valid path. -/
theorem claim_C3_witness :
    find_path relSqTri "A" "C" = some [⟨"A", "B", "k", "k"⟩, ⟨"B", "C", "k", "k"⟩] ∧
    path_ok relSqTri "A" [⟨"A", "B", "k", "k"⟩, ⟨"B", "C", "k", "k"⟩] "C" ∧
    path_ok relSqTri "A" [⟨"A", "B", "k", "k"⟩, ⟨"B", "A", "k", "k"⟩,
      ⟨"A", "D", "k", "k"⟩, ⟨"D", "C", "k", "k"⟩] "C" ∧
    ([⟨"A", "B", "k", "k"⟩, ⟨"B", "C", "k", "k"⟩] : List Edge).length ≤
      ([⟨"A", "B", "k", "k"⟩, ⟨"B", "A", "k", "k"⟩, ⟨"A", "D", "k", "k"⟩,
        ⟨"D", "C", "k", "k"⟩] : List Edge).length ∧
    find_path relSqTri "A" "T1" = none ∧
    ¬ path_ok relSqTri "A" [⟨"A", "T1", "k", "k"⟩] "T1" := by
  have h := claim_C3 relSqTri "A" "C"
  have h2 := claim_C3 relSqTri "A" "T1"
  have hfind : find_path relSqTri "A" "C"
      = some [⟨"A", "B", "k", "k"⟩, ⟨"B", "C", "k", "k"⟩] := by decide
  have hnone : find_path relSqTri "A" "T1" = none := by decide
  refine ⟨hfind, (h.1 _ hfind).1, by decide, ?_, hnone, ?_⟩
  · exact (h.1 _ hfind).2 _ (by decide)
  · exact h2.2 hnone _

theorem mem_connected_tables (rel : Rel) (node : String) (parent : Option String)
    (y : String) :
    y ∈ connected_tables rel node parent ↔ (adjR rel node y ∧ some y ≠ parent) := by
  unfold connected_tables
  rw [mem_dedupFirst, List.mem_filterMap]
  constructor
  · rintro ⟨r, hr, hf⟩
    by_cases hc : r.1.1 = node ∧ some r.1.2 ≠ parent
    · rw [if_pos hc] at hf
      simp only [Option.some.injEq] at hf
      subst hf
      exact ⟨⟨r, hr, by rw [← hc.1]⟩, hc.2⟩
    · rw [if_neg hc] at hf
      simp at hf
  · rintro ⟨⟨r, hr, hfst⟩, hp⟩
    refine ⟨r, hr, ?_⟩
    have h1 : r.1.1 = node := by rw [hfst]
    have h2 : r.1.2 = y := by rw [hfst]
    rw [if_pos ⟨h1, h2 ▸ hp⟩, h2]

theorem get?_indexOf : ∀ (l : List String) (a : String), a ∈ l →
    l.get? (l.indexOf a) = some a := by
  intro l
  induction l with
  | nil => intro a h; simp at h
  | cons b t ih =>
      intro a h
      rw [List.indexOf_cons]
      by_cases hb : b = a
      · simp [hb]
      · have : (b == a) = false := by simpa using hb
        rw [this]
        simp only [cond_false, List.get?_cons_succ]
        refine ih a ?_
        rcases List.mem_cons.mp h with he | hm
        · exact absurd he.symm hb
        · exact hm

theorem getLast?_drop_of_ne_nil {path : List String} {i : Nat}
    (hne : path.drop i ≠ []) : (path.drop i).getLast? = path.getLast? := by
  have h1 : (path.take i ++ path.drop i).getLast? = (path.drop i).getLast? :=
    List.getLast?_append_of_ne_nil _ hne
  rw [List.take_append_drop] at h1
  exact h1.symm

theorem detect_cycle (rel : Rel) (hirr : ∀ x, ¬ adjR rel x x) (path : List String)
    (node n : String) (parent : Option String)
    (hchain : List.Chain' (adjR rel) path) (hnd : path.Nodup)
    (hlast : path.getLast? = some node)
    (hpar : ∀ pr, parent = some pr → path.get? (path.length - 2) = some pr)
    (hpar2 : parent = none → path.length = 1)
    (hadj : adjR rel node n) (hnp : some n ≠ parent) (hmem : n ∈ path) :
    IsSimpleCycle rel (path.drop (path.indexOf n)) := by
  have hget : path.get? (path.indexOf n) = some n := get?_indexOf path n hmem
  have hlt : path.indexOf n < path.length := List.indexOf_lt_length.mpr hmem
  have hglast : path.get? (path.length - 1) = some node := by
    rw [← List.getLast?_eq_get?]
    exact hlast
  have hnnode : n ≠ node := by
    intro he
    exact hirr node (he ▸ hadj)
  have hine1 : path.indexOf n ≠ path.length - 1 := by
    intro he
    rw [he, hglast] at hget
    exact hnnode (Option.some_injective _ hget.symm)
  rcases hp : parent with _ | pr
  · have hlen1 : path.length = 1 := hpar2 hp
    omega
  · have hpr : path.get? (path.length - 2) = some pr := hpar pr hp
    have hnpr : n ≠ pr := by
      intro he
      rw [hp] at hnp
      exact hnp (by rw [he])
    have hine2 : path.indexOf n ≠ path.length - 2 := by
      intro he
      rw [he, hpr] at hget
      exact hnpr (Option.some_injective _ hget.symm)
    have hlen3 : 3 ≤ (path.drop (path.indexOf n)).length := by
      rw [List.length_drop]
      omega
    have hne : path.drop (path.indexOf n) ≠ [] := by
      intro he
      rw [he] at hlen3
      simp at hlen3
    refine ⟨hlen3, List.Sublist.nodup (List.drop_sublist _ _) hnd,
      hchain.suffix (List.drop_suffix _ _), n, node, ?_, ?_, hadj⟩
    · rw [List.head?_drop, ← List.get?_eq_getElem?]
      exact hget
    · rw [getLast?_drop_of_ne_nil hne]
      exact hlast

theorem dfs_go_cons (rel : Rel) (fuel : Nat) (n : String) (ns : List String)
    (node : String) (parent : Option String) (visited path : List String) :
    dfs_go rel (fuel + 1) (n :: ns) node parent visited path =
      if n ∉ visited then
        (if (dfs_go rel fuel (connected_tables rel n (some node)) n (some node)
              (n :: visited) (path ++ [n])).2 ≠ [] then
           dfs_go rel fuel (connected_tables rel n (some node)) n (some node)
             (n :: visited) (path ++ [n])
         else dfs_go rel fuel ns node parent
           (dfs_go rel fuel (connected_tables rel n (some node)) n (some node)
             (n :: visited) (path ++ [n])).1 path)
      else if n ∈ path ∧ some n ≠ parent then (visited, path.drop (path.indexOf n))
      else dfs_go rel fuel ns node parent visited path := rfl

theorem dfs_go_visited_mono (rel : Rel) :
    ∀ (fuel : Nat) (ns : List String) (node : String) (parent : Option String)
      (visited path : List String) (x : String), x ∈ visited →
      x ∈ (dfs_go rel fuel ns node parent visited path).1 := by
  intro fuel
  induction fuel with
  | zero => intro ns node parent visited path x hx; exact hx
  | succ fuel ih =>
      intro ns node parent visited path x hx
      cases ns with
      | nil => exact hx
      | cons n ns =>
          rw [dfs_go_cons]
          by_cases hn : n ∉ visited
          · rw [if_pos hn]
            by_cases hr : (dfs_go rel fuel (connected_tables rel n (some node)) n
                (some node) (n :: visited) (path ++ [n])).2 ≠ []
            · rw [if_pos hr]
              exact ih _ _ _ _ _ x (List.mem_cons_of_mem _ hx)
            · rw [if_neg hr]
              exact ih _ _ _ _ _ x (ih _ _ _ _ _ x (List.mem_cons_of_mem _ hx))
          · rw [if_neg hn]
            by_cases hc : n ∈ path ∧ some n ≠ parent
            · rw [if_pos hc]
              exact hx
            · rw [if_neg hc]
              exact ih _ _ _ _ _ x hx

theorem dfs_go_sound (rel : Rel) (hirr : ∀ x, ¬ adjR rel x x) :
    ∀ (fuel : Nat) (ns : List String) (node : String) (parent : Option String)
      (visited path : List String),
      (∀ n ∈ ns, adjR rel node n ∧ some n ≠ parent) →
      List.Chain' (adjR rel) path → path.Nodup →
      (∀ x ∈ path, x ∈ visited) →
      path.getLast? = some node →
      (∀ pr, parent = some pr → path.get? (path.length - 2) = some pr) →
      (parent = none → path.length = 1) →
      (dfs_go rel fuel ns node parent visited path).2 ≠ [] →
      IsSimpleCycle rel (dfs_go rel fuel ns node parent visited path).2 := by
  intro fuel
  induction fuel with
  | zero =>
      intro ns node parent visited path _ _ _ _ _ _ _ hne
      exact absurd rfl hne
  | succ fuel ih =>
      intro ns node parent visited path hns hchain hnd hsubv hlast hpar hpar2 hne
      cases ns with
      | nil => exact absurd rfl hne
      | cons n ns =>
          rw [dfs_go_cons] at hne ⊢
          by_cases hn : n ∉ visited
          · rw [if_pos hn] at hne ⊢
            by_cases hr : (dfs_go rel fuel (connected_tables rel n (some node)) n
                (some node) (n :: visited) (path ++ [n])).2 ≠ []
            · rw [if_pos hr] at hne ⊢
              have hnpath : n ∉ path := fun hm => hn (hsubv n hm)
              have hpne : path ≠ [] := by
                intro he
                rw [he] at hlast
                simp at hlast
              refine ih (connected_tables rel n (some node)) n (some node)
                (n :: visited) (path ++ [n]) ?_ ?_ ?_ ?_ ?_ ?_ ?_ hr
              · intro m hm
                exact (mem_connected_tables rel n (some node) m).mp hm
              · rw [List.chain'_append]
                refine ⟨hchain, by simp, ?_⟩
                intro x hx y hy
                simp only [List.head?_cons, Option.mem_def, Option.some.injEq] at hy
                subst hy
                rw [hlast] at hx
                simp only [Option.mem_def, Option.some.injEq] at hx
                subst hx
                exact (hns n (List.mem_cons_self _ _)).1
              · rw [List.nodup_append]
                exact ⟨hnd, by simp, by simpa using hnpath⟩
              · intro x hx
                rcases List.mem_append.mp hx with hx | hx
                · exact List.mem_cons_of_mem _ (hsubv x hx)
                · simp only [List.mem_singleton] at hx
                  subst hx
                  exact List.mem_cons_self _ _
              · exact List.getLast?_concat _
              · intro pr hpr
                simp only [Option.some.injEq] at hpr
                subst hpr
                have hlen : (path ++ [n]).length = path.length + 1 := by simp
                rw [hlen]
                have h2 : path.length + 1 - 2 = path.length - 1 := by omega
                rw [h2]
                have hlt : path.length - 1 < path.length := by
                  cases path with
                  | nil => exact absurd rfl hpne
                  | cons a b => simp
                rw [List.get?_append hlt, ← List.getLast?_eq_get?]
                exact hlast
              · intro h
                simp at h
            · rw [if_neg hr] at hne ⊢
              refine ih ns node parent _ path (fun m hm =>
                hns m (List.mem_cons_of_mem _ hm)) hchain hnd ?_ hlast hpar hpar2 hne
              intro x hx
              exact dfs_go_visited_mono rel fuel _ _ _ _ _ x
                (List.mem_cons_of_mem _ (hsubv x hx))
          · rw [if_neg hn] at hne ⊢
            by_cases hc : n ∈ path ∧ some n ≠ parent
            · rw [if_pos hc] at hne ⊢
              exact detect_cycle rel hirr path node n parent hchain hnd hlast hpar
                hpar2 (hns n (List.mem_cons_self _ _)).1 hc.2 hc.1
            · rw [if_neg hc] at hne ⊢
              exact ih ns node parent visited path (fun m hm =>
                hns m (List.mem_cons_of_mem _ hm)) hchain hnd hsubv hlast hpar hpar2 hne

theorem cyc_loop_cons (rel : Rel) (t : String) (ts visited : List String) :
    cyc_loop rel (t :: ts) visited =
      if t ∈ visited then cyc_loop rel ts visited
      else
        if (dfs_visit rel (dfsFuel rel) t none (t :: visited) []).2 ≠ [] then
          (true, (dfs_visit rel (dfsFuel rel) t none (t :: visited) []).2)
        else cyc_loop rel ts (dfs_visit rel (dfsFuel rel) t none (t :: visited) []).1 := rfl

theorem cyc_loop_sound (rel : Rel) (hirr : ∀ x, ¬ adjR rel x x) :
    ∀ (ts visited : List String) (c : List String),
      cyc_loop rel ts visited = (true, c) → IsSimpleCycle rel c := by
  intro ts
  induction ts with
  | nil =>
      intro visited c h
      simp only [cyc_loop, Prod.mk.injEq, Bool.false_eq_true, false_and] at h
  | cons t ts ih =>
      intro visited c h
      rw [cyc_loop_cons] at h
      by_cases ht : t ∈ visited
      · rw [if_pos ht] at h
        exact ih visited c h
      · rw [if_neg ht] at h
        by_cases hr : (dfs_visit rel (dfsFuel rel) t none (t :: visited) []).2 ≠ []
        · rw [if_pos hr] at h
          simp only [Prod.mk.injEq] at h
          rw [← h.2]
          show IsSimpleCycle rel (dfs_go rel (dfsFuel rel)
            (connected_tables rel t none) t none (t :: visited) ([] ++ [t])).2
          refine dfs_go_sound rel hirr (dfsFuel rel) _ t none (t :: visited) ([] ++ [t])
            ?_ ?_ ?_ ?_ ?_ ?_ ?_ hr
          · intro m hm
            exact (mem_connected_tables rel t none m).mp hm
          · simp
          · simp
          · intro x hx
            simp only [List.nil_append, List.mem_singleton] at hx
            subst hx
            exact List.mem_cons_self _ _
          · simp
          · intro pr hpr
            simp at hpr
          · intro _
            simp
        · rw [if_neg hr] at h
          exact ih _ c h

theorem cyc_loop_false (rel : Rel) :
    ∀ (ts visited : List String) (b : Bool) (c : List String),
      cyc_loop rel ts visited = (b, c) → b = false → c = [] := by
  intro ts
  induction ts with
  | nil =>
      intro visited b c h _
      simp only [cyc_loop, Prod.mk.injEq] at h
      exact h.2.symm
  | cons t ts ih =>
      intro visited b c h hb
      rw [cyc_loop_cons] at h
      by_cases ht : t ∈ visited
      · rw [if_pos ht] at h
        exact ih visited b c h hb
      · rw [if_neg ht] at h
        by_cases hr : (dfs_visit rel (dfsFuel rel) t none (t :: visited) []).2 ≠ []
        · rw [if_pos hr] at h
          simp only [Prod.mk.injEq] at h
          rw [hb] at h
          simp at h
        · rw [if_neg hr] at h
          exact ih _ b c h hb

theorem before_in_cons {l : List String} {a b : String} (x : String)
    (h : before_in l a b) : before_in (x :: l) a b := by
  rcases h with ⟨i, j, hij, ha, hb⟩
  exact ⟨i + 1, j + 1, by omega, by simpa using ha, by simpa using hb⟩

theorem before_in_cons_head {l : List String} {b : String} (x : String) (h : b ∈ l) :
    before_in (x :: l) x b := by
  rcases List.mem_iff_get?.mp h with ⟨j, hj⟩
  exact ⟨0, j + 1, by omega, rfl, by simpa using hj⟩

theorem alookup_append_some {α β : Type} [DecidableEq α] {P Δ : List (α × β)} {x : α}
    {y : β} (h : alookup P x = some y) : alookup (P ++ Δ) x = some y := by
  rw [alookup_append, h]

theorem alookup_none_keys {α β : Type} [DecidableEq α] {P : List (α × β)}
    {V : List α} {n : α} (hk : ∀ kv ∈ P, kv.1 ∈ V) (hn : n ∉ V) :
    alookup P n = none := by
  induction P with
  | nil => rfl
  | cons kv rest ih =>
      unfold alookup
      rcases kv with ⟨k, v⟩
      have hne : k ≠ n := by
        intro he
        exact hn (he ▸ hk (k, v) (List.mem_cons_self _ _))
      rw [if_neg hne]
      exact ih (fun kv2 h2 => hk kv2 (List.mem_cons_of_mem _ h2))

theorem alookup_mem {α β : Type} [DecidableEq α] :
    ∀ {P : List (α × β)} {a : α} {b : β}, alookup P a = some b → (a, b) ∈ P := by
  intro P
  induction P with
  | nil => intro a b h; simp [alookup] at h
  | cons kv rest ih =>
      intro a b h
      rcases kv with ⟨k, v⟩
      unfold alookup at h
      by_cases hk : k = a
      · rw [if_pos hk] at h
        simp only [Option.some.injEq] at h
        subst hk
        subst h
        exact List.mem_cons_self _ _
      · rw [if_neg hk] at h
        exact List.mem_cons_of_mem _ (ih h)

theorem length_filter_le_imp {α : Type} (p q : α → Bool)
    (himp : ∀ x, q x = true → p x = true) :
    ∀ l : List α, (l.filter q).length ≤ (l.filter p).length := by
  intro l
  induction l with
  | nil => simp
  | cons a rest ih =>
      rw [List.filter_cons, List.filter_cons]
      by_cases hq : q a
      · rw [if_pos hq, if_pos (himp a hq)]
        simpa using ih
      · rw [if_neg hq]
        by_cases hp : p a
        · rw [if_pos hp]
          simp only [List.length_cons]
          omega
        · rw [if_neg hp]
          exact ih

theorem pot_mono_sub (rel : Rel) {V V' : List String} (h : ∀ x ∈ V, x ∈ V') :
    pot rel V' ≤ pot rel V := by
  refine length_filter_le_imp _ _ ?_ (seconds rel)
  intro x hx
  simp only [decide_eq_true_eq] at hx ⊢
  intro hm
  exact hx (h x hm)

theorem pot_cons_lt (rel : Rel) {V : List String} {n : String} (hn : n ∉ V)
    (hs : n ∈ seconds rel) : pot rel (n :: V) < pot rel V := by
  unfold pot
  have heq : (seconds rel).filter (fun b => decide (b ∉ n :: V))
      = ((seconds rel).filter (fun b => decide (b ∉ V))).filter
          (fun b => decide (b ≠ n)) := by
    rw [List.filter_filter]
    refine List.filter_congr ?_
    intro x _
    by_cases hxn : x = n <;> by_cases hxV : x ∈ V <;> simp [hxn, hxV]
  rw [heq]
  refine filter_remove_lt ?_
  exact List.mem_filter.mpr ⟨hs, by simpa using hn⟩

theorem adj_mem_seconds (rel : Rel) {node n : String} (h : adjR rel node n) :
    n ∈ seconds rel := by
  rcases h with ⟨r, hr, hfst⟩
  unfold seconds
  rw [mem_dedupFirst]
  refine List.mem_map.mpr ⟨r, hr, ?_⟩
  rw [hfst]

theorem connected_length_le (rel : Rel) (n : String) (par : Option String) :
    (connected_tables rel n par).length ≤ rel.length := by
  unfold connected_tables
  calc (dedupFirst _).length ≤ _ := dedupFirst_length_le _
    _ ≤ rel.length := List.length_filterMap_le _ _

theorem getLast?_mem {l : List String} {a : String} (h : l.getLast? = some a) :
    a ∈ l := by
  rw [List.getLast?_eq_get?] at h
  exact List.get?_mem h

theorem dfs_go_complete (rel : Rel) (hsym : ∀ x y, adjR rel x y → adjR rel y x) :
    ∀ (fuel : Nat) (ns : List String) (node : String) (parent : Option String)
      (visited path : List String) (P : List (String × String)),
      ns.length + pot rel visited * (rel.length + 1) < fuel →
      (∀ n ∈ ns, adjR rel node n ∧ some n ≠ parent) →
      (∀ y, adjR rel node y → some y ≠ parent →
        y ∈ ns ∨ (y ∈ visited ∧ certP P node y)) →
      (∀ x ∈ path, x ∈ visited) →
      path.getLast? = some node →
      (∀ pr, parent = some pr → alookup P node = some pr ∧ pr ∈ visited) →
      goodV rel visited path P →
      (dfs_go rel fuel ns node parent visited path).2 = [] →
      ∃ Δ, goodV rel (dfs_go rel fuel ns node parent visited path).1
        path.dropLast (P ++ Δ) := by
  intro fuel
  induction fuel with
  | zero =>
      intro ns node parent visited path P hm
      omega
  | succ fuel ih =>
      intro ns node parent visited path P hm hns hproc hsubv hlast hpar hgood hres
      cases ns with
      | nil =>
          have hemp : dfs_go rel (fuel + 1) [] node parent visited path
              = (visited, []) := rfl
          rw [hemp]
          refine ⟨[], ?_⟩
          rw [List.append_nil]
          refine ⟨?_, hgood.2.1, hgood.2.2⟩
          intro x hx hxact y hady
          by_cases hxp : x ∈ path
          · have hxnode : x = node := by
              have hsplit := List.dropLast_append_getLast (l := path)
                (by intro he; rw [he] at hlast; simp at hlast)
              have hgl : path.getLast (by intro he; rw [he] at hlast; simp at hlast)
                  = node := by
                have := List.getLast?_eq_getLast path
                  (by intro he; rw [he] at hlast; simp at hlast)
                rw [this] at hlast
                exact Option.some_injective _ hlast
              rw [← hsplit, hgl] at hxp
              rcases List.mem_append.mp hxp with hxp | hxp
              · exact absurd hxp hxact
              · simpa using hxp
            subst hxnode
            by_cases hyp : some y = parent
            · rcases hpar y hyp.symm with ⟨hl, hv⟩
              exact ⟨hv, Or.inl hl⟩
            · rcases hproc y hady hyp with hin | ⟨hv, hc⟩
              · simp at hin
              · exact ⟨hv, hc⟩
          · exact hgood.1 x hx hxp y hady
      | cons n ns =>
          rw [dfs_go_cons] at hres ⊢
          by_cases hn : n ∉ visited
          · rw [if_pos hn] at hres ⊢
            by_cases hr : (dfs_go rel fuel (connected_tables rel n (some node)) n
                (some node) (n :: visited) (path ++ [n])).2 ≠ []
            · rw [if_pos hr] at hres
              exact absurd hres hr
            · rw [if_neg hr] at hres ⊢
              push_neg at hr
              have hnodemem : node ∈ visited := hsubv node (getLast?_mem hlast)
              have hnsec : n ∈ seconds rel :=
                adj_mem_seconds rel (hns n (List.mem_cons_self _ _)).1
              have hpotc : pot rel (n :: visited) < pot rel visited :=
                pot_cons_lt rel hn hnsec
              have hkeysP : ∀ kv ∈ P, kv.1 ∈ visited := fun kv hkv =>
                (hgood.2.1 kv hkv).1
              have hlookn : alookup (P ++ [(n, node)]) n = some node := by
                rw [alookup_append, alookup_none_keys hkeysP hn]
                simp [alookup]
              have hchild := ih (connected_tables rel n (some node)) n (some node)
                (n :: visited) (path ++ [n]) (P ++ [(n, node)]) ?hmc ?hnsc ?hprocc
                ?hsubvc ?hlastc ?hparc ?hgoodc hr
              case hmc =>
                have hc1 : (connected_tables rel n (some node)).length ≤ rel.length :=
                  connected_length_le rel n (some node)
                have hc2 : (pot rel (n :: visited) + 1) * (rel.length + 1) ≤
                    pot rel visited * (rel.length + 1) :=
                  Nat.mul_le_mul_right _ (by omega)
                have hc3 : pot rel (n :: visited) * (rel.length + 1) + (rel.length + 1)
                    = (pot rel (n :: visited) + 1) * (rel.length + 1) := by ring
                simp only [List.length_cons] at hm
                omega
              case hnsc =>
                intro m hm2
                exact (mem_connected_tables rel n (some node) m).mp hm2
              case hprocc =>
                intro y hady hyp
                exact Or.inl ((mem_connected_tables rel n (some node) y).mpr ⟨hady, hyp⟩)
              case hsubvc =>
                intro x hx
                rcases List.mem_append.mp hx with hx | hx
                · exact List.mem_cons_of_mem _ (hsubv x hx)
                · simp only [List.mem_singleton] at hx
                  subst hx
                  exact List.mem_cons_self _ _
              case hlastc => exact List.getLast?_concat _
              case hparc =>
                intro pr hpr
                simp only [Option.some.injEq] at hpr
                subst hpr
                exact ⟨hlookn, List.mem_cons_of_mem _ hnodemem⟩
              case hgoodc =>
                refine ⟨?_, ?_, ?_⟩
                · intro x hx hxact y hady
                  have hxn : x ≠ n := by
                    intro he
                    exact hxact (he ▸ List.mem_append_right _ (by simp))
                  have hxv : x ∈ visited := by
                    rcases List.mem_cons.mp hx with he | hx
                    · exact absurd he hxn
                    · exact hx
                  have hxp : x ∉ path := fun hp =>
                    hxact (List.mem_append_left _ hp)
                  rcases hgood.1 x hxv hxp y hady with ⟨hyv, hyc⟩
                  refine ⟨List.mem_cons_of_mem _ hyv, ?_⟩
                  rcases hyc with hc | hc
                  · exact Or.inl (alookup_append_some hc)
                  · exact Or.inr (alookup_append_some hc)
                · intro kv hkv
                  rcases List.mem_append.mp hkv with hkv | hkv
                  · rcases hgood.2.1 kv hkv with ⟨h1, h2, h3⟩
                    exact ⟨List.mem_cons_of_mem _ h1, List.mem_cons_of_mem _ h2,
                      before_in_cons n h3⟩
                  · simp only [List.mem_singleton] at hkv
                    subst hkv
                    exact ⟨List.mem_cons_self _ _, List.mem_cons_of_mem _ hnodemem,
                      before_in_cons_head n hnodemem⟩
                · exact List.nodup_cons.mpr ⟨hn, hgood.2.2⟩
              rcases hchild with ⟨Δ, hgoodchild⟩
              rw [List.dropLast_concat] at hgoodchild
              have hmono1 : ∀ x ∈ visited,
                  x ∈ (dfs_go rel fuel (connected_tables rel n (some node)) n
                    (some node) (n :: visited) (path ++ [n])).1 := fun x hx =>
                dfs_go_visited_mono rel fuel _ _ _ _ _ x (List.mem_cons_of_mem _ hx)
              have hmono2 : n ∈ (dfs_go rel fuel (connected_tables rel n (some node)) n
                  (some node) (n :: visited) (path ++ [n])).1 :=
                dfs_go_visited_mono rel fuel _ _ _ _ _ n (List.mem_cons_self _ _)
              have hsib := ih ns node parent
                (dfs_go rel fuel (connected_tables rel n (some node)) n (some node)
                  (n :: visited) (path ++ [n])).1 path (P ++ ([(n, node)] ++ Δ))
                ?hms ?hnss ?hprocs ?hsubvs hlast ?hpars ?hgoods hres
              case hms =>
                have hpm : pot rel (dfs_go rel fuel (connected_tables rel n (some node))
                    n (some node) (n :: visited) (path ++ [n])).1 ≤
                    pot rel (n :: visited) := by
                  refine pot_mono_sub rel ?_
                  intro x hx
                  exact dfs_go_visited_mono rel fuel _ _ _ _ _ x hx
                have hc2 : (pot rel (n :: visited) + 1) * (rel.length + 1) ≤
                    pot rel visited * (rel.length + 1) :=
                  Nat.mul_le_mul_right _ (by omega)
                have hc3 : pot rel (n :: visited) * (rel.length + 1) + (rel.length + 1)
                    = (pot rel (n :: visited) + 1) * (rel.length + 1) := by ring
                have hc4 : pot rel (dfs_go rel fuel (connected_tables rel n (some node))
                    n (some node) (n :: visited) (path ++ [n])).1 * (rel.length + 1) ≤
                    pot rel (n :: visited) * (rel.length + 1) :=
                  Nat.mul_le_mul_right _ hpm
                simp only [List.length_cons] at hm
                omega
              case hnss =>
                intro m hm2
                exact hns m (List.mem_cons_of_mem _ hm2)
              case hprocs =>
                intro y hady hyp
                rcases hproc y hady hyp with hin | ⟨hv, hc⟩
                · rcases List.mem_cons.mp hin with he | hin
                  · subst he
                    refine Or.inr ⟨hmono2, Or.inr ?_⟩
                    rw [← List.append_assoc]
                    exact alookup_append_some hlookn
                  · exact Or.inl hin
                · refine Or.inr ⟨hmono1 y hv, ?_⟩
                  rcases hc with hc | hc
                  · exact Or.inl (alookup_append_some hc)
                  · exact Or.inr (alookup_append_some hc)
              case hsubvs =>
                intro x hx
                exact hmono1 x (hsubv x hx)
              case hpars =>
                intro pr hpr
                rcases hpar pr hpr with ⟨h1, h2⟩
                exact ⟨alookup_append_some h1, hmono1 pr h2⟩
              case hgoods =>
                rw [← List.append_assoc]
                exact hgoodchild
              rcases hsib with ⟨Δ2, hgoodsib⟩
              refine ⟨[(n, node)] ++ Δ ++ Δ2, ?_⟩
              rw [← List.append_assoc, ← List.append_assoc]
              rw [← List.append_assoc] at hgoodsib
              exact hgoodsib
          · rw [if_neg hn] at hres ⊢
            push_neg at hn
            by_cases hc : n ∈ path ∧ some n ≠ parent
            · rw [if_pos hc] at hres
              exfalso
              have hlt : path.indexOf n < path.length :=
                List.indexOf_lt_length.mpr hc.1
              have := congrArg List.length hres
              rw [List.length_drop] at this
              simp only [List.length_nil] at this
              omega
            · rw [if_neg hc] at hres ⊢
              refine ih ns node parent visited path P ?_ (fun m hm2 =>
                hns m (List.mem_cons_of_mem _ hm2)) ?_ hsubv hlast hpar hgood hres
              · simp only [List.length_cons] at hm
                omega
              · intro y hady hyp
                rcases hproc y hady hyp with hin | hdone
                · rcases List.mem_cons.mp hin with he | hin
                  · subst he
                    refine Or.inr ⟨hn, ?_⟩
                    have hynp : y ∉ path := by
                      intro hp
                      exact hc ⟨hp, hyp⟩
                    rcases hgood.1 y hn hynp node (hsym node y hady) with ⟨-, hcrt⟩
                    rcases hcrt with h1 | h1
                    · exact Or.inr h1
                    · exact Or.inl h1
                  · exact Or.inl hin
                · exact Or.inr hdone

theorem head_ne_getLast_nodup {l : List String} (hnd : l.Nodup) (hlen : 2 ≤ l.length)
    {a b : String} (hh : l.head? = some a) (hl : l.getLast? = some b) : a ≠ b := by
  intro he
  subst he
  have h0 : l.get? 0 = some a := by
    cases l with
    | nil => simp at hh
    | cons x t =>
        simp only [List.head?_cons, Option.some.injEq] at hh
        rw [← hh]
        rfl
  have h1 : l.get? (l.length - 1) = some a := by
    rw [← List.getLast?_eq_get?]
    exact hl
  have := nodup_get?_inj hnd h0 h1
  omega

theorem cycle_neighbors (rel : Rel) (c : List String) (hcyc : IsSimpleCycle rel c) :
    ∀ w ∈ c, ∃ prev next, prev ∈ c ∧ next ∈ c ∧ prev ≠ next ∧
      adjR rel prev w ∧ adjR rel w next := by
  rcases hcyc with ⟨hlen, hnd, hchain, h, t, hh, ht, hadj⟩
  intro w hw
  rcases List.append_of_mem hw with ⟨a, b, rfl⟩
  cases a with
  | nil =>
      rw [List.nil_append] at hlen hnd hchain hh ht ⊢
      have hhw : h = w := by
        simp only [List.head?_cons, Option.some.injEq] at hh
        exact hh.symm
      subst hhw
      cases b with
      | nil => simp at hlen
      | cons x b' =>
          cases b' with
          | nil => simp at hlen
          | cons z b'' =>
              have htm : t ∈ z :: b'' := by
                have : (h :: x :: z :: b'').getLast? = (z :: b'').getLast? := by
                  rw [List.getLast?_cons_cons, List.getLast?_cons_cons]
                rw [this] at ht
                exact getLast?_mem ht
              refine ⟨t, x, ?_, ?_, ?_, ?_, ?_⟩
              · exact List.mem_cons_of_mem _ (List.mem_cons_of_mem _ htm)
              · exact List.mem_cons_of_mem _ (List.mem_cons_self _ _)
              · intro he
                subst he
                have hxz : t ∉ z :: b'' := by
                  have := (List.nodup_cons.mp (List.nodup_cons.mp hnd).2).1
                  exact this
                exact hxz htm
              · exact hadj
              · exact (List.chain'_cons.mp hchain).1
  | cons a0 a1 =>
      cases b with
      | nil =>
          have htw : t = w := by
            have : ((a0 :: a1) ++ [w]).getLast? = some w := List.getLast?_concat _
            rw [this] at ht
            exact (Option.some_injective _ ht).symm
          have hh0 : h = a0 := by
            rw [List.cons_append] at hh
            simp only [List.head?_cons, Option.some.injEq] at hh
            exact hh.symm
          have hadjwa : adjR rel w a0 := by
            rw [← htw, ← hh0]
            exact hadj
          have ha1 : a1 ≠ [] := by
            intro he
            subst he
            simp at hlen
          have hglmem : (a0 :: a1).getLast (by simp) ∈ a0 :: a1 := List.getLast_mem _
          refine ⟨(a0 :: a1).getLast (by simp), a0, ?_, ?_, ?_, ?_, hadjwa⟩
          · exact List.mem_append_left _ hglmem
          · exact List.mem_append_left _ (List.mem_cons_self _ _)
          · have hgl2 : (a0 :: a1).getLast (by simp) = a1.getLast ha1 := by
              rw [List.getLast_cons ha1]
            rw [hgl2]
            intro he
            have hmem : a1.getLast ha1 ∈ a1 := List.getLast_mem _
            rw [he] at hmem
            have hnd' : ((a0 :: a1) ++ [w]).Nodup := hnd
            exact (List.nodup_cons.mp (List.Nodup.of_append_left hnd')).1 hmem
          · rcases List.chain'_append.mp hchain with ⟨-, -, hjoin⟩
            refine hjoin _ ?_ w ?_
            · rw [List.getLast?_eq_getLast _ (by simp)]
              rfl
            · rfl
      | cons x b' =>
          have hprevmem : (a0 :: a1).getLast (by simp) ∈ a0 :: a1 := List.getLast_mem _
          refine ⟨(a0 :: a1).getLast (by simp), x, ?_, ?_, ?_, ?_, ?_⟩
          · exact List.mem_append_left _ hprevmem
          · exact List.mem_append_right _ (List.mem_cons_of_mem _
              (List.mem_cons_self _ _))
          · intro he
            have hd := List.disjoint_of_nodup_append hnd
            refine hd hprevmem ?_
            rw [he]
            exact List.mem_cons_of_mem _ (List.mem_cons_self _ _)
          · rcases List.chain'_append.mp hchain with ⟨-, -, hjoin⟩
            refine hjoin _ ?_ w ?_
            · rw [List.getLast?_eq_getLast _ (by simp)]
              rfl
            · rfl
          · rcases List.chain'_append.mp hchain with ⟨-, hright, -⟩
            exact (List.chain'_cons.mp hright).1

theorem exists_earliest : ∀ (V : List String), V.Nodup → ∀ (c : List String),
    (∃ x ∈ c, x ∈ V) → ∃ w ∈ c, ∀ x ∈ c, ¬ before_in V x w := by
  intro V
  induction V with
  | nil =>
      rintro _ c ⟨x, -, hx⟩
      simp at hx
  | cons v V' ih =>
      intro hnd c hex
      by_cases hv : v ∈ c
      · refine ⟨v, hv, ?_⟩
        rintro x hx ⟨i, j, hij, hxi, hvj⟩
        have h0 : (v :: V').get? 0 = some v := rfl
        have := nodup_get?_inj hnd hvj h0
        omega
      · have hex' : ∃ x ∈ c, x ∈ V' := by
          rcases hex with ⟨x, hxc, hxV⟩
          rcases List.mem_cons.mp hxV with he | hm
          · exact absurd (he ▸ hxc) hv
          · exact ⟨x, hxc, hm⟩
        rcases ih (List.nodup_cons.mp hnd).2 c hex' with ⟨w, hwc, hwmin⟩
        refine ⟨w, hwc, ?_⟩
        rintro x hx ⟨i, j, hij, hxi, hwj⟩
        have hwv : w ≠ v := fun he => hv (he ▸ hwc)
        have hxv : x ≠ v := fun he => hv (he ▸ hx)
        cases j with
        | zero =>
            simp only [List.get?_cons_zero, Option.some.injEq] at hwj
            exact hwv hwj.symm
        | succ j' =>
            cases i with
            | zero =>
                simp only [List.get?_cons_zero, Option.some.injEq] at hxi
                exact hxv hxi.symm
            | succ i' =>
                exact hwmin x hx ⟨i', j', by omega, by simpa using hxi,
                  by simpa using hwj⟩

theorem adj_mem_relNodes (rel : Rel) {x y : String} (h : adjR rel x y) :
    x ∈ relNodes rel ∧ y ∈ relNodes rel := by
  rcases h with ⟨r, hr, hfst⟩
  unfold relNodes
  rw [mem_dedupFirst, mem_dedupFirst]
  constructor
  · refine List.mem_flatMap.mpr ⟨r, hr, ?_⟩
    rw [hfst]
    simp
  · refine List.mem_flatMap.mpr ⟨r, hr, ?_⟩
    rw [hfst]
    simp

theorem cert_no_cycle (rel : Rel) (V : List String) (P : List (String × String))
    (hgood : goodV rel V [] P) (hall : ∀ x ∈ relNodes rel, x ∈ V) :
    ∀ c, ¬ IsSimpleCycle rel c := by
  intro c hcyc
  have hedge : ∀ x y, adjR rel x y → certP P x y := by
    intro x y hxy
    exact (hgood.1 x (hall x (adj_mem_relNodes rel hxy).1) (List.not_mem_nil x) y hxy).2
  have hsubV : ∀ x ∈ c, x ∈ V := by
    intro x hx
    rcases cycle_neighbors rel c hcyc x hx with ⟨prev, next, -, -, -, -, hxn⟩
    exact hall x (adj_mem_relNodes rel hxn).1
  have hcne : ∃ x ∈ c, x ∈ V := by
    rcases hcyc with ⟨hlen, -, -, -⟩
    cases c with
    | nil => simp at hlen
    | cons w0 c' => exact ⟨w0, List.mem_cons_self _ _, hsubV w0 (List.mem_cons_self _ _)⟩
  rcases exists_earliest V hgood.2.2 c hcne with ⟨w, hwc, hwmin⟩
  rcases cycle_neighbors rel c hcyc w hwc with ⟨prev, next, hpc, hnc, hpn, hprev, hnext⟩
  have hPord : ∀ kv ∈ P, before_in V kv.1 kv.2 := fun kv hkv => (hgood.2.1 kv hkv).2.2
  rcases hedge prev w hprev with h1 | h1
  · exact hwmin prev hpc (hPord (prev, w) (alookup_mem h1))
  · rcases hedge w next hnext with h2 | h2
    · exact hpn (Option.some_injective _ (h1.symm.trans h2))
    · exact hwmin next hnc (hPord (next, w) (alookup_mem h2))

theorem cyc_loop_complete (rel : Rel) (hsym : ∀ x y, adjR rel x y → adjR rel y x) :
    ∀ (ts visited : List String) (P : List (String × String)) (c : List String),
      goodV rel visited [] P →
      cyc_loop rel ts visited = (false, c) →
      ∃ V' P', goodV rel V' [] P' ∧ (∀ x ∈ visited, x ∈ V') ∧ (∀ x ∈ ts, x ∈ V') := by
  intro ts
  induction ts with
  | nil =>
      intro visited P c hgood _
      exact ⟨visited, P, hgood, fun x hx => hx, fun x hx => by simp at hx⟩
  | cons t ts ih =>
      intro visited P c hgood h
      rw [cyc_loop_cons] at h
      by_cases ht : t ∈ visited
      · rw [if_pos ht] at h
        rcases ih visited P c hgood h with ⟨V', P', hg, hsub, hts⟩
        refine ⟨V', P', hg, hsub, ?_⟩
        intro x hx
        rcases List.mem_cons.mp hx with he | hx
        · exact he ▸ hsub t ht
        · exact hts x hx
      · rw [if_neg ht] at h
        by_cases hr : (dfs_visit rel (dfsFuel rel) t none (t :: visited) []).2 ≠ []
        · rw [if_pos hr] at h
          simp at h
        · rw [if_neg hr] at h
          push_neg at hr
          have hdv : dfs_visit rel (dfsFuel rel) t none (t :: visited) []
              = dfs_go rel (dfsFuel rel) (connected_tables rel t none) t none
                (t :: visited) ([] ++ [t]) := rfl
          rw [hdv] at hr h
          have hcomp := dfs_go_complete rel hsym (dfsFuel rel)
            (connected_tables rel t none) t none (t :: visited) ([] ++ [t]) P
            ?hm ?hns ?hproc ?hsubv ?hlast ?hpar ?hgood2 hr
          case hm =>
            have hc1 : (connected_tables rel t none).length ≤ rel.length :=
              connected_length_le rel t none
            have hc2 : pot rel (t :: visited) ≤ rel.length := by
              have h1 : pot rel (t :: visited) ≤ (seconds rel).length :=
                List.length_filter_le _ _
              have h2 : (seconds rel).length ≤ rel.length := by
                unfold seconds
                calc (dedupFirst (rel.map (fun r => r.1.2))).length
                    ≤ (rel.map (fun r => r.1.2)).length := dedupFirst_length_le _
                  _ = rel.length := List.length_map _ _
              omega
            have hmul : pot rel (t :: visited) * (rel.length + 1)
                ≤ rel.length * (rel.length + 1) := Nat.mul_le_mul_right _ hc2
            have hexp : (2 * rel.length + 1) * (rel.length + 1)
                = rel.length * (rel.length + 1) + rel.length * (rel.length + 1)
                  + rel.length + 1 := by ring
            unfold dfsFuel
            omega
          case hns =>
            intro m hm2
            exact (mem_connected_tables rel t none m).mp hm2
          case hproc =>
            intro y hady hyp
            exact Or.inl ((mem_connected_tables rel t none y).mpr ⟨hady, hyp⟩)
          case hsubv =>
            intro x hx
            simp only [List.nil_append, List.mem_singleton] at hx
            subst hx
            exact List.mem_cons_self _ _
          case hlast => simp
          case hpar =>
            intro pr hpr
            exact absurd hpr (by simp)
          case hgood2 =>
            refine ⟨?_, ?_, List.nodup_cons.mpr ⟨ht, hgood.2.2⟩⟩
            · intro x hx hxact y hady
              have hxt : x ≠ t := by
                intro he
                exact hxact (he ▸ by simp)
              have hxv : x ∈ visited := by
                rcases List.mem_cons.mp hx with he | hx
                · exact absurd he hxt
                · exact hx
              rcases hgood.1 x hxv (List.not_mem_nil x) y hady with ⟨hyv, hyc⟩
              exact ⟨List.mem_cons_of_mem _ hyv, hyc⟩
            · intro kv hkv
              rcases hgood.2.1 kv hkv with ⟨h1, h2, h3⟩
              exact ⟨List.mem_cons_of_mem _ h1, List.mem_cons_of_mem _ h2,
                before_in_cons t h3⟩
          rcases hcomp with ⟨Δ, hgood'⟩
          have hdrop : ((([] : List String) ++ [t])).dropLast = [] := rfl
          rw [hdrop] at hgood'
          have hmono : ∀ x ∈ t :: visited,
              x ∈ (dfs_go rel (dfsFuel rel) (connected_tables rel t none) t none
                (t :: visited) ([] ++ [t])).1 := fun x hx =>
            dfs_go_visited_mono rel (dfsFuel rel) _ _ _ _ _ x hx
          rcases ih _ (P ++ Δ) c hgood' h with ⟨V', P', hg, hsub, hts⟩
          refine ⟨V', P', hg, ?_, ?_⟩
          · intro x hx
            exact hsub x (hmono x (List.mem_cons_of_mem _ hx))
          · intro x hx
            rcases List.mem_cons.mp hx with he | hx
            · exact he ▸ hsub t (hmono t (List.mem_cons_self _ _))
            · exact hts x hx

/-- C4 counterexample: the square-plus-triangle graph contains the cycle
`T1 - T2 - T3 - T1`, but `_has_cyclic_relationships` reports the square
`["A", "B", "C", "D"]`, a path containing none of the three triangle tables —
the original claim's "a path that contains all three tables" fails. -/
theorem claim_C4_counterexample :
    has_cyclic_relationships relSqTri = (true, ["A", "B", "C", "D"]) ∧
    IsSimpleCycle relSqTri ["T1", "T2", "T3"] ∧
    "T1" ∉ (["A", "B", "C", "D"] : List String) ∧
    "T2" ∉ (["A", "B", "C", "D"] : List String) ∧
    "T3" ∉ (["A", "B", "C", "D"] : List String) := by
  refine ⟨by decide, ?_, by decide, by decide, by decide⟩
  refine ⟨by decide, by decide, ?_, "T1", "T3", rfl, rfl, by decide⟩
  exact List.chain'_cons.mpr ⟨by decide,
    List.chain'_cons.mpr ⟨by decide, List.chain'_singleton _⟩⟩

/-- **C4** (amended): cycle detection.  Over a relationship map whose keys are
stored bidirectionally and have no self-loops, `_has_cyclic_relationships`
returns `(true, c)` only for `c` a genuine simple cycle of the graph (at
least three distinct tables, consecutive edges, closing edge, starting at the
revisited node); whenever the graph has any simple cycle the flag is `true`;
and a `false` flag always comes with the empty path. -/
theorem claim_C4 (rel : Rel) (hsym : ∀ r ∈ rel, adjR rel r.1.2 r.1.1)
    (hirr : ∀ r ∈ rel, r.1.1 ≠ r.1.2) :
    (∀ c, has_cyclic_relationships rel = (true, c) → IsSimpleCycle rel c) ∧
    ((∃ c, IsSimpleCycle rel c) → (has_cyclic_relationships rel).1 = true) ∧
    ((has_cyclic_relationships rel).1 = false →
      has_cyclic_relationships rel = (false, [])) := by
  have hsym' : ∀ x y, adjR rel x y → adjR rel y x := by
    rintro x y ⟨r, hr, hfst⟩
    have h2 := hsym r hr
    rw [hfst] at h2
    exact h2
  have hirr' : ∀ x, ¬ adjR rel x x := by
    rintro x ⟨r, hr, hfst⟩
    have h1 : r.1.1 = x := by rw [hfst]
    have h2 : r.1.2 = x := by rw [hfst]
    exact hirr r hr (h1.trans h2.symm)
  refine ⟨?_, ?_, ?_⟩
  · intro c h
    exact cyc_loop_sound rel hirr' (relNodes rel) [] c h
  · rintro ⟨c, hc⟩
    by_contra hb
    rcases hres : has_cyclic_relationships rel with ⟨b, cc⟩
    cases b with
    | true =>
        refine hb ?_
        rw [hres]
    | false =>
        have hgood0 : goodV rel [] [] [] :=
          ⟨by intro x hx; simp at hx, by intro kv hkv; simp at hkv, by simp⟩
        rcases cyc_loop_complete rel hsym' (relNodes rel) [] [] cc hgood0 hres
          with ⟨V', P', hg, -, hts⟩
        exact cert_no_cycle rel V' P' hg hts c hc
  · intro h
    rcases hres : has_cyclic_relationships rel with ⟨b, cc⟩
    have hb : b = false := by
      rw [hres] at h
      exact h
    have hcc := cyc_loop_false rel (relNodes rel) [] b cc hres hb
    rw [hb, hcc]

/-- C4 witness: on the pure triangle `T1 - T2 - T3` the detector reports
`(true, ["T1", "T2", "T3"])`, a genuine simple cycle; the triangle's existence
forces the flag via the amended completeness; and the acyclic line graph
yields `(false, [])`. -/
theorem claim_C4_witness :
    has_cyclic_relationships relTri = (true, ["T1", "T2", "T3"]) ∧
    IsSimpleCycle relTri ["T1", "T2", "T3"] ∧
    (has_cyclic_relationships relTri).1 = true ∧
    has_cyclic_relationships relLine = (false, []) := by
  have h := claim_C4 relTri (by decide) (by decide)
  have h2 := claim_C4 relLine (by decide) (by decide)
  have htri : IsSimpleCycle relTri ["T1", "T2", "T3"] := by
    refine ⟨by decide, by decide, ?_, "T1", "T3", rfl, rfl, by decide⟩
    exact List.chain'_cons.mpr ⟨by decide,
      List.chain'_cons.mpr ⟨by decide, List.chain'_singleton _⟩⟩
  exact ⟨by decide, h.1 _ (by decide), h.2.1 ⟨_, htri⟩, h2.2.2 (by decide)⟩

end CubeAlchemy
